import Mathlib

/-!
Verification of the vio_fifo chunked, mark-aware byte FIFO (vio_fifo.c).

The FIFO is modelled shallowly: a lump is a record of an identity and its
byte buffer (a list of Nat, one per byte of storage); the FIFO is a record
of the lump list (head first, tail last), the cursor offsets, the two mark
flags, the spare lump, and allocation bookkeeping.  C pointers into lump
storage become (lump index, offset) pairs; two such pointers are equal as C
addresses exactly when both components agree, since distinct lumps occupy
disjoint allocations.  The aliasing selectors p_start, p_end and p_get_end
of the source are modelled as derived functions: the source recomputes the
cached p_get_end at every point where its constituents change (and its own
verifier aborts whenever cache and constituents disagree), so the cache
always equals the derived value.

Functions named vio_fifo_* are translated from vio_fifo.c.  The small
inline helpers vio_fifo_step and vio_fifo_get live in the header vio_fifo.h
which is not part of the sources at hand; they are modelled from the spec
(see their doc comments), as are the non-blocking descriptor primitives
read_nb / write_nb, which the spec treats as external collaborators
returning byte counts or distinguished error / EOF / would-block sentinels.
-/

/-- One lump: a fixed-capacity byte block.  The id field models the lump's
allocation identity (address); buf is its storage.  The lump embedded in the
FIFO structure (own_lump) is the one whose id equals the FIFO's ownId. -/
structure Lump where
  id : Nat
  buf : List Nat
deriving Repr, DecidableEq

/-- The FIFO state, translated from struct vio_fifo.  lumps is the ddl list,
head first.  getL/getO model get_lump/get_ptr, endL/endO model
end_lump/end_ptr, holdO models hold_ptr (always in the head lump), putO
models put_ptr (always in the tail lump).  hasHold models
p_start == amp-hold_ptr, hasEnd models p_end == amp-end_ptr.  put_end is
always tail's physical end (the lump capacity), so it needs no field. -/
structure Fifo where
  size : Nat
  lumps : List Lump
  getL : Nat
  getO : Nat
  endL : Nat
  endO : Nat
  holdO : Nat
  putO : Nat
  hasHold : Bool
  hasEnd : Bool
  spare : Option Lump
  ownId : Nat
  nextId : Nat
deriving Repr, DecidableEq

/-- Index of the tail lump. -/
def tailIdx (f : Fifo) : Nat := f.lumps.length - 1

/-- Buffer of the lump at index i (empty if out of range). -/
def lumpBuf (f : Fifo) (i : Nat) : List Nat :=
  match f.lumps.get? i with
  | some l => l.buf
  | none => []

/-- Translated from vio_fifo_have_hold_mark. -/
def vio_fifo_have_hold_mark (f : Fifo) : Bool := f.hasHold

/-- Translated from vio_fifo_have_end_mark. -/
def vio_fifo_have_end_mark (f : Fifo) : Bool := f.hasEnd

/-- The put_ptr as a (lump index, offset) pointer. -/
def putPtr (f : Fifo) : Nat × Nat := (tailIdx f, f.putO)

/-- The get_ptr as a (lump index, offset) pointer. -/
def getPtr (f : Fifo) : Nat × Nat := (f.getL, f.getO)

/-- The value of *p_end: end_ptr when an end mark is set, else put_ptr. -/
def pEndPtr (f : Fifo) : Nat × Nat :=
  if f.hasEnd then (f.endL, f.endO) else putPtr f

/-- The value of *p_start: hold_ptr when a hold mark is set, else get_ptr.
The hold_ptr lives in the head lump (index 0). -/
def pStartPtr (f : Fifo) : Nat × Nat :=
  if f.hasHold then (0, f.holdO) else getPtr f

/-- The value of *p_get_end as an offset inside get_lump: what
vio_fifo_set_get_end maintains, namely *p_end when get_lump == end_lump and
the physical end of get_lump otherwise.  (When get_lump == end_lump the
offset stored at p_end is an offset inside that same lump: end_ptr lives in
end_lump, and when no end mark is set end_lump is the tail, where put_ptr
lives.) -/
def pGetEndOff (f : Fifo) : Nat :=
  if f.getL = f.endL then (pEndPtr f).2 else f.size

/-- The FIFO is empty iff *p_start == put_ptr (as C pointers). -/
def fifoEmpty (f : Fifo) : Bool := pStartPtr f = putPtr f

/-- Translated from vio_fifo_reset_ptrs: point hold_ptr, get_ptr, end_ptr
and put_ptr at the start of the (single remaining) tail lump.  Preserves the
mark flags.  (get_lump/end_lump are not touched, as in the source.) -/
def vio_fifo_reset_ptrs (f : Fifo) : Fifo :=
  { f with holdO := 0, getO := 0, endO := 0, putO := 0 }

/-- Translated from vio_fifo_release_lump: if no spare is held the released
lump becomes the spare; otherwise the lump is freed, except that the
embedded own_lump is never freed - the current spare is freed instead and
the own_lump becomes the spare. -/
def vio_fifo_release_lump (f : Fifo) (l : Lump) : Fifo :=
  match f.spare with
  | none => { f with spare := some l }
  | some _ =>
    if l.id = f.ownId then { f with spare := some l }
    else f

/-- Pop the head lump off the list and release it (one step of
vio_fifo_release_upto).  The lump indices getL/endL shift down by one. -/
def release_pop (f : Fifo) : Fifo :=
  match f.lumps with
  | [] => f
  | l :: rest =>
      vio_fifo_release_lump
        { f with lumps := rest, getL := f.getL - 1, endL := f.endL - 1 } l

/-- Translated from vio_fifo_release_upto: release lumps from the head of
the list up to (but excluding) the lump that currently has index n, i.e.
pop and release n head lumps. -/
def vio_fifo_release_upto : Fifo → Nat → Fifo
  | f, 0 => f
  | f, n+1 => vio_fifo_release_upto (release_pop f) n

/-- Translated from vio_fifo_set_get_ptr.  NB: faithful to the source,
which sets get_ptr to lump->data and ignores its ptr argument entirely
(the third parameter below). -/
def vio_fifo_set_get_ptr (f : Fifo) (lumpIdx : Nat) (ptr : Nat) : Fifo :=
  let _ := ptr
  { f with getL := lumpIdx, getO := 0 }

/-- Translated from vio_fifo_sync_get: called when get_ptr has reached
*p_get_end.  In the end_lump, reset all pointers if the FIFO is completely
empty; otherwise step get to the start of the next lump and, when no hold
mark is set, release the lumps that precede it. -/
def vio_fifo_sync_get (f : Fifo) : Fifo :=
  if f.getL = f.endL then
    (if pStartPtr f = putPtr f then vio_fifo_reset_ptrs f else f)
  else
    let g := f.getL + 1
    let f1 := vio_fifo_set_get_ptr f g 0
    if f1.hasHold then f1 else vio_fifo_release_upto f1 g

/-- Overwrite buf starting at offset off with chunk (the memcpy of the put
path). -/
def listWrite (buf : List Nat) (off : Nat) (chunk : List Nat) : List Nat :=
  buf.take off ++ chunk ++ buf.drop (off + chunk.length)

/-- Apply g to the buffer of the lump at index n. -/
def modifyIdx : List Lump → Nat → (List Nat → List Nat) → List Lump
  | [], _, _ => []
  | l :: ls, 0, g => { l with buf := g l.buf } :: ls
  | l :: ls, n+1, g => l :: modifyIdx ls n g

/-- One memcpy into the tail lump at put_ptr, advancing put_ptr. -/
def writeChunk (f : Fifo) (chunk : List Nat) : Fifo :=
  { f with
    lumps := modifyIdx f.lumps (tailIdx f) (fun b => listWrite b f.putO chunk)
    putO := f.putO + chunk.length }

/-- Translated from vio_fifo_add_lump: append a lump (the spare if held,
else a newly allocated one) as the new tail.  If get_ptr == put_ptr the
get_ptr advances to the new lump's start; if put_ptr == *p_end the
end_lump/end_ptr advance likewise; finally put_ptr moves to the new lump's
start.  All comparisons use the pointer values before the update, as in the
source. -/
def vio_fifo_add_lump (f : Fifo) : Fifo :=
  let nb := match f.spare with
    | some s => s
    | none => { id := f.nextId, buf := List.replicate f.size 0 }
  let nx := match f.spare with
    | some _ => f.nextId
    | none => f.nextId + 1
  let newIdx := tailIdx f + 1
  let moveGet := getPtr f = (tailIdx f, f.putO)
  let moveEnd := (tailIdx f, f.putO) = pEndPtr f
  { f with
    lumps := f.lumps ++ [nb]
    spare := none
    nextId := nx
    getL := if moveGet then newIdx else f.getL
    getO := if moveGet then 0 else f.getO
    endL := if moveEnd then newIdx else f.endL
    endO := if moveEnd then 0 else f.endO
    putO := 0 }

/-- Loop body of vio_fifo_put_bytes, with fuel equal to the initial length
of src (each iteration consumes at least one byte of src whenever the lump
size is positive, so the fuel never runs out for a FIFO made by
vio_fifo_new). -/
def vio_fifo_put_bytes_go : Nat → Fifo → List Nat → Fifo
  | _, f, [] => f
  | 0, f, _ => f
  | fuel+1, f, src =>
    let f1 := if f.size ≤ f.putO then vio_fifo_add_lump f else f
    let t := min (f1.size - f1.putO) src.length
    let f2 := writeChunk f1 (src.take t)
    vio_fifo_put_bytes_go fuel f2 (src.drop t)

/-- Translated from vio_fifo_put_bytes: put the bytes of src, allocating
lumps as required. -/
def vio_fifo_put_bytes (f : Fifo) (src : List Nat) : Fifo :=
  vio_fifo_put_bytes_go src.length f src

/-- Modelled from the spec: vio_fifo_get, the inline header helper used by
the get path, returns how much can be got without stepping between lumps,
namely *p_get_end - get_ptr (spec 4.1: the visible-limit-for-GET selector). -/
def vio_fifo_get (f : Fifo) : Nat := pGetEndOff f - f.getO

/-- Modelled from the spec: vio_fifo_step, the inline header helper used by
the get path, advances get_ptr by the number of bytes got and, when it
reaches *p_get_end, runs the advance-GET protocol vio_fifo_sync_get
(spec 4.1). -/
def vio_fifo_step (f : Fifo) (s : Nat) : Fifo :=
  let f1 := { f with getO := f.getO + s }
  if pGetEndOff f1 ≤ f1.getO then vio_fifo_sync_get f1 else f1

/-- The bytes memcpy reads from get_lump at get_ptr. -/
def readChunk (f : Fifo) (n : Nat) : List Nat :=
  ((lumpBuf f f.getL).drop f.getO).take n

/-- Loop body of vio_fifo_get_bytes, with fuel equal to the request (each
iteration takes at least one byte off the request). -/
def vio_fifo_get_bytes_go : Nat → Fifo → Nat → List Nat × Fifo
  | _, f, 0 => ([], f)
  | 0, f, _+1 => ([], f)
  | fuel+1, f, n+1 =>
    let avail := pGetEndOff f - f.getO
    let t := min avail (n+1)
    if t = 0 then ([], f)
    else
      let bs := readChunk f t
      let f1 := vio_fifo_step f t
      let pr := vio_fifo_get_bytes_go fuel f1 (n+1 - t)
      (bs ++ pr.1, pr.2)

/-- Translated from vio_fifo_get_bytes: get up to n bytes, stepping past
the bytes fetched; returns the bytes got (the C function copies them to dst
and returns their count) together with the new FIFO state. -/
def vio_fifo_get_bytes (f : Fifo) (n : Nat) : List Nat × Fifo :=
  vio_fifo_get_bytes_go n f n

/-- A drain loop: successive vio_fifo_get_bytes calls with the given
request sizes, concatenating all bytes returned. -/
def getDrain : Fifo → List Nat → List Nat × Fifo
  | f, [] => ([], f)
  | f, n :: ns =>
    let p := vio_fifo_get_bytes f n
    let q := getDrain p.2 ns
    (p.1 ++ q.1, q.2)

/-- Translated from vio_fifo_set_end_mark: activate the end mark at the
current put_ptr (moving any existing mark forward to it). -/
def vio_fifo_set_end_mark (f : Fifo) : Fifo :=
  { f with hasEnd := true, endO := f.putO, endL := tailIdx f }

/-- Translated from vio_fifo_step_end_mark: advance an active end mark to
the current put_ptr; no-op when inactive. -/
def vio_fifo_step_end_mark (f : Fifo) : Fifo :=
  if f.hasEnd then { f with endO := f.putO, endL := tailIdx f } else f

/-- Translated from vio_fifo_clear_end_mark: deactivate the end mark;
end_lump reverts to the tail. -/
def vio_fifo_clear_end_mark (f : Fifo) : Fifo :=
  { f with hasEnd := false, endL := tailIdx f }

/-- Pop the tail lump off the list and release it (one step of the
ddl_crop loop of vio_fifo_back_to_end_mark). -/
def crop_pop (f : Fifo) : Fifo :=
  match f.lumps.getLast? with
  | none => f
  | some l => vio_fifo_release_lump { f with lumps := f.lumps.dropLast } l

/-- Crop n lumps off the tail. -/
def crop_n : Fifo → Nat → Fifo
  | f, 0 => f
  | f, n+1 => crop_n (crop_pop f) n

/-- Translated from vio_fifo_back_to_end_mark: when there is a not-empty
end mark (i.e. *p_end != put_ptr), crop the lumps after end_lump, then
either reset all pointers (if *p_start == end_ptr, the FIFO became empty)
or move put_ptr back to end_ptr; finally clear the mark unless keep. -/
def vio_fifo_back_to_end_mark (f : Fifo) (keep : Bool) : Fifo :=
  let f1 :=
    if pEndPtr f ≠ putPtr f then
      let f2 := if f.endL ≠ tailIdx f then crop_n f (tailIdx f - f.endL) else f
      if pStartPtr f2 = (f2.endL, f2.endO) then vio_fifo_reset_ptrs f2
      else { f2 with putO := f2.endO }
    else f
  if keep then f1 else { f1 with hasEnd := false }

/-- Translated from vio_fifo_set_hold_mark: discard everything before the
current get_ptr, then activate the hold mark at get_ptr (resetting all
pointers when the FIFO is empty). -/
def vio_fifo_set_hold_mark (f : Fifo) : Fifo :=
  let f1 := vio_fifo_release_upto f f.getL
  let f2 := if getPtr f1 = putPtr f1 then vio_fifo_reset_ptrs f1
            else { f1 with holdO := f1.getO }
  { f2 with hasHold := true }

/-- Translated from vio_fifo_clear_hold_mark: discard everything before the
current get_ptr, then deactivate the hold mark. -/
def vio_fifo_clear_hold_mark (f : Fifo) : Fifo :=
  let f1 := vio_fifo_release_upto f f.getL
  let f2 := if getPtr f1 = putPtr f1 then vio_fifo_reset_ptrs f1 else f1
  { f2 with hasHold := false }

/-- Translated from vio_fifo_back_to_hold_mark: when a hold mark is set,
call vio_fifo_set_get_ptr on the head lump and the hold_ptr (NB: faithful
to the source, set_get_ptr ignores that pointer and moves get_ptr to the
head lump's data start); then leave the mark set or cleared as requested. -/
def vio_fifo_back_to_hold_mark (f : Fifo) (set : Bool) : Fifo :=
  let f1 := if f.hasHold then vio_fifo_set_get_ptr f 0 f.holdO else f
  { f1 with hasHold := set }

/-- Translated from vio_fifo_skip_to_end: move get_lump/get_ptr directly to
end_lump / *p_end (and p_get_end to p_end, which the derived selector
reflects automatically), then synchronise. -/
def vio_fifo_skip_to_end (f : Fifo) : Fifo :=
  vio_fifo_sync_get { f with getL := f.endL, getO := (pEndPtr f).2 }

/-- Translated from vio_fifo_clear: release all lumps except the tail,
make the tail the get_lump/end_lump, reset all pointers, and optionally
deactivate both marks. -/
def vio_fifo_clear (f : Fifo) (clearMarks : Bool) : Fifo :=
  let t := tailIdx f
  let f1 := vio_fifo_release_upto f t
  let f2 := vio_fifo_reset_ptrs { f1 with getL := 0, endL := 0 }
  if clearMarks then { f2 with hasHold := false, hasEnd := false } else f2

/-- Modelled from the spec: the process-wide default lump size applied when
vio_fifo_new is given size 0.  The constant VIO_FIFO_DEFAULT_LUMP_SIZE is
defined in the header vio_fifo.h, which is not among the sources; no claim
depends on its value. -/
def VIO_FIFO_DEFAULT_LUMP_SIZE : Nat := 4096

/-- Translated from vio_fifo_new: size 0 selects the default, the size is
rounded up to a 128 byte boundary, and the FIFO starts with the single
embedded own_lump and every cursor at its start. -/
def vio_fifo_new (size0 : Nat) : Fifo :=
  let size1 := if size0 = 0 then VIO_FIFO_DEFAULT_LUMP_SIZE else size0
  let size := ((size1 + 128 - 1) / 128) * 128
  { size := size
    lumps := [{ id := 0, buf := List.replicate size 0 }]
    getL := 0, getO := 0, endL := 0, endO := 0, holdO := 0, putO := 0
    hasHold := false, hasEnd := false
    spare := none, ownId := 0, nextId := 1 }

/-- Bytes of the lump at index i between offsets a and b. -/
def lumpSeg (f : Fifo) (i a b : Nat) : List Nat :=
  ((lumpBuf f i).take b).drop a

/-- Loop of vio_fifo_copy over the lumps from get_lump to end_lump; fuel is
the number of remaining iterations. -/
def copy_go (src : Fifo) : Nat → Fifo → Nat → Nat → Fifo
  | 0, d, _, _ => d
  | fuel+1, d, i, off =>
    let sEnd := if i = src.endL then (pEndPtr src).2 else src.size
    let d1 := vio_fifo_put_bytes d (lumpSeg src i off sEnd)
    if i = src.endL then d1 else copy_go src fuel d1 (i+1) 0

/-- Translated from vio_fifo_copy: append everything from src's get_ptr up
to its end mark or put_ptr to dst, creating dst (sized like src) if there
is none.  The source only reads src. -/
def vio_fifo_copy (dst : Option Fifo) (src : Fifo) : Fifo :=
  let d := match dst with
    | none => vio_fifo_new src.size
    | some d0 => d0
  copy_go src (src.endL - src.getL + 1) d src.getL src.getO

/-- Loop of vio_fifo_copy_tail over the lumps from end_lump to the tail. -/
def copy_tail_go (src : Fifo) : Nat → Fifo → Nat → Nat → Fifo
  | 0, d, _, _ => d
  | fuel+1, d, i, off =>
    let sEnd := if i = tailIdx src then src.putO else src.size
    let d1 := vio_fifo_put_bytes d (lumpSeg src i off sEnd)
    if i = tailIdx src then d1 else copy_tail_go src fuel d1 (i+1) 0

/-- Translated from vio_fifo_copy_tail: append everything from src's end
mark up to its put_ptr to dst, creating dst (sized like src) if there is
none; when src has no end mark nothing is copied and dst (possibly freshly
created) is returned as is. -/
def vio_fifo_copy_tail (dst : Option Fifo) (src : Fifo) : Fifo :=
  let d := match dst with
    | none => vio_fifo_new src.size
    | some d0 => d0
  if !vio_fifo_have_end_mark src then d
  else copy_tail_go src (tailIdx src - src.endL + 1) d src.endL src.endO

/-- One result of the external non-blocking read primitive: some bytes
ready on the descriptor, a would-block condition, a hard error, or
end-of-input. -/
inductive RdEv where
  | data (bs : List Nat)
  | block
  | err
  | eof
deriving Repr, DecidableEq

/-- Modelled from the spec: the non-blocking descriptor read primitive
read_nb, an external collaborator returning the byte count read (reading at
most len bytes of what the descriptor has ready), 0 for would-block, -1 for
a hard error and -2 for end-of-input. -/
def read_nb_prim (ev : RdEv) (len : Nat) : Int × List Nat :=
  match ev with
  | .data bs => let t := min bs.length len; ((t : Int), bs.take t)
  | .block => (0, [])
  | .err => (-1, [])
  | .eof => (-2, [])

/-- Loop body of vio_fifo_read_nb.  The descriptor is modelled as the list
of results its successive reads deliver; an exhausted list behaves as
would-block.  total counts the bytes read so far in this call. -/
def vio_fifo_read_nb_go : Fifo → List RdEv → Nat → Nat → Int × Fifo
  | f, [], _, total => ((total : Int), f)
  | f, ev :: evs, request, total =>
    let f1 := if f.size ≤ f.putO then vio_fifo_add_lump f else f
    let request1 := if f.size ≤ f.putO then request - 1 else request
    let r := read_nb_prim ev (f1.size - f1.putO)
    if r.1 ≤ 0 then
      (if r.1 = -2 then (if 0 < total then ((total : Int), f1) else (-2, f1))
       else (if r.1 = 0 then ((total : Int), f1) else (r.1, f1)))
    else
      let f2 := writeChunk f1 r.2
      let total2 := total + r.2.length
      if 0 < request1 then vio_fifo_read_nb_go f2 evs request1 total2
      else ((total2 : Int), f2)

/-- Translated from vio_fifo_read_nb: read up to the end of the current
lump, then as many whole lumps as requested; stop on would-block, error or
end-of-input.  Returns the byte count read, or -1 for failed, or -2 for EOF
met immediately. -/
def vio_fifo_read_nb (f : Fifo) (evs : List RdEv) (request : Nat) : Int × Fifo :=
  vio_fifo_read_nb_go f evs request 0

/-- One result of the external non-blocking write primitive: the sink
accepts up to k bytes (fewer than offered means it then blocks), or fails. -/
inductive WrEv where
  | accept (k : Nat)
  | werr
deriving Repr, DecidableEq

/-- Modelled from the spec: the non-blocking descriptor write primitive
write_nb, an external collaborator returning how many bytes the sink took
(possibly fewer than offered, possibly 0) or -1 for a hard error. -/
def write_nb_prim (ev : WrEv) (have0 : Nat) : Int :=
  match ev with
  | .accept k => ((min k have0 : Nat) : Int)
  | .werr => -1

/-- Loop body of vio_fifo_write_nb.  The sink is modelled as the list of
results its successive writes deliver; an exhausted list behaves as a sink
that accepts nothing (would-block).  Returns the result code, the new FIFO
state, and the bytes the sink actually received. -/
def vio_fifo_write_nb_go : Fifo → List WrEv → Bool → List Nat → Int × Fifo × List Nat
  | f, evs, all, written =>
    if f.getL = f.endL && !all then (0, f, written)
    else
      let have0 := vio_fifo_get f
      if have0 = 0 then (0, f, written)
      else
        match evs with
        | [] => (1, f, written)
        | ev :: rest =>
          let done := write_nb_prim ev have0
          if done < 0 then (-1, f, written)
          else
            let dn := done.toNat
            let chunk := readChunk f dn
            let f1 := vio_fifo_step f dn
            if done < (have0 : Int) then (1, f1, written ++ chunk)
            else vio_fifo_write_nb_go f1 rest all (written ++ chunk)

/-- Translated from vio_fifo_write_nb: write the FIFO contents lump-wise to
a non-blocking sink, not writing the end_lump unless all is requested.
Returns 1 for blocked, 0 for all gone (up to the last lump if not all),
-1 for failed. -/
def vio_fifo_write_nb (f : Fifo) (evs : List WrEv) (all : Bool) : Int × Fifo × List Nat :=
  vio_fifo_write_nb_go f evs all []

/-!
Abstraction layer: global byte positions and regions.

All lumps of a well-formed FIFO have buffers of length size, so the pointer
(lump index i, offset o) corresponds to the global position i * size + o in
the concatenation of all lump buffers.  The regions of interest (the bytes
a consumer may read, the provisional bytes beyond an end mark, and the
whole get-to-put content) are segments of that concatenation.
-/

/-- Segment of a list between positions a and b. -/
def seg (l : List Nat) (a b : Nat) : List Nat := (l.take b).drop a

/-- Global position of a (lump index, offset) pointer. -/
def gpos (f : Fifo) (p : Nat × Nat) : Nat := p.1 * f.size + p.2

/-- Concatenation of all lump buffers, head lump first. -/
def flatF (f : Fifo) : List Nat := (f.lumps.map fun l => l.buf).flatten

/-- The bytes a consumer may currently read: from get_ptr to *p_end. -/
def visibleF (f : Fifo) : List Nat :=
  seg (flatF f) (gpos f (getPtr f)) (gpos f (pEndPtr f))

/-- The provisional bytes: from *p_end to put_ptr (empty unless an end
mark is set strictly before put_ptr). -/
def provF (f : Fifo) : List Nat :=
  seg (flatF f) (gpos f (pEndPtr f)) (gpos f (putPtr f))

/-- Everything between get_ptr and put_ptr. -/
def contF (f : Fifo) : List Nat :=
  seg (flatF f) (gpos f (getPtr f)) (gpos f (putPtr f))

/-- The embedded own_lump (identified by its id) is either present in the
lump list or is exactly the current spare (spec invariant 7). -/
def ownP (f : Fifo) : Prop :=
  (∃ l ∈ f.lumps, l.id = f.ownId) ∨ (∃ s ∈ f.spare.toList, s.id = f.ownId)

instance (f : Fifo) : Decidable (ownP f) := by
  unfold ownP
  infer_instance

theorem seg_eq_nil_of_le {l : List Nat} {a b : Nat} (h : b ≤ a) :
    seg l a b = [] := by
  apply List.drop_eq_nil_of_le
  calc (l.take b).length ≤ b := by simp
  _ ≤ a := h

theorem seg_length {l : List Nat} {a b : Nat} :
    (seg l a b).length = min b l.length - a := by
  simp [seg]

theorem seg_split {l : List Nat} {a b c : Nat} (hab : a ≤ b) (hbc : b ≤ c) :
    seg l a c = seg l a b ++ seg l b c := by
  by_cases hb : b ≤ l.length
  · unfold seg
    have hc : c = b + (c - b) := by omega
    rw [hc, List.take_add, List.drop_append_of_le_length (by simp; omega),
        List.drop_take]
    congr 1
    have : (l.take b).drop b = [] := by
      apply List.drop_eq_nil_of_le; simp
    rw [List.drop_append_of_le_length (by simp; omega)] at *
    simp [this]
  · have h1 : l.take b = l := List.take_of_length_le (by omega)
    have h2 : l.take c = l := List.take_of_length_le (by omega)
    unfold seg
    rw [h1, h2, List.drop_eq_nil_of_le (show l.length ≤ b by omega)]
    simp

theorem seg_take {l : List Nat} {a b t : Nat} (h : a + t ≤ b) :
    (seg l a b).take t = seg l a (a + t) := by
  unfold seg
  rw [List.drop_take, List.drop_take, List.take_take]
  congr 1
  omega

theorem seg_drop {l : List Nat} {a b t : Nat} :
    (seg l a b).drop t = seg l (a + t) b := by
  unfold seg
  rw [List.drop_drop]

theorem seg_append_of_le {l l2 : List Nat} {a b : Nat} (h : b ≤ l.length) :
    seg (l ++ l2) a b = seg l a b := by
  unfold seg
  rw [List.take_append_of_le_length h]

theorem seg_drop_shift {l : List Nat} {s a b : Nat} :
    seg (l.drop s) a b = seg l (s + a) (s + b) := by
  unfold seg
  rw [List.drop_take, List.drop_drop, List.drop_take]
  congr 1
  omega

theorem listWrite_length {buf chunk : List Nat} {off : Nat}
    (h : off + chunk.length ≤ buf.length) :
    (listWrite buf off chunk).length = buf.length := by
  simp [listWrite]
  omega

theorem listWrite_nil {buf : List Nat} {off : Nat} :
    listWrite buf off [] = buf := by
  simp [listWrite]

theorem seg_listWrite_of_le {buf chunk : List Nat} {off a b : Nat}
    (hb : b ≤ off) (hoff : off ≤ buf.length) :
    seg (listWrite buf off chunk) a b = seg buf a b := by
  unfold seg listWrite
  rw [List.append_assoc,
      List.take_append_of_le_length (by simp; omega),
      List.take_take]
  congr 2
  omega

theorem take_listWrite {buf chunk : List Nat} {off : Nat}
    (hoff : off ≤ buf.length) :
    (listWrite buf off chunk).take (off + chunk.length) = buf.take off ++ chunk := by
  unfold listWrite
  rw [List.append_assoc]
  rw [show off + chunk.length = (buf.take off).length + chunk.length by
        simp; omega]
  rw [List.take_append, List.take_append_of_le_length (by simp), List.take_length]

theorem seg_listWrite_append {buf chunk : List Nat} {off a : Nat}
    (ha : a ≤ off) (hoff : off ≤ buf.length) :
    seg (listWrite buf off chunk) a (off + chunk.length) =
      seg buf a off ++ chunk := by
  unfold seg
  rw [take_listWrite hoff, List.drop_append_of_le_length (by simp; omega)]

theorem listWrite_append_left {x y chunk : List Nat} {p : Nat} :
    listWrite (x ++ y) (x.length + p) chunk = x ++ listWrite y p chunk := by
  unfold listWrite
  rw [List.take_append,
      show x.length + p + chunk.length = x.length + (p + chunk.length) by omega,
      List.drop_append]
  simp [List.append_assoc]

theorem flatten_length_of_wf {bs : List (List Nat)} {size : Nat}
    (h : ∀ b ∈ bs, b.length = size) :
    bs.flatten.length = bs.length * size := by
  induction bs with
  | nil => simp
  | cons b rest ih =>
    simp only [List.flatten_cons, List.length_append, List.length_cons]
    rw [h b (by simp), ih (fun x hx => h x (by simp [hx]))]
    ring

theorem flatten_drop_of_wf {bs : List (List Nat)} {size : Nat}
    (h : ∀ b ∈ bs, b.length = size) (m : Nat) :
    bs.flatten.drop (m * size) = (bs.drop m).flatten := by
  induction m generalizing bs with
  | zero => simp
  | succ m ih =>
    cases bs with
    | nil => simp
    | cons b rest =>
      simp only [List.flatten_cons]
      rw [show (m + 1) * size = b.length + m * size by
            rw [h b (by simp)]; ring,
          List.drop_append, ih (fun x hx => h x (by simp [hx]))]
      simp

theorem flatten_take_of_wf {bs : List (List Nat)} {size : Nat}
    (h : ∀ b ∈ bs, b.length = size) (m : Nat) :
    bs.flatten.take (m * size) = (bs.take m).flatten := by
  induction m generalizing bs with
  | zero => simp
  | succ m ih =>
    cases bs with
    | nil => simp
    | cons b rest =>
      simp only [List.flatten_cons]
      rw [show (m + 1) * size = b.length + m * size by
            rw [h b (by simp)]; ring,
          List.take_append, ih (fun x hx => h x (by simp [hx]))]
      simp

/-- Length of the flat view of a well-formed FIFO. -/
theorem flatF_length {f : Fifo} (hwf : ∀ l ∈ f.lumps, l.buf.length = f.size) :
    (flatF f).length = f.lumps.length * f.size := by
  unfold flatF
  rw [@flatten_length_of_wf _ f.size (by simpa using hwf)]
  simp

/-- A segment inside one lump of the flat view is a segment of that lump. -/
theorem seg_flatF {f : Fifo} (hwf : ∀ l ∈ f.lumps, l.buf.length = f.size)
    {i a b : Nat} (hi : i < f.lumps.length) (hb : b ≤ f.size) :
    seg (flatF f) (i * f.size + a) (i * f.size + b) = seg (lumpBuf f i) a b := by
  have hwfb : ∀ x ∈ f.lumps.map (fun l => l.buf), x.length = f.size := by
    simpa using hwf
  have h1 : seg (flatF f) (i * f.size + a) (i * f.size + b)
      = seg ((flatF f).drop (i * f.size)) a b := (seg_drop_shift).symm
  rw [h1]
  unfold flatF at *
  rw [flatten_drop_of_wf hwfb i]
  have hi' : i < (f.lumps.map (fun l => l.buf)).length := by simpa using hi
  rw [List.drop_eq_getElem_cons hi']
  have hbuf : (f.lumps.map (fun l => l.buf))[i] = lumpBuf f i := by
    unfold lumpBuf
    rw [List.get?_eq_getElem?, List.getElem?_eq_getElem hi]
    simp
  rw [show ((f.lumps.map (fun l => l.buf))[i] :: List.drop (i+1) (f.lumps.map (fun l => l.buf))).flatten
        = (f.lumps.map (fun l => l.buf))[i] ++ (List.drop (i+1) (f.lumps.map (fun l => l.buf))).flatten
      from rfl]
  rw [seg_append_of_le (by rw [hwfb _ (List.getElem_mem hi')]; exact hb), hbuf]

theorem modifyIdx_length {ls : List Lump} {n : Nat} {g : List Nat → List Nat} :
    (modifyIdx ls n g).length = ls.length := by
  induction ls generalizing n with
  | nil => simp [modifyIdx]
  | cons l rest ih =>
    cases n with
    | zero => simp [modifyIdx]
    | succ m => simp [modifyIdx, ih]

theorem flat_modify_last {ls : List Lump} {size off : Nat} {chunk : List Nat}
    (h : ∀ l ∈ ls, l.buf.length = size) (hne : ls ≠ []) :
    ((modifyIdx ls (ls.length - 1) (fun b => listWrite b off chunk)).map
        (fun l => l.buf)).flatten
      = listWrite ((ls.map fun l => l.buf).flatten)
          ((ls.length - 1) * size + off) chunk := by
  induction ls with
  | nil => exact absurd rfl hne
  | cons l rest ih =>
    cases hrest : rest with
    | nil =>
      subst hrest
      simp [modifyIdx]
    | cons r rs =>
      have hrne : rest ≠ [] := by rw [hrest]; simp
      have hlen : (l :: rest).length - 1 = (rest.length - 1) + 1 := by
        rw [hrest]; simp
      rw [← hrest]
      rw [hlen]
      show ((l :: modifyIdx rest (rest.length - 1) (fun b => listWrite b off chunk)).map
          (fun l => l.buf)).flatten = _
      simp only [List.map_cons, List.flatten_cons]
      rw [ih (fun x hx => h x (by simp [hx])) hrne]
      have hstep : (rest.length - 1 + 1) * size + off
          = l.buf.length + ((rest.length - 1) * size + off) := by
        rw [h l (by simp)]
        ring
      rw [hstep, listWrite_append_left]

/-- Flat view of one memcpy into the tail lump. -/
theorem flatF_writeChunk {f : Fifo} {chunk : List Nat}
    (hwf : ∀ l ∈ f.lumps, l.buf.length = f.size) (hne : f.lumps ≠ []) :
    flatF (writeChunk f chunk)
      = listWrite (flatF f) (gpos f (putPtr f)) chunk := by
  unfold flatF writeChunk gpos putPtr tailIdx
  exact flat_modify_last hwf hne

theorem modifyIdx_wf {ls : List Lump} {n : Nat} {g : List Nat → List Nat}
    {size : Nat} (h : ∀ l ∈ ls, l.buf.length = size)
    (hg : ∀ b : List Nat, b.length = size → (g b).length = size) :
    ∀ l ∈ modifyIdx ls n g, l.buf.length = size := by
  induction ls generalizing n with
  | nil => simp [modifyIdx]
  | cons l rest ih =>
    cases n with
    | zero =>
      intro x hx
      simp only [modifyIdx, List.mem_cons] at hx
      rcases hx with hx | hx
      · subst hx; exact hg _ (h l (by simp))
      · exact h x (by simp [hx])
    | succ m =>
      intro x hx
      simp only [modifyIdx, List.mem_cons] at hx
      rcases hx with hx | hx
      · subst hx; exact h x (by simp)
      · exact ih (fun y hy => h y (by simp [hy])) x hx

/-!
The FIFO invariant, transcribed from vio_fifo_verify (the debug checker the
source runs after every mutating operation): at least one lump; the lump
order head to get_lump to end_lump to tail; get_lump is the head when no
hold mark is set, end_lump is the tail when no end mark is set; every
cursor lies within its lump; hold_ptr at most get_ptr and end_ptr at most
put_ptr when in the same lump; get_ptr at *p_get_end only when the FIFO is
empty or a mark is set; and an empty FIFO has collapsed to a single lump
with get_ptr and put_ptr at its start.  Two clauses tighten the checker to
facts that hold in every reachable state: get_ptr is strictly inside its
lump when get_lump is not end_lump (the advance-GET protocol never leaves
it at the boundary), and an end mark strictly before the tail lump is
strictly inside its lump (vio_fifo_add_lump moves a mark sitting at the
tail's physical end onto the new lump).
-/
structure FifoInv (f : Fifo) : Prop where
  size_pos : 0 < f.size
  ne : f.lumps ≠ []
  wf : ∀ l ∈ f.lumps, l.buf.length = f.size
  spare_wf : ∀ s ∈ f.spare.toList, s.buf.length = f.size
  getL_le : f.getL ≤ f.endL
  endL_lt : f.endL < f.lumps.length
  hold_getL : f.hasHold = false → f.getL = 0
  end_endL : f.hasEnd = false → f.endL = tailIdx f
  hold_le : f.hasHold = true → f.holdO ≤ f.size ∧ (f.getL = 0 → f.holdO ≤ f.getO)
  getO_le : f.getO ≤ pGetEndOff f
  end_le : f.hasEnd = true →
    f.endO ≤ f.size ∧ (f.endL = tailIdx f → f.endO ≤ f.putO) ∧
    (f.endL < tailIdx f → f.endO < f.size)
  putO_le : f.putO ≤ f.size
  getO_lt : f.getL ≠ f.endL → f.getO < f.size
  at_end : f.getO = pGetEndOff f →
    fifoEmpty f = true ∨ f.hasHold = true ∨ f.hasEnd = true
  empty_shape : fifoEmpty f = true →
    f.lumps.length = 1 ∧ f.getL = 0 ∧ f.endL = 0 ∧ f.getO = 0 ∧ f.putO = 0

/-- The invariant as a plain conjunction, for decidability. -/
def FifoInvP (f : Fifo) : Prop :=
  0 < f.size ∧
  f.lumps ≠ [] ∧
  (∀ l ∈ f.lumps, l.buf.length = f.size) ∧
  (∀ s ∈ f.spare.toList, s.buf.length = f.size) ∧
  f.getL ≤ f.endL ∧
  f.endL < f.lumps.length ∧
  (f.hasHold = false → f.getL = 0) ∧
  (f.hasEnd = false → f.endL = tailIdx f) ∧
  (f.hasHold = true → f.holdO ≤ f.size ∧ (f.getL = 0 → f.holdO ≤ f.getO)) ∧
  f.getO ≤ pGetEndOff f ∧
  (f.hasEnd = true →
    f.endO ≤ f.size ∧ (f.endL = tailIdx f → f.endO ≤ f.putO) ∧
    (f.endL < tailIdx f → f.endO < f.size)) ∧
  f.putO ≤ f.size ∧
  (f.getL ≠ f.endL → f.getO < f.size) ∧
  (f.getO = pGetEndOff f →
    fifoEmpty f = true ∨ f.hasHold = true ∨ f.hasEnd = true) ∧
  (fifoEmpty f = true →
    f.lumps.length = 1 ∧ f.getL = 0 ∧ f.endL = 0 ∧ f.getO = 0 ∧ f.putO = 0)

theorem fifoInv_iff_invP (f : Fifo) : FifoInv f ↔ FifoInvP f := by
  constructor
  · intro h
    exact ⟨h.size_pos, h.ne, h.wf, h.spare_wf, h.getL_le, h.endL_lt,
      h.hold_getL, h.end_endL, h.hold_le, h.getO_le, h.end_le, h.putO_le,
      h.getO_lt, h.at_end, h.empty_shape⟩
  · intro h
    obtain ⟨h1, h2, h3, h4, h5, h6, h7, h8, h9, h10, h11, h12, h13, h14, h15⟩ := h
    exact ⟨h1, h2, h3, h4, h5, h6, h7, h8, h9, h10, h11, h12, h13, h14, h15⟩


instance (f : Fifo) : Decidable (FifoInvP f) := by
  unfold FifoInvP
  infer_instance

instance (f : Fifo) : Decidable (FifoInv f) :=
  decidable_of_iff (FifoInvP f) (fifoInv_iff_invP f).symm

theorem pEndPtr_fst {f : Fifo} (h : FifoInv f) : (pEndPtr f).1 = f.endL := by
  unfold pEndPtr putPtr
  split_ifs with he
  · rfl
  · exact (h.end_endL (by simpa using he)).symm

theorem pEndPtr_snd_le {f : Fifo} (h : FifoInv f) : (pEndPtr f).2 ≤ f.size := by
  unfold pEndPtr putPtr
  split_ifs with he
  · exact (h.end_le he).1
  · exact h.putO_le

theorem pGetEnd_le_size {f : Fifo} (h : FifoInv f) : pGetEndOff f ≤ f.size := by
  unfold pGetEndOff
  split_ifs with h1
  · exact pEndPtr_snd_le h
  · exact le_refl _

/-- Global get position is at most global visible end. -/
theorem gget_le_gpend {f : Fifo} (h : FifoInv f) :
    gpos f (getPtr f) ≤ gpos f (pEndPtr f) := by
  show f.getL * f.size + f.getO ≤ (pEndPtr f).1 * f.size + (pEndPtr f).2
  rw [pEndPtr_fst h]
  by_cases hge : f.getL = f.endL
  · have h2 : f.getO ≤ (pEndPtr f).2 := by
      have h3 := h.getO_le
      unfold pGetEndOff at h3
      rwa [if_pos hge] at h3
    rw [← hge]
    omega
  · have hlt : f.getL < f.endL := lt_of_le_of_ne h.getL_le hge
    have hgo : f.getO < f.size := h.getO_lt hge
    have e1 : (f.getL + 1) * f.size = f.getL * f.size + f.size := by ring
    have e2 : (f.getL + 1) * f.size ≤ f.endL * f.size :=
      Nat.mul_le_mul_right _ hlt
    omega

/-- Global visible end is at most global put position. -/
theorem gpend_le_gput {f : Fifo} (h : FifoInv f) :
    gpos f (pEndPtr f) ≤ gpos f (putPtr f) := by
  show (pEndPtr f).1 * f.size + (pEndPtr f).2 ≤ tailIdx f * f.size + f.putO
  rw [pEndPtr_fst h]
  by_cases he : f.hasEnd
  · have hsnd : (pEndPtr f).2 = f.endO := by unfold pEndPtr; rw [if_pos he]
    rw [hsnd]
    have hle : f.endL ≤ tailIdx f := by
      have := h.endL_lt
      unfold tailIdx
      omega
    rcases Nat.lt_or_ge f.endL (tailIdx f) with hlt | hge
    · have heo : f.endO < f.size := (h.end_le he).2.2 hlt
      have e1 : (f.endL + 1) * f.size = f.endL * f.size + f.size := by ring
      have e2 : (f.endL + 1) * f.size ≤ tailIdx f * f.size :=
        Nat.mul_le_mul_right _ hlt
      omega
    · have heq : f.endL = tailIdx f := le_antisymm hle hge
      have := (h.end_le he).2.1 heq
      rw [heq]
      omega
  · have hE : f.endL = tailIdx f := h.end_endL (by simpa using he)
    have hsnd : (pEndPtr f).2 = f.putO := by
      unfold pEndPtr putPtr
      rw [if_neg (by simpa using he)]
    rw [hsnd, hE]

/-- Global put position is at most the flat length. -/
theorem gput_le_flatlen {f : Fifo} (h : FifoInv f) :
    gpos f (putPtr f) ≤ (flatF f).length := by
  rw [flatF_length h.wf]
  show tailIdx f * f.size + f.putO ≤ f.lumps.length * f.size
  have hk : 0 < f.lumps.length := List.length_pos.mpr h.ne
  have hp := h.putO_le
  have e1 : tailIdx f * f.size + f.size = (tailIdx f + 1) * f.size := by ring
  have e2 : tailIdx f + 1 = f.lumps.length := by unfold tailIdx; omega
  calc tailIdx f * f.size + f.putO ≤ tailIdx f * f.size + f.size := by omega
  _ = f.lumps.length * f.size := by rw [e1, e2]

/-- Normal form of the visible-limit selector over the record fields. -/
theorem pGetEndOff_cases (f : Fifo) :
    pGetEndOff f =
      if f.getL = f.endL then (if f.hasEnd then f.endO else f.putO) else f.size := by
  unfold pGetEndOff pEndPtr putPtr
  split_ifs <;> rfl

/-- When get_lump is the tail lump, get_ptr is at most put_ptr. -/
theorem getO_le_putO_of_getL_eq_tail {f : Fifo} (hI : FifoInv f)
    (hgt : f.getL = tailIdx f) : f.getO ≤ f.putO := by
  have hk : 0 < f.lumps.length := List.length_pos.mpr hI.ne
  have hge : f.getL = f.endL := by
    have := hI.getL_le
    have := hI.endL_lt
    unfold tailIdx at hgt
    omega
  have hel : f.endL = tailIdx f := by rw [← hge, hgt]
  have hgo := hI.getO_le
  rw [pGetEndOff_cases, if_pos hge] at hgo
  by_cases he : f.hasEnd
  · rw [if_pos he] at hgo
    have heo : f.endO ≤ f.putO := (hI.end_le he).2.1 hel
    omega
  · rw [if_neg he] at hgo
    exact hgo

/-- The p_start pointer never equals a position strictly beyond put_ptr
in the tail lump. -/
theorem pStart_ne_put_plus {f : Fifo} (hI : FifoInv f) {n : Nat} (hn : 0 < n) :
    pStartPtr f ≠ (tailIdx f, f.putO + n) := by
  intro h
  unfold pStartPtr getPtr at h
  by_cases hh : f.hasHold
  · rw [if_pos hh, Prod.mk.injEq] at h
    obtain ⟨h1, h2⟩ := h
    have hk : f.lumps.length = 1 := by
      have := List.length_pos.mpr hI.ne
      unfold tailIdx at h1
      omega
    have hgl : f.getL = 0 := by
      have := hI.getL_le
      have := hI.endL_lt
      omega
    have hgt : f.getL = tailIdx f := by unfold tailIdx; omega
    have hho : f.holdO ≤ f.getO := (hI.hold_le hh).2 hgl
    have := getO_le_putO_of_getL_eq_tail hI hgt
    omega
  · rw [if_neg hh, Prod.mk.injEq] at h
    obtain ⟨h1, h2⟩ := h
    have := getO_le_putO_of_getL_eq_tail hI h1
    omega

theorem tailIdx_writeChunk {f : Fifo} {c : List Nat} :
    tailIdx (writeChunk f c) = tailIdx f := by
  unfold tailIdx
  rw [show (writeChunk f c).lumps.length = f.lumps.length from modifyIdx_length]

theorem pStartPtr_writeChunk {f : Fifo} {c : List Nat} :
    pStartPtr (writeChunk f c) = pStartPtr f := by
  unfold pStartPtr getPtr
  by_cases hh : f.hasHold
  · rw [if_pos (show (writeChunk f c).hasHold = true from hh), if_pos hh]
    rfl
  · rw [if_neg (show ¬(writeChunk f c).hasHold = true from hh), if_neg hh]
    rfl

theorem fifoEmpty_writeChunk_false {f : Fifo} {c : List Nat} (hI : FifoInv f)
    (hc : c ≠ []) :
    fifoEmpty (writeChunk f c) = false := by
  have hn : 0 < c.length := List.length_pos.mpr hc
  unfold fifoEmpty
  rw [decide_eq_false_iff_not]
  intro hcontra
  rw [pStartPtr_writeChunk] at hcontra
  have e2 : putPtr (writeChunk f c) = (tailIdx f, f.putO + c.length) := by
    unfold putPtr
    rw [tailIdx_writeChunk]
    rfl
  rw [e2] at hcontra
  exact pStart_ne_put_plus hI hn hcontra

theorem pGetEndOff_writeChunk {f : Fifo} {c : List Nat} :
    pGetEndOff (writeChunk f c) =
      if f.getL = f.endL then
        (if f.hasEnd then f.endO else f.putO + c.length) else f.size := by
  simp only [pGetEndOff, pEndPtr, putPtr, writeChunk]
  split_ifs <;> rfl

theorem writeChunk_wf {f : Fifo} {c : List Nat}
    (hwf : ∀ l ∈ f.lumps, l.buf.length = f.size)
    (hfit : f.putO + c.length ≤ f.size) :
    ∀ l ∈ (writeChunk f c).lumps, l.buf.length = f.size := by
  apply modifyIdx_wf hwf
  intro b hb
  have hb2 : f.putO + c.length ≤ b.length := by rw [hb]; exact hfit
  rw [listWrite_length hb2, hb]

/-- The memcpy step preserves the invariant (at least one byte written, and
the chunk fits in the tail lump). -/
theorem fifoInv_writeChunk {f : Fifo} {c : List Nat} (hI : FifoInv f)
    (hfit : f.putO + c.length ≤ f.size) (hc : c ≠ []) :
    FifoInv (writeChunk f c) := by
  have hn : 0 < c.length := List.length_pos.mpr hc
  have hlen : (writeChunk f c).lumps.length = f.lumps.length := modifyIdx_length
  have hT := @tailIdx_writeChunk f c
  have hpge := @pGetEndOff_writeChunk f c
  refine ⟨hI.size_pos, ?_, writeChunk_wf hI.wf hfit, hI.spare_wf, hI.getL_le,
    ?_, hI.hold_getL, ?_, hI.hold_le, ?_, ?_, hfit, hI.getO_lt, ?_, ?_⟩
  · rw [← List.length_pos, hlen]
    exact List.length_pos.mpr hI.ne
  · rw [hlen]
    exact hI.endL_lt
  · intro h
    have h2 := hI.end_endL h
    show (writeChunk f c).endL = tailIdx (writeChunk f c)
    rw [hT]
    exact h2
  · show f.getO ≤ pGetEndOff (writeChunk f c)
    rw [hpge]
    have hbase := hI.getO_le
    rw [pGetEndOff_cases] at hbase
    split_ifs at hbase ⊢ with h1 h2
    · exact hbase
    · omega
    · exact hbase
  · intro he
    obtain ⟨ha, hb, hc2⟩ := hI.end_le he
    refine ⟨ha, ?_, ?_⟩
    · intro ht
      rw [hT] at ht
      show f.endO ≤ f.putO + c.length
      have := hb ht
      omega
    · intro ht
      rw [hT] at ht
      exact hc2 ht
  · intro hat
    have hat2 : f.getO = pGetEndOff (writeChunk f c) := hat
    rw [hpge] at hat2
    by_cases h1 : f.getL = f.endL
    · rw [if_pos h1] at hat2
      by_cases h2 : f.hasEnd
      · right; right; exact h2
      · rw [if_neg h2] at hat2
        have hbase := hI.getO_le
        rw [pGetEndOff_cases, if_pos h1, if_neg h2] at hbase
        omega
    · rw [if_neg h1] at hat2
      have := hI.getO_lt h1
      omega
  · intro hemp
    rw [fifoEmpty_writeChunk_false hI hc] at hemp
    simp at hemp

theorem gput_writeChunk {f : Fifo} {c : List Nat} :
    gpos (writeChunk f c) (putPtr (writeChunk f c))
      = gpos f (putPtr f) + c.length := by
  unfold gpos putPtr
  rw [tailIdx_writeChunk]
  show tailIdx f * f.size + (f.putO + c.length) = tailIdx f * f.size + f.putO + c.length
  omega

/-- The content from get_ptr to put_ptr grows by exactly the chunk. -/
theorem contF_writeChunk {f : Fifo} {c : List Nat} (hI : FifoInv f)
    (hfit : f.putO + c.length ≤ f.size) :
    contF (writeChunk f c) = contF f ++ c := by
  unfold contF
  have e1 : gpos (writeChunk f c) (getPtr (writeChunk f c)) = gpos f (getPtr f) := rfl
  rw [e1, gput_writeChunk, flatF_writeChunk hI.wf hI.ne]
  have hle : gpos f (getPtr f) ≤ gpos f (putPtr f) :=
    le_trans (gget_le_gpend hI) (gpend_le_gput hI)
  exact seg_listWrite_append hle (gput_le_flatlen hI)

theorem pEndPtr_writeChunk_end {f : Fifo} {c : List Nat} (he : f.hasEnd = true) :
    pEndPtr (writeChunk f c) = pEndPtr f := by
  unfold pEndPtr
  rw [if_pos (show (writeChunk f c).hasEnd = true from he), if_pos he]
  rfl

/-- With an end mark set, the visible bytes are untouched by a put. -/
theorem visibleF_writeChunk_end {f : Fifo} {c : List Nat} (hI : FifoInv f)
    (he : f.hasEnd = true) :
    visibleF (writeChunk f c) = visibleF f := by
  unfold visibleF
  have e1 : gpos (writeChunk f c) (getPtr (writeChunk f c)) = gpos f (getPtr f) := rfl
  have e2 : gpos (writeChunk f c) (pEndPtr (writeChunk f c)) = gpos f (pEndPtr f) := by
    rw [pEndPtr_writeChunk_end he]
    rfl
  rw [e1, e2, flatF_writeChunk hI.wf hI.ne]
  exact seg_listWrite_of_le (gpend_le_gput hI) (gput_le_flatlen hI)

/-- With an end mark set, a put appends to the provisional region. -/
theorem provF_writeChunk_end {f : Fifo} {c : List Nat} (hI : FifoInv f)
    (he : f.hasEnd = true) (hfit : f.putO + c.length ≤ f.size) :
    provF (writeChunk f c) = provF f ++ c := by
  unfold provF
  have e2 : gpos (writeChunk f c) (pEndPtr (writeChunk f c)) = gpos f (pEndPtr f) := by
    rw [pEndPtr_writeChunk_end he]
    rfl
  rw [e2, gput_writeChunk, flatF_writeChunk hI.wf hI.ne]
  exact seg_listWrite_append (gpend_le_gput hI) (gput_le_flatlen hI)

/-- With no end mark, the visible region is everything up to put_ptr. -/
theorem visibleF_eq_contF {f : Fifo} (he : f.hasEnd = false) :
    visibleF f = contF f := by
  unfold visibleF contF pEndPtr
  rw [if_neg (by simp [he])]

theorem provF_eq_nil {f : Fifo} (he : f.hasEnd = false) : provF f = [] := by
  unfold provF pEndPtr
  rw [if_neg (by simp [he])]
  exact seg_eq_nil_of_le (le_refl _)

/-- The visible region splits as visible plus provisional into the whole
get-to-put content. -/
theorem contF_eq_visible_append_prov {f : Fifo} (hI : FifoInv f) :
    contF f = visibleF f ++ provF f := by
  unfold contF visibleF provF
  exact seg_split (gget_le_gpend hI) (gpend_le_gput hI)

theorem add_lump_lumps_length (f : Fifo) :
    (vio_fifo_add_lump f).lumps.length = f.lumps.length + 1 := by
  rcases hs : f.spare with _ | s <;> simp [vio_fifo_add_lump, hs]

theorem add_lump_exists_nb (f : Fifo) :
    ∃ nb : Lump, (vio_fifo_add_lump f).lumps = f.lumps ++ [nb] ∧
      ((∀ s ∈ f.spare.toList, s.buf.length = f.size) → nb.buf.length = f.size) := by
  rcases hs : f.spare with _ | s
  · exact ⟨{ id := f.nextId, buf := List.replicate f.size 0 },
      by simp [vio_fifo_add_lump, hs], fun _ => by simp⟩
  · exact ⟨s, by simp [vio_fifo_add_lump, hs], fun hw => hw s (by simp [hs])⟩

theorem add_lump_getL (f : Fifo) :
    (vio_fifo_add_lump f).getL =
      if getPtr f = (tailIdx f, f.putO) then tailIdx f + 1 else f.getL := rfl

theorem add_lump_getO (f : Fifo) :
    (vio_fifo_add_lump f).getO =
      if getPtr f = (tailIdx f, f.putO) then 0 else f.getO := rfl

theorem add_lump_endL (f : Fifo) :
    (vio_fifo_add_lump f).endL =
      if (tailIdx f, f.putO) = pEndPtr f then tailIdx f + 1 else f.endL := rfl

theorem add_lump_endO (f : Fifo) :
    (vio_fifo_add_lump f).endO =
      if (tailIdx f, f.putO) = pEndPtr f then 0 else f.endO := rfl

theorem add_lump_tailIdx (f : Fifo) :
    tailIdx (vio_fifo_add_lump f) = f.lumps.length := by
  unfold tailIdx
  rw [add_lump_lumps_length]
  omega

/-- When get_ptr equals put_ptr at the moment a lump is added, a hold mark
must be set (otherwise the FIFO would have been empty and reset, while
vio_fifo_add_lump is only called with the tail lump full). -/
theorem add_lump_moveGet_hold {f : Fifo} (hI : FifoInv f) (hput : f.putO = f.size)
    (hmg : getPtr f = (tailIdx f, f.putO)) : f.hasHold = true := by
  by_contra hh
  have hh2 : f.hasHold = false := by
    cases hcase : f.hasHold
    · rfl
    · exact absurd hcase hh
  have hemp : fifoEmpty f = true := by
    unfold fifoEmpty pStartPtr putPtr
    rw [if_neg (by simp [hh2]), hmg]
    simp
  have := (hI.empty_shape hemp).2.2.2.2
  have := hI.size_pos
  omega

/-- When get_ptr equals put_ptr at the moment a lump is added, the end
pointer also equals put_ptr. -/
theorem add_lump_moveGet_moveEnd {f : Fifo} (hI : FifoInv f) (hput : f.putO = f.size)
    (hmg : getPtr f = (tailIdx f, f.putO)) : (tailIdx f, f.putO) = pEndPtr f := by
  unfold getPtr at hmg
  rw [Prod.mk.injEq] at hmg
  obtain ⟨hg1, hg2⟩ := hmg
  by_cases he : f.hasEnd
  · have hk : 0 < f.lumps.length := List.length_pos.mpr hI.ne
    have hel : f.endL = tailIdx f := by
      have := hI.getL_le
      have := hI.endL_lt
      unfold tailIdx at *
      omega
    have hgeteq : f.getL = f.endL := by omega
    have hgo := hI.getO_le
    rw [pGetEndOff_cases, if_pos hgeteq, if_pos he] at hgo
    have heo : f.endO ≤ f.putO := (hI.end_le he).2.1 hel
    have heq : f.endO = f.putO := by omega
    unfold pEndPtr
    rw [if_pos he, hel, heq]
  · unfold pEndPtr putPtr
    rw [if_neg (by simp [he])]

theorem fifoEmpty_add_lump_false {f : Fifo} (hI : FifoInv f)
    (hput : f.putO = f.size) :
    fifoEmpty (vio_fifo_add_lump f) = false := by
  have hk : 0 < f.lumps.length := List.length_pos.mpr hI.ne
  unfold fifoEmpty
  rw [decide_eq_false_iff_not]
  intro hcontra
  unfold pStartPtr putPtr at hcontra
  rw [add_lump_tailIdx] at hcontra
  by_cases hh : f.hasHold
  · rw [if_pos (show (vio_fifo_add_lump f).hasHold = true from hh),
        Prod.mk.injEq] at hcontra
    obtain ⟨h1, h2⟩ := hcontra
    omega
  · rw [if_neg (show ¬(vio_fifo_add_lump f).hasHold = true from hh)] at hcontra
    unfold getPtr at hcontra
    rw [Prod.mk.injEq, add_lump_getL] at hcontra
    obtain ⟨h1, h2⟩ := hcontra
    by_cases hmg : getPtr f = (tailIdx f, f.putO)
    · exact absurd (add_lump_moveGet_hold hI hput hmg) (by simp [hh])
    · rw [if_neg hmg] at h1
      have := hI.getL_le
      have := hI.endL_lt
      omega

theorem add_lump_size (f : Fifo) : (vio_fifo_add_lump f).size = f.size := rfl

theorem add_lump_gget {f : Fifo} (hput : f.putO = f.size) :
    gpos (vio_fifo_add_lump f) (getPtr (vio_fifo_add_lump f))
      = gpos f (getPtr f) := by
  unfold gpos getPtr
  rw [add_lump_getL, add_lump_getO, add_lump_size]
  by_cases hmg : getPtr f = (tailIdx f, f.putO)
  · rw [if_pos hmg, if_pos hmg]
    unfold getPtr at hmg
    rw [Prod.mk.injEq] at hmg
    obtain ⟨h1, h2⟩ := hmg
    rw [h1, h2, hput]
    ring
  · rw [if_neg hmg, if_neg hmg]

theorem add_lump_gput {f : Fifo} (hI : FifoInv f) (hput : f.putO = f.size) :
    gpos (vio_fifo_add_lump f) (putPtr (vio_fifo_add_lump f))
      = gpos f (putPtr f) := by
  have hk : 0 < f.lumps.length := List.length_pos.mpr hI.ne
  unfold gpos putPtr
  rw [add_lump_tailIdx, add_lump_size]
  show f.lumps.length * f.size + 0 = tailIdx f * f.size + f.putO
  rw [hput]
  unfold tailIdx
  have e1 : (f.lumps.length - 1) * f.size + f.size = (f.lumps.length - 1 + 1) * f.size := by
    ring
  have e2 : f.lumps.length - 1 + 1 = f.lumps.length := by omega
  rw [e2] at e1
  omega

theorem add_lump_gpend {f : Fifo} (hI : FifoInv f) (hput : f.putO = f.size) :
    gpos (vio_fifo_add_lump f) (pEndPtr (vio_fifo_add_lump f))
      = gpos f (pEndPtr f) := by
  by_cases he : f.hasEnd
  · have e1 : pEndPtr (vio_fifo_add_lump f)
        = ((vio_fifo_add_lump f).endL, (vio_fifo_add_lump f).endO) := by
      unfold pEndPtr
      rw [if_pos (show (vio_fifo_add_lump f).hasEnd = true from he)]
    have e2 : pEndPtr f = (f.endL, f.endO) := by
      unfold pEndPtr
      rw [if_pos he]
    rw [e1, e2]
    unfold gpos
    rw [add_lump_endL, add_lump_endO, add_lump_size]
    by_cases hme : (tailIdx f, f.putO) = pEndPtr f
    · rw [if_pos hme, if_pos hme]
      rw [e2, Prod.mk.injEq] at hme
      obtain ⟨h1, h2⟩ := hme
      rw [← h1, ← h2, hput]
      ring
    · rw [if_neg hme, if_neg hme]
  · have e1 : pEndPtr (vio_fifo_add_lump f) = putPtr (vio_fifo_add_lump f) := by
      unfold pEndPtr
      rw [if_neg (show ¬(vio_fifo_add_lump f).hasEnd = true from he)]
    have e2 : pEndPtr f = putPtr f := by
      unfold pEndPtr
      rw [if_neg he]
    rw [e1, e2]
    exact add_lump_gput hI hput

theorem add_lump_flatF {f : Fifo} (hI : FifoInv f) :
    ∃ nb : Lump, nb.buf.length = f.size ∧
      flatF (vio_fifo_add_lump f) = flatF f ++ nb.buf := by
  obtain ⟨nb, hl, hlen⟩ := add_lump_exists_nb f
  refine ⟨nb, hlen hI.spare_wf, ?_⟩
  unfold flatF
  rw [hl]
  simp

/-- Adding a lump moves no cursor position and so changes no region. -/
theorem add_lump_regions {f : Fifo} (hI : FifoInv f) (hput : f.putO = f.size) :
    visibleF (vio_fifo_add_lump f) = visibleF f ∧
    provF (vio_fifo_add_lump f) = provF f ∧
    contF (vio_fifo_add_lump f) = contF f := by
  obtain ⟨nb, hnb, hflat⟩ := add_lump_flatF hI
  have h1 := add_lump_gget hput
  have h2 := add_lump_gput hI hput
  have h3 := add_lump_gpend hI hput
  have hb1 : gpos f (pEndPtr f) ≤ (flatF f).length :=
    le_trans (gpend_le_gput hI) (gput_le_flatlen hI)
  have hb2 : gpos f (putPtr f) ≤ (flatF f).length := gput_le_flatlen hI
  refine ⟨?_, ?_, ?_⟩
  · unfold visibleF
    rw [h1, h3, hflat]
    exact seg_append_of_le hb1
  · unfold provF
    rw [h2, h3, hflat]
    exact seg_append_of_le hb2
  · unfold contF
    rw [h1, h2, hflat]
    exact seg_append_of_le hb2

theorem add_lump_hasHold (f : Fifo) :
    (vio_fifo_add_lump f).hasHold = f.hasHold := rfl

theorem add_lump_hasEnd (f : Fifo) :
    (vio_fifo_add_lump f).hasEnd = f.hasEnd := rfl

theorem add_lump_putO (f : Fifo) : (vio_fifo_add_lump f).putO = 0 := rfl

theorem add_lump_holdO (f : Fifo) : (vio_fifo_add_lump f).holdO = f.holdO := rfl

theorem add_lump_spare (f : Fifo) : (vio_fifo_add_lump f).spare = none := rfl

/-- Adding a lump preserves the invariant (called only with the tail lump
full, as the source asserts). -/
theorem fifoInv_add_lump {f : Fifo} (hI : FifoInv f) (hput : f.putO = f.size) :
    FifoInv (vio_fifo_add_lump f) := by
  have hk : 0 < f.lumps.length := List.length_pos.mpr hI.ne
  have hsz := hI.size_pos
  obtain ⟨nb, hl, hlenf⟩ := add_lump_exists_nb f
  have hne2 : (vio_fifo_add_lump f).lumps ≠ [] := by rw [hl]; simp
  have hwf2 : ∀ l ∈ (vio_fifo_add_lump f).lumps, l.buf.length = f.size := by
    rw [hl]
    intro l hx
    rcases List.mem_append.mp hx with hx | hx
    · exact hI.wf l hx
    · rw [List.mem_singleton.mp hx]
      exact hlenf hI.spare_wf
  have hsp2 : ∀ s ∈ (vio_fifo_add_lump f).spare.toList, s.buf.length = f.size := by
    rw [add_lump_spare]
    intro s hs
    simp at hs
  have hlen2 : (vio_fifo_add_lump f).lumps.length = f.lumps.length + 1 :=
    add_lump_lumps_length f
  have hemp2 : fifoEmpty (vio_fifo_add_lump f) = false :=
    fifoEmpty_add_lump_false hI hput
  have hshape : fifoEmpty (vio_fifo_add_lump f) = true →
      (vio_fifo_add_lump f).lumps.length = 1 ∧ (vio_fifo_add_lump f).getL = 0 ∧
      (vio_fifo_add_lump f).endL = 0 ∧ (vio_fifo_add_lump f).getO = 0 ∧
      (vio_fifo_add_lump f).putO = 0 := by
    intro h
    rw [hemp2] at h
    simp at h
  by_cases hmg : getPtr f = (tailIdx f, f.putO)
  · -- getPtr advances with put: a hold mark is set, and the end moves too
    have hhold := add_lump_moveGet_hold hI hput hmg
    have hme := add_lump_moveGet_moveEnd hI hput hmg
    have hgl : (vio_fifo_add_lump f).getL = tailIdx f + 1 := by
      rw [add_lump_getL, if_pos hmg]
    have hgo : (vio_fifo_add_lump f).getO = 0 := by
      rw [add_lump_getO, if_pos hmg]
    have helq : (vio_fifo_add_lump f).endL = tailIdx f + 1 := by
      rw [add_lump_endL, if_pos hme]
    have heoq : (vio_fifo_add_lump f).endO = 0 := by
      rw [add_lump_endO, if_pos hme]
    refine ⟨hsz, hne2, hwf2, hsp2, ?_, ?_, ?_, ?_, ?_, ?_, ?_, ?_, ?_, ?_, hshape⟩
    · rw [hgl, helq]
    · rw [helq, hlen2]
      unfold tailIdx
      omega
    · intro h
      have h2 : f.hasHold = false := h
      rw [hhold] at h2
      simp at h2
    · intro _
      rw [helq, add_lump_tailIdx]
      unfold tailIdx
      omega
    · intro h
      exact ⟨(hI.hold_le h).1, fun habs => by rw [hgl] at habs; omega⟩
    · rw [hgo]
      exact Nat.zero_le _
    · intro _
      rw [heoq, add_lump_putO]
      exact ⟨Nat.zero_le _, fun _ => Nat.le_refl _, fun _ => hsz⟩
    · rw [add_lump_putO]
      exact Nat.zero_le _
    · intro habs
      rw [hgl, helq] at habs
      exact absurd rfl habs
    · intro _
      right; left
      exact hhold
  · -- getPtr stays put
    have hgl : (vio_fifo_add_lump f).getL = f.getL := by
      rw [add_lump_getL, if_neg hmg]
    have hgo : (vio_fifo_add_lump f).getO = f.getO := by
      rw [add_lump_getO, if_neg hmg]
    have hglt : f.getL < f.lumps.length := lt_of_le_of_lt hI.getL_le hI.endL_lt
    by_cases hme : (tailIdx f, f.putO) = pEndPtr f
    · -- the end pointer moves to the new lump
      have helq : (vio_fifo_add_lump f).endL = tailIdx f + 1 := by
        rw [add_lump_endL, if_pos hme]
      have heoq : (vio_fifo_add_lump f).endO = 0 := by
        rw [add_lump_endO, if_pos hme]
      have hgne : (vio_fifo_add_lump f).getL ≠ (vio_fifo_add_lump f).endL := by
        rw [hgl, helq]
        unfold tailIdx
        omega
      have hpgA : pGetEndOff (vio_fifo_add_lump f) = f.size := by
        rw [pGetEndOff_cases, if_neg hgne, add_lump_size]
      -- get_ptr is strictly inside its lump here
      have hgolt : f.getO < f.size := by
        by_cases hgeo : f.getL = f.endL
        · have hgo2 := hI.getO_le
          rw [pGetEndOff_cases, if_pos hgeo] at hgo2
          have hTgl : f.getL = tailIdx f := by
            by_cases he : f.hasEnd
            · have h3 := hme
              unfold pEndPtr at h3
              rw [if_pos he, Prod.mk.injEq] at h3
              omega
            · rw [hgeo]
              exact hI.end_endL (by simp [he])
          have hgns : f.getO ≠ f.size := by
            intro hfull
            apply hmg
            unfold getPtr
            rw [Prod.mk.injEq]
            refine ⟨hTgl, ?_⟩
            omega
          have hgle : f.getO ≤ f.size := le_trans hI.getO_le (pGetEnd_le_size hI)
          omega
        · exact hI.getO_lt hgeo
      refine ⟨hsz, hne2, hwf2, hsp2, ?_, ?_, ?_, ?_, ?_, ?_, ?_, ?_, ?_, ?_, hshape⟩
      · rw [hgl, helq]
        unfold tailIdx
        omega
      · rw [helq, hlen2]
        unfold tailIdx
        omega
      · intro h
        rw [hgl]
        exact hI.hold_getL h
      · intro _
        rw [helq, add_lump_tailIdx]
        unfold tailIdx
        omega
      · intro h
        refine ⟨(hI.hold_le h).1, ?_⟩
        intro hg0
        rw [hgl] at hg0
        rw [add_lump_holdO, hgo]
        exact (hI.hold_le h).2 hg0
      · rw [hgo, hpgA]
        omega
      · intro _
        rw [heoq, add_lump_putO]
        exact ⟨Nat.zero_le _, fun _ => Nat.le_refl _, fun _ => hsz⟩
      · rw [add_lump_putO]
        exact Nat.zero_le _
      · intro _
        rw [hgo]
        exact hgolt
      · intro hat
        rw [hgo, hpgA] at hat
        omega
    · -- neither pointer moves: an end mark is set strictly before put_ptr
      have he : f.hasEnd = true := by
        by_contra hcontra
        apply hme
        unfold pEndPtr putPtr
        rw [if_neg (by simpa using hcontra)]
      have helq : (vio_fifo_add_lump f).endL = f.endL := by
        rw [add_lump_endL, if_neg hme]
      have heoq : (vio_fifo_add_lump f).endO = f.endO := by
        rw [add_lump_endO, if_neg hme]
      have hpgA : pGetEndOff (vio_fifo_add_lump f) = pGetEndOff f := by
        rw [pGetEndOff_cases, pGetEndOff_cases, hgl, helq, heoq,
            add_lump_hasEnd, add_lump_size]
        simp [he]
      refine ⟨hsz, hne2, hwf2, hsp2, ?_, ?_, ?_, ?_, ?_, ?_, ?_, ?_, ?_, ?_, hshape⟩
      · rw [hgl, helq]
        exact hI.getL_le
      · rw [helq, hlen2]
        have := hI.endL_lt
        omega
      · intro h
        rw [hgl]
        exact hI.hold_getL h
      · intro h
        have h2 : f.hasEnd = false := h
        rw [he] at h2
        simp at h2
      · intro h
        refine ⟨(hI.hold_le h).1, ?_⟩
        intro hg0
        rw [hgl] at hg0
        rw [add_lump_holdO, hgo]
        exact (hI.hold_le h).2 hg0
      · rw [hgo, hpgA]
        exact hI.getO_le
      · intro _
        rw [heoq, helq, add_lump_tailIdx, add_lump_size]
        refine ⟨(hI.end_le he).1, ?_, ?_⟩
        · intro ht
          have := hI.endL_lt
          omega
        · intro _
          rcases Nat.lt_or_ge f.endL (tailIdx f) with hlt | hge
          · exact (hI.end_le he).2.2 hlt
          · have heT : f.endL = tailIdx f := by
              have := hI.endL_lt
              unfold tailIdx at *
              omega
            have hne3 : f.putO ≠ f.endO := by
              intro habs
              apply hme
              unfold pEndPtr
              rw [if_pos he, heT, habs]
            have hle3 : f.endO ≤ f.putO := (hI.end_le he).2.1 heT
            omega
      · rw [add_lump_putO]
        exact Nat.zero_le _
      · intro hne3
        rw [hgl, helq] at hne3
        rw [hgo]
        exact hI.getO_lt hne3
      · intro hat
        rw [hgo, hpgA] at hat
        rcases hI.at_end hat with hempf | hrest
        · have := (hI.empty_shape hempf).2.2.2.2
          omega
        · rcases hrest with hh | hh
          · right; left; exact hh
          · right; right; exact hh

/-- The space-ensuring step at the top of the put loop. -/
theorem ensure_space_spec {f : Fifo} (hI : FifoInv f) :
    FifoInv (if f.size ≤ f.putO then vio_fifo_add_lump f else f) ∧
    (if f.size ≤ f.putO then vio_fifo_add_lump f else f).putO <
      (if f.size ≤ f.putO then vio_fifo_add_lump f else f).size ∧
    (if f.size ≤ f.putO then vio_fifo_add_lump f else f).size = f.size ∧
    (if f.size ≤ f.putO then vio_fifo_add_lump f else f).hasHold = f.hasHold ∧
    (if f.size ≤ f.putO then vio_fifo_add_lump f else f).hasEnd = f.hasEnd ∧
    visibleF (if f.size ≤ f.putO then vio_fifo_add_lump f else f) = visibleF f ∧
    provF (if f.size ≤ f.putO then vio_fifo_add_lump f else f) = provF f ∧
    contF (if f.size ≤ f.putO then vio_fifo_add_lump f else f) = contF f := by
  by_cases hfull : f.size ≤ f.putO
  · have hput : f.putO = f.size := le_antisymm hI.putO_le hfull
    rw [if_pos hfull]
    obtain ⟨hv, hp, hcref⟩ := add_lump_regions hI hput
    refine ⟨fifoInv_add_lump hI hput, ?_, rfl, rfl, rfl, hv, hp, hcref⟩
    rw [add_lump_putO, add_lump_size]
    exact hI.size_pos
  · rw [if_neg hfull]
    exact ⟨hI, by omega, rfl, rfl, rfl, rfl, rfl, rfl⟩

theorem put_bytes_go_spec (fuel : Nat) : ∀ (f : Fifo) (src : List Nat),
    FifoInv f → src.length ≤ fuel →
    FifoInv (vio_fifo_put_bytes_go fuel f src) ∧
    (vio_fifo_put_bytes_go fuel f src).size = f.size ∧
    (vio_fifo_put_bytes_go fuel f src).hasHold = f.hasHold ∧
    (vio_fifo_put_bytes_go fuel f src).hasEnd = f.hasEnd ∧
    contF (vio_fifo_put_bytes_go fuel f src) = contF f ++ src ∧
    (f.hasEnd = true → visibleF (vio_fifo_put_bytes_go fuel f src) = visibleF f ∧
      provF (vio_fifo_put_bytes_go fuel f src) = provF f ++ src) := by
  induction fuel with
  | zero =>
    intro f src hI hlen
    have hsrc : src = [] := List.eq_nil_of_length_eq_zero (by omega)
    subst hsrc
    simp only [vio_fifo_put_bytes_go]
    exact ⟨hI, by simp, by simp, by simp, by simp, fun _ => ⟨by simp, by simp⟩⟩
  | succ fuel ih =>
    intro f src hI hlen
    rcases src with _ | ⟨s, ss⟩
    · simp only [vio_fifo_put_bytes_go]
      exact ⟨hI, by simp, by simp, by simp, by simp, fun _ => ⟨by simp, by simp⟩⟩
    · simp only [vio_fifo_put_bytes_go]
      obtain ⟨hI1, hlt1, hsz1, hh1, he1, hv1, hp1, hc1⟩ := ensure_space_spec hI
      set f1 := if f.size ≤ f.putO then vio_fifo_add_lump f else f with hf1
      set t := min (f1.size - f1.putO) (s :: ss).length with ht
      have hlc : (s :: ss).length = ss.length + 1 := rfl
      have htpos : 1 ≤ t := by
        rw [ht]
        omega
      have htle : t ≤ (s :: ss).length := by rw [ht]; omega
      have htake : ((s :: ss).take t).length = t := by
        rw [List.length_take]
        omega
      have hchunkne : (s :: ss).take t ≠ [] := by
        intro habs
        have h2 := congrArg List.length habs
        rw [htake] at h2
        simp at h2
        omega
      have hfit : f1.putO + ((s :: ss).take t).length ≤ f1.size := by
        rw [htake, ht]
        omega
      set f2 := writeChunk f1 ((s :: ss).take t) with hf2
      have hI2 : FifoInv f2 := fifoInv_writeChunk hI1 hfit hchunkne
      have hdrop : ((s :: ss).drop t).length ≤ fuel := by
        rw [List.length_drop]
        omega
      obtain ⟨jI, jsz, jh, je, jc, jv⟩ := ih f2 ((s :: ss).drop t) hI2 hdrop
      have hsz2 : f2.size = f1.size := rfl
      have hh2 : f2.hasHold = f1.hasHold := rfl
      have he2 : f2.hasEnd = f1.hasEnd := rfl
      have hc2 : contF f2 = contF f1 ++ (s :: ss).take t :=
        contF_writeChunk hI1 hfit
      refine ⟨jI, by rw [jsz, hsz2, hsz1], by rw [jh, hh2, hh1],
        by rw [je, he2, he1], ?_, ?_⟩
      · rw [jc, hc2, hc1, List.append_assoc, List.take_append_drop]
      · intro hEnd
        have hEnd1 : f1.hasEnd = true := by rw [he1]; exact hEnd
        have hEnd2 : f2.hasEnd = true := by rw [he2]; exact hEnd1
        obtain ⟨jve, jpe⟩ := jv hEnd2
        have hv2 : visibleF f2 = visibleF f1 := visibleF_writeChunk_end hI1 hEnd1
        have hp2 : provF f2 = provF f1 ++ (s :: ss).take t :=
          provF_writeChunk_end hI1 hEnd1 hfit
        constructor
        · rw [jve, hv2, hv1]
        · rw [jpe, hp2, hp1, List.append_assoc, List.take_append_drop]

/-- Main specification of vio_fifo_put_bytes: the invariant is preserved,
the get-to-put content grows by exactly the bytes put, and with an end mark
set the visible region is unchanged while the provisional region grows. -/
theorem put_bytes_spec {f : Fifo} (src : List Nat) (hI : FifoInv f) :
    FifoInv (vio_fifo_put_bytes f src) ∧
    (vio_fifo_put_bytes f src).size = f.size ∧
    (vio_fifo_put_bytes f src).hasHold = f.hasHold ∧
    (vio_fifo_put_bytes f src).hasEnd = f.hasEnd ∧
    contF (vio_fifo_put_bytes f src) = contF f ++ src ∧
    (f.hasEnd = true → visibleF (vio_fifo_put_bytes f src) = visibleF f ∧
      provF (vio_fifo_put_bytes f src) = provF f ++ src) ∧
    (f.hasEnd = false → visibleF (vio_fifo_put_bytes f src) = visibleF f ++ src) := by
  obtain ⟨h1, h2, h3, h4, h5, h6⟩ :=
    put_bytes_go_spec src.length f src hI (le_refl _)
  refine ⟨h1, h2, h3, h4, h5, h6, ?_⟩
  intro hEnd
  have hEnd' : (vio_fifo_put_bytes f src).hasEnd = false := by
    show (vio_fifo_put_bytes_go src.length f src).hasEnd = false
    rw [h4]; exact hEnd
  rw [visibleF_eq_contF hEnd', visibleF_eq_contF hEnd]
  exact h5

/-- Stepping t bytes within the visible limit stays within the visible
region globally. -/
theorem gget_add_le_gpend {f : Fifo} (hI : FifoInv f) {t : Nat}
    (hle : f.getO + t ≤ pGetEndOff f) :
    gpos f (getPtr f) + t ≤ gpos f (pEndPtr f) := by
  show f.getL * f.size + f.getO + t ≤ (pEndPtr f).1 * f.size + (pEndPtr f).2
  rw [pEndPtr_fst hI]
  by_cases hge : f.getL = f.endL
  · have hpe : pGetEndOff f = (pEndPtr f).2 := by
      unfold pGetEndOff
      rw [if_pos hge]
    rw [hpe] at hle
    rw [← hge]
    omega
  · have hpe : pGetEndOff f = f.size := by
      unfold pGetEndOff
      rw [if_neg hge]
    rw [hpe] at hle
    have hlt : f.getL < f.endL := lt_of_le_of_ne hI.getL_le hge
    have e2 : (f.getL + 1) * f.size ≤ f.endL * f.size := Nat.mul_le_mul_right _ hlt
    have e1 : (f.getL + 1) * f.size = f.getL * f.size + f.size := by ring
    omega

/-- Length of the visible region. -/
theorem visibleF_length {f : Fifo} (hI : FifoInv f) :
    (visibleF f).length = gpos f (pEndPtr f) - gpos f (getPtr f) := by
  unfold visibleF
  rw [seg_length]
  have h1 : gpos f (pEndPtr f) ≤ (flatF f).length :=
    le_trans (gpend_le_gput hI) (gput_le_flatlen hI)
  omega

/-- The bytes the get path reads from the current lump are exactly the
first t visible bytes. -/
theorem readChunk_eq {f : Fifo} (hI : FifoInv f) {t : Nat}
    (hle : f.getO + t ≤ pGetEndOff f) :
    readChunk f t = (visibleF f).take t := by
  have hk : f.getL < f.lumps.length := lt_of_le_of_lt hI.getL_le hI.endL_lt
  have hsz : f.getO + t ≤ f.size := le_trans hle (pGetEnd_le_size hI)
  unfold visibleF
  rw [seg_take (gget_add_le_gpend hI hle)]
  have e1 : gpos f (getPtr f) = f.getL * f.size + f.getO := rfl
  have e2 : gpos f (getPtr f) + t = f.getL * f.size + (f.getO + t) := by
    rw [e1]; omega
  rw [e2, e1, seg_flatF hI.wf hk hsz]
  unfold readChunk seg
  rw [List.drop_take]
  congr 1
  omega

/-- vio_fifo_release_lump only changes the spare, and the new spare is
either the released lump or the old spare. -/
theorem release_lump_frame (f : Fifo) (l : Lump) :
    ∃ sp : Option Lump, vio_fifo_release_lump f l = { f with spare := sp } ∧
      (sp = some l ∨ sp = f.spare) := by
  cases hs : f.spare with
  | none =>
    refine ⟨some l, ?_, Or.inl rfl⟩
    simp only [vio_fifo_release_lump, hs]
  | some s =>
    by_cases hid : l.id = f.ownId
    · refine ⟨some l, ?_, Or.inl rfl⟩
      simp only [vio_fifo_release_lump, hs, if_pos hid]
    · refine ⟨some s, ?_, Or.inr ?_⟩
      · simp only [vio_fifo_release_lump, hs, if_neg hid]
        rw [← hs]
      · rfl

theorem sync_get_same_reset {g : Fifo} (hge : g.getL = g.endL)
    (hemp : pStartPtr g = putPtr g) :
    vio_fifo_sync_get g = vio_fifo_reset_ptrs g := by
  unfold vio_fifo_sync_get
  rw [if_pos hge, if_pos hemp]

theorem sync_get_same_stay {g : Fifo} (hge : g.getL = g.endL)
    (hemp : pStartPtr g ≠ putPtr g) :
    vio_fifo_sync_get g = g := by
  unfold vio_fifo_sync_get
  rw [if_pos hge, if_neg hemp]

theorem sync_get_adv_hold {g : Fifo} (hge : g.getL ≠ g.endL)
    (hh : g.hasHold = true) :
    vio_fifo_sync_get g = { g with getL := g.getL + 1, getO := 0 } := by
  unfold vio_fifo_sync_get vio_fifo_set_get_ptr
  rw [if_neg hge]
  simp only []
  rw [if_pos hh]

theorem sync_get_adv_release {g : Fifo} (hge : g.getL ≠ g.endL)
    (hh : g.hasHold = false) :
    vio_fifo_sync_get g
      = vio_fifo_release_upto { g with getL := g.getL + 1, getO := 0 }
          (g.getL + 1) := by
  unfold vio_fifo_sync_get vio_fifo_set_get_ptr
  rw [if_neg hge]
  simp only []
  rw [if_neg (show ¬g.hasHold = true by simp [hh])]

theorem release_upto_one (g : Fifo) :
    vio_fifo_release_upto g 1 = release_pop g := rfl

theorem release_pop_char {g : Fifo} {l : Lump} {rest : List Lump}
    (h : g.lumps = l :: rest) :
    ∃ sp : Option Lump,
      release_pop g = { g with lumps := rest, getL := g.getL - 1,
                               endL := g.endL - 1, spare := sp } ∧
      (sp = some l ∨ sp = g.spare) := by
  unfold release_pop
  rw [h]
  obtain ⟨sp, heq, hor⟩ := release_lump_frame
    { g with lumps := rest, getL := g.getL - 1, endL := g.endL - 1 } l
  exact ⟨sp, heq, hor⟩

theorem visibleF_getO_shift {f : Fifo} (t : Nat) :
    visibleF { f with getO := f.getO + t } = (visibleF f).drop t := by
  unfold visibleF
  rw [seg_drop]
  have eflat : flatF { f with getO := f.getO + t } = flatF f := rfl
  have epend : pEndPtr { f with getO := f.getO + t } = pEndPtr f := rfl
  have egp : gpos { f with getO := f.getO + t } (pEndPtr f) = gpos f (pEndPtr f) := rfl
  have e : gpos { f with getO := f.getO + t } (getPtr { f with getO := f.getO + t })
      = gpos f (getPtr f) + t := by
    show f.getL * f.size + (f.getO + t) = f.getL * f.size + f.getO + t
    omega
  rw [eflat, epend, egp, e]

theorem provF_getO_shift {f : Fifo} (t : Nat) :
    provF { f with getO := f.getO + t } = provF f := rfl

/-- Case of vio_fifo_step where get_ptr stays strictly inside the visible
part of its lump: no synchronisation happens. -/
theorem step_stay_spec {f : Fifo} {t : Nat} (hI : FifoInv f)
    (hlt : f.getO + t < pGetEndOff f) :
    FifoInv { f with getO := f.getO + t } := by
  have hk : 0 < f.lumps.length := List.length_pos.mpr hI.ne
  have hsz := hI.size_pos
  have hpg1 : pGetEndOff { f with getO := f.getO + t } = pGetEndOff f := rfl
  have hemp : fifoEmpty { f with getO := f.getO + t } = true → False := by
    intro h
    unfold fifoEmpty at h
    rw [decide_eq_true_iff] at h
    have e1 : pStartPtr { f with getO := f.getO + t }
        = (if f.hasHold = true then ((0 : Nat), f.holdO) else (f.getL, f.getO + t)) := rfl
    have e2 : putPtr { f with getO := f.getO + t } = (tailIdx f, f.putO) := rfl
    rw [e1, e2] at h
    by_cases hh : f.hasHold
    · rw [if_pos hh] at h
      have hemp0 : fifoEmpty f = true := by
        unfold fifoEmpty
        rw [decide_eq_true_iff]
        unfold pStartPtr
        rw [if_pos hh]
        exact h
      obtain ⟨hk1, hgl, hel, hgo, hpo⟩ := hI.empty_shape hemp0
      have hz : pGetEndOff f = 0 := by
        rw [pGetEndOff_cases, if_pos (by omega : f.getL = f.endL)]
        by_cases he : f.hasEnd
        · rw [if_pos he]
          have := (hI.end_le he).2.1 (by unfold tailIdx; omega)
          omega
        · rw [if_neg he]
          exact hpo
      omega
    · rw [if_neg hh, Prod.mk.injEq] at h
      obtain ⟨h1, h2⟩ := h
      have hgeq : f.getL = f.endL := by
        have := hI.getL_le
        have := hI.endL_lt
        unfold tailIdx at h1
        omega
      have hub : pGetEndOff f ≤ f.putO := by
        rw [pGetEndOff_cases, if_pos hgeq]
        by_cases he : f.hasEnd
        · rw [if_pos he]
          apply (hI.end_le he).2.1
          rw [← hgeq]
          exact h1
        · rw [if_neg he]
      omega
  refine ⟨hsz, hI.ne, hI.wf, hI.spare_wf, hI.getL_le, hI.endL_lt, hI.hold_getL,
    hI.end_endL, ?_, ?_, hI.end_le, hI.putO_le, ?_, ?_, ?_⟩
  · intro h
    exact ⟨(hI.hold_le h).1, fun hg0 => by
      have := (hI.hold_le h).2 hg0
      show f.holdO ≤ f.getO + t
      omega⟩
  · show f.getO + t ≤ pGetEndOff { f with getO := f.getO + t }
    rw [hpg1]
    omega
  · intro hne
    show f.getO + t < f.size
    have : pGetEndOff f = f.size := by
      rw [pGetEndOff_cases, if_neg hne]
    omega
  · intro hat
    have hat2 : f.getO + t = pGetEndOff f := by
      have : ({ f with getO := f.getO + t }).getO = pGetEndOff f := by
        rw [← hpg1]; exact hat
      exact this
    omega
  · intro h
    exact absurd h (fun hh => hemp hh)

theorem gpend_same_lump {f : Fifo} (hI : FifoInv f) (hge : f.getL = f.endL) :
    gpos f (pEndPtr f) = f.getL * f.size + pGetEndOff f := by
  show (pEndPtr f).1 * f.size + (pEndPtr f).2 = _
  rw [pEndPtr_fst hI, ← hge]
  congr 1
  unfold pGetEndOff
  rw [if_pos hge]

/-- Case of vio_fifo_step where get_ptr reaches the visible limit inside
the end_lump: either the whole FIFO is empty and every pointer resets, or
nothing moves. -/
theorem step_same_spec {f : Fifo} {t : Nat} (hI : FifoInv f)
    (heq : f.getO + t = pGetEndOff f) (hge : f.getL = f.endL) :
    FifoInv (vio_fifo_sync_get { f with getO := f.getO + t }) ∧
    (vio_fifo_sync_get { f with getO := f.getO + t }).size = f.size ∧
    (vio_fifo_sync_get { f with getO := f.getO + t }).hasHold = f.hasHold ∧
    (vio_fifo_sync_get { f with getO := f.getO + t }).hasEnd = f.hasEnd ∧
    (vio_fifo_sync_get { f with getO := f.getO + t }).lumps = f.lumps ∧
    (vio_fifo_sync_get { f with getO := f.getO + t }).spare = f.spare ∧
    visibleF (vio_fifo_sync_get { f with getO := f.getO + t }) = (visibleF f).drop t ∧
    provF (vio_fifo_sync_get { f with getO := f.getO + t }) = provF f := by
  have hk : 0 < f.lumps.length := List.length_pos.mpr hI.ne
  have hsz := hI.size_pos
  have hge1 : ({ f with getO := f.getO + t } : Fifo).getL
      = ({ f with getO := f.getO + t } : Fifo).endL := hge
  have e1 : pStartPtr { f with getO := f.getO + t }
      = (if f.hasHold = true then ((0 : Nat), f.holdO) else (f.getL, f.getO + t)) := rfl
  have e2 : putPtr { f with getO := f.getO + t } = (tailIdx f, f.putO) := rfl
  have hvnil : (visibleF f).drop t = [] := by
    apply List.drop_eq_nil_of_le
    rw [visibleF_length hI, gpend_same_lump hI hge]
    have : gpos f (getPtr f) = f.getL * f.size + f.getO := rfl
    omega
  by_cases hempc : pStartPtr { f with getO := f.getO + t }
      = putPtr { f with getO := f.getO + t }
  · -- the FIFO is empty: all pointers reset
    rw [sync_get_same_reset hge1 hempc]
    have hred : vio_fifo_reset_ptrs { f with getO := f.getO + t }
        = { f with holdO := 0, getO := 0, endO := 0, putO := 0 } := rfl
    rw [hred]
    rw [e1, e2] at hempc
    -- in both cases the list has a single lump and getL = endL = 0
    have hk1 : f.lumps.length = 1 ∧ f.getL = 0 := by
      by_cases hh : f.hasHold
      · rw [if_pos hh, Prod.mk.injEq] at hempc
        have h0 : (0 : Nat) = tailIdx f := hempc.1
        unfold tailIdx at h0
        have hgl : f.getL = 0 := by
          have := hI.getL_le
          have := hI.endL_lt
          omega
        exact ⟨by omega, hgl⟩
      · rw [if_neg hh, Prod.mk.injEq] at hempc
        have h0 : f.getL = tailIdx f := hempc.1
        have hgl : f.getL = 0 := hI.hold_getL (by simpa using hh)
        unfold tailIdx at h0
        exact ⟨by omega, hgl⟩
    obtain ⟨hk1, hgl0⟩ := hk1
    have hel0 : f.endL = 0 := by rw [← hge, hgl0]
    have hT0 : tailIdx f = 0 := by unfold tailIdx; omega
    -- put_ptr equals the visible limit position in this single lump
    have hput_eq : f.getO + t ≤ f.putO := by
      rw [heq, pGetEndOff_cases, if_pos hge]
      by_cases he : f.hasEnd
      · rw [if_pos he]
        exact (hI.end_le he).2.1 (by omega)
      · rw [if_neg he]
    -- the provisional region of f is empty
    have hprovf : provF f = [] := by
      by_cases he : f.hasEnd
      · apply seg_eq_nil_of_le
        show gpos f (putPtr f) ≤ gpos f (pEndPtr f)
        have hE : pGetEndOff f = f.endO := by
          rw [pGetEndOff_cases, if_pos hge, if_pos he]
        have hpe : gpos f (pEndPtr f) = f.endL * f.size + f.endO := by
          unfold pEndPtr gpos
          rw [if_pos he]
        have hpp : gpos f (putPtr f) = tailIdx f * f.size + f.putO := rfl
        have hople : f.putO ≤ f.getO + t := by
          by_cases hh : f.hasHold
          · rw [if_pos hh, Prod.mk.injEq] at hempc
            have hhp : f.holdO = f.putO := hempc.2
            have hhg : f.holdO ≤ f.getO := (hI.hold_le hh).2 hgl0
            omega
          · rw [if_neg hh, Prod.mk.injEq] at hempc
            omega
        rw [hpe, hpp, hT0, hel0]
        have : f.getO + t = f.endO := by rw [heq, hE]
        omega
      · exact provF_eq_nil (by simpa using he)
    have hprov0 : provF { f with holdO := 0, getO := 0, endO := 0, putO := 0 } = [] := by
      apply seg_eq_nil_of_le
      show gpos _ (putPtr _) ≤ gpos _ (pEndPtr _)
      have ha : putPtr { f with holdO := 0, getO := 0, endO := 0, putO := 0 }
          = (tailIdx f, 0) := rfl
      have hb : pEndPtr { f with holdO := 0, getO := 0, endO := 0, putO := 0 }
          = (if f.hasEnd = true then (f.endL, 0) else (tailIdx f, 0)) := rfl
      rw [ha, hb]
      by_cases he : f.hasEnd
      · rw [if_pos he]
        show tailIdx f * f.size + 0 ≤ f.endL * f.size + 0
        rw [hT0, hel0]
      · rw [if_neg he]
    have hvis0 : visibleF { f with holdO := 0, getO := 0, endO := 0, putO := 0 } = [] := by
      apply seg_eq_nil_of_le
      show gpos _ (pEndPtr _) ≤ gpos _ (getPtr _)
      have hb : pEndPtr { f with holdO := 0, getO := 0, endO := 0, putO := 0 }
          = (if f.hasEnd = true then (f.endL, 0) else (tailIdx f, 0)) := rfl
      have hc : getPtr { f with holdO := 0, getO := 0, endO := 0, putO := 0 }
          = (f.getL, 0) := rfl
      rw [hb, hc]
      by_cases he : f.hasEnd
      · rw [if_pos he]
        show f.endL * f.size + 0 ≤ f.getL * f.size + 0
        rw [hel0, hgl0]
      · rw [if_neg he]
        show tailIdx f * f.size + 0 ≤ f.getL * f.size + 0
        rw [hT0, hgl0]
    have hempR : fifoEmpty { f with holdO := 0, getO := 0, endO := 0, putO := 0 } = true := by
      unfold fifoEmpty
      rw [decide_eq_true_iff]
      have ea : pStartPtr { f with holdO := 0, getO := 0, endO := 0, putO := 0 }
          = (if f.hasHold = true then ((0 : Nat), 0) else (f.getL, 0)) := rfl
      have eb : putPtr { f with holdO := 0, getO := 0, endO := 0, putO := 0 }
          = (tailIdx f, 0) := rfl
      rw [ea, eb, hT0]
      by_cases hh : f.hasHold
      · rw [if_pos hh]
      · rw [if_neg hh, hgl0]
    refine ⟨?_, rfl, rfl, rfl, rfl, rfl, by rw [hvis0, hvnil], by rw [hprov0, hprovf]⟩
    refine ⟨hsz, hI.ne, hI.wf, hI.spare_wf, hI.getL_le, hI.endL_lt, hI.hold_getL,
      hI.end_endL, ?_, ?_, ?_, ?_, ?_, ?_, ?_⟩
    · intro _
      exact ⟨Nat.zero_le _, fun _ => Nat.le_refl _⟩
    · exact Nat.zero_le _
    · intro _
      exact ⟨Nat.zero_le _, fun _ => Nat.le_refl _, fun _ => hsz⟩
    · exact Nat.zero_le _
    · intro hne
      exact absurd hge hne
    · intro _
      left
      exact hempR
    · intro _
      exact ⟨hk1, hgl0, hel0, rfl, rfl⟩
  · -- not empty: get_ptr stays at the visible limit (a mark is set)
    rw [sync_get_same_stay hge1 hempc]
    have hempF : fifoEmpty { f with getO := f.getO + t } = false := by
      unfold fifoEmpty
      rw [decide_eq_false_iff_not]
      exact hempc
    have hvis1 : visibleF { f with getO := f.getO + t } = [] := by
      rw [visibleF_getO_shift]
      exact hvnil
    refine ⟨?_, rfl, rfl, rfl, rfl, rfl, by rw [hvis1, hvnil], provF_getO_shift t⟩
    refine ⟨hsz, hI.ne, hI.wf, hI.spare_wf, hI.getL_le, hI.endL_lt, hI.hold_getL,
      hI.end_endL, ?_, ?_, hI.end_le, hI.putO_le, ?_, ?_, ?_⟩
    · intro h
      refine ⟨(hI.hold_le h).1, fun hg0 => ?_⟩
      have := (hI.hold_le h).2 hg0
      show f.holdO ≤ f.getO + t
      omega
    · show f.getO + t ≤ pGetEndOff { f with getO := f.getO + t }
      rw [show pGetEndOff { f with getO := f.getO + t } = pGetEndOff f from rfl]
      omega
    · intro hne
      exact absurd hge hne
    · intro _
      by_cases hh : f.hasHold
      · right; left; exact hh
      · by_cases he : f.hasEnd
        · right; right; exact he
        · exfalso
          apply hempc
          rw [e1, e2, if_neg hh]
          have hel : f.endL = tailIdx f := hI.end_endL (by simpa using he)
          have hpe : pGetEndOff f = f.putO := by
            rw [pGetEndOff_cases, if_pos hge, if_neg he]
          rw [Prod.mk.injEq]
          exact ⟨by omega, by omega⟩
    · intro h
      rw [hempF] at h
      simp at h

/-- Case of vio_fifo_step where get_ptr reaches the physical end of a lump
before the end_lump: get advances to the next lump, and when no hold mark
is set the lump just left is released. -/
theorem step_adv_spec {f : Fifo} {t : Nat} (hI : FifoInv f)
    (heq : f.getO + t = pGetEndOff f) (hge : f.getL ≠ f.endL) :
    FifoInv (vio_fifo_sync_get { f with getO := f.getO + t }) ∧
    (vio_fifo_sync_get { f with getO := f.getO + t }).size = f.size ∧
    (vio_fifo_sync_get { f with getO := f.getO + t }).hasHold = f.hasHold ∧
    (vio_fifo_sync_get { f with getO := f.getO + t }).hasEnd = f.hasEnd ∧
    visibleF (vio_fifo_sync_get { f with getO := f.getO + t }) = (visibleF f).drop t ∧
    provF (vio_fifo_sync_get { f with getO := f.getO + t }) = provF f := by
  have hk : 0 < f.lumps.length := List.length_pos.mpr hI.ne
  have hsz := hI.size_pos
  have hlt : f.getL < f.endL := lt_of_le_of_ne hI.getL_le hge
  have hpgs : pGetEndOff f = f.size := by
    rw [pGetEndOff_cases, if_neg hge]
  have hts : f.getO + t = f.size := by rw [heq, hpgs]
  have hge1 : ({ f with getO := f.getO + t } : Fifo).getL
      ≠ ({ f with getO := f.getO + t } : Fifo).endL := hge
  have hgget : gpos f (getPtr f) + t = (f.getL + 1) * f.size := by
    show f.getL * f.size + f.getO + t = (f.getL + 1) * f.size
    have e1 : (f.getL + 1) * f.size = f.getL * f.size + f.size := by ring
    omega
  by_cases hh : f.hasHold
  · -- a hold mark retains the lumps: just advance
    rw [sync_get_adv_hold hge1 (show ({ f with getO := f.getO + t } : Fifo).hasHold = true from hh)]
    have hred : ({ { f with getO := f.getO + t } with getL := ({ f with getO := f.getO + t } : Fifo).getL + 1, getO := 0 } : Fifo)
        = { f with getL := f.getL + 1, getO := 0 } := rfl
    rw [hred]
    have hvis : visibleF { f with getL := f.getL + 1, getO := 0 } = (visibleF f).drop t := by
      unfold visibleF
      rw [seg_drop]
      have ef : flatF { f with getL := f.getL + 1, getO := 0 } = flatF f := rfl
      have ep : pEndPtr { f with getL := f.getL + 1, getO := 0 } = pEndPtr f := rfl
      have eg : gpos { f with getL := f.getL + 1, getO := 0 } (pEndPtr f)
          = gpos f (pEndPtr f) := rfl
      have e : gpos { f with getL := f.getL + 1, getO := 0 }
          (getPtr { f with getL := f.getL + 1, getO := 0 })
          = gpos f (getPtr f) + t := by
        rw [hgget]
        show (f.getL + 1) * f.size + 0 = (f.getL + 1) * f.size
        omega
      rw [ef, ep, eg, e]
    refine ⟨?_, rfl, rfl, rfl, hvis, rfl⟩
    refine ⟨hsz, hI.ne, hI.wf, hI.spare_wf, ?_, hI.endL_lt, ?_, hI.end_endL,
      ?_, Nat.zero_le _, hI.end_le, hI.putO_le, fun _ => hsz, ?_, ?_⟩
    · show f.getL + 1 ≤ f.endL
      omega
    · intro h
      have h2 : f.hasHold = false := h
      rw [hh] at h2
      simp at h2
    · intro h
      refine ⟨(hI.hold_le h).1, fun hg0 => ?_⟩
      have : f.getL + 1 = 0 := hg0
      omega
    · intro _
      right; left
      exact hh
    · intro hem
      exfalso
      unfold fifoEmpty at hem
      rw [decide_eq_true_iff] at hem
      have ea : pStartPtr { f with getL := f.getL + 1, getO := 0 }
          = (if f.hasHold = true then ((0 : Nat), f.holdO) else (f.getL + 1, 0)) := rfl
      have eb : putPtr { f with getL := f.getL + 1, getO := 0 }
          = (tailIdx f, f.putO) := rfl
      rw [ea, eb, if_pos hh, Prod.mk.injEq] at hem
      have h0 : (0 : Nat) = tailIdx f := hem.1
      have := hI.endL_lt
      unfold tailIdx at h0
      omega
  · -- no hold mark: advance and release the head lump
    have hh2 : f.hasHold = false := by
      cases hcase : f.hasHold
      · rfl
      · exact absurd hcase hh
    have hgl0 : f.getL = 0 := hI.hold_getL hh2
    have hk2 : 2 ≤ f.lumps.length := by
      have := hI.endL_lt
      omega
    obtain ⟨l, rest, hfl⟩ : ∃ l rest, f.lumps = l :: rest := by
      rcases hc : f.lumps with _ | ⟨a, b⟩
      · exact absurd hc hI.ne
      · exact ⟨a, b, rfl⟩
    have hrest : 1 ≤ rest.length := by
      have : f.lumps.length = rest.length + 1 := by rw [hfl]; simp
      omega
    rw [sync_get_adv_release hge1
        (show ({ f with getO := f.getO + t } : Fifo).hasHold = false from hh2)]
    have hred : ({ { f with getO := f.getO + t } with getL := ({ f with getO := f.getO + t } : Fifo).getL + 1, getO := 0 } : Fifo)
        = { f with getL := f.getL + 1, getO := 0 } := rfl
    rw [hred, hgl0, release_upto_one]
    obtain ⟨sp, hpop, hor⟩ :=
      @release_pop_char { f with getL := 0 + 1, getO := 0 } l rest hfl
    rw [hpop]
    have hredf : ({ ({ f with getL := 0 + 1, getO := 0 } : Fifo) with lumps := rest, getL := ({ f with getL := 0 + 1, getO := 0 } : Fifo).getL - 1, endL := ({ f with getL := 0 + 1, getO := 0 } : Fifo).endL - 1, spare := sp } : Fifo)
        = { f with lumps := rest, getL := 0, getO := 0, endL := f.endL - 1, spare := sp } := rfl
    rw [hredf]
    have hlbuf : l.buf.length = f.size := hI.wf l (by rw [hfl]; simp)
    have hflatf : flatF f = l.buf ++ (rest.map (fun x => x.buf)).flatten := by
      unfold flatF
      rw [hfl]
      simp
    have hflatR : flatF { f with lumps := rest, getL := 0, getO := 0, endL := f.endL - 1, spare := sp } = (rest.map (fun x => x.buf)).flatten := rfl
    have hdropflat : (flatF f).drop f.size = (rest.map (fun x => x.buf)).flatten := by
      rw [hflatf, ← hlbuf, List.drop_left]
    -- positions in f
    have hgpend : gpos f (pEndPtr f) = (pEndPtr f).1 * f.size + (pEndPtr f).2 := rfl
    have hpend1 : (pEndPtr f).1 = f.endL := pEndPtr_fst hI
    have hpend_ge : f.size ≤ gpos f (pEndPtr f) := by
      rw [hgpend, hpend1]
      have e1 : 1 * f.size ≤ f.endL * f.size := Nat.mul_le_mul_right _ (by omega)
      omega
    have hgput : gpos f (putPtr f) = tailIdx f * f.size + f.putO := rfl
    have hput_ge : f.size ≤ gpos f (putPtr f) := by
      rw [hgput]
      have e1 : 1 * f.size ≤ tailIdx f * f.size :=
        Nat.mul_le_mul_right _ (by unfold tailIdx; omega)
      omega
    -- positions in the result
    have hpendR : gpos { f with lumps := rest, getL := 0, getO := 0, endL := f.endL - 1, spare := sp }
        (pEndPtr { f with lumps := rest, getL := 0, getO := 0, endL := f.endL - 1, spare := sp })
        = gpos f (pEndPtr f) - f.size := by
      unfold pEndPtr putPtr gpos tailIdx
      by_cases he : f.hasEnd
      · rw [if_pos (show ({ f with lumps := rest, getL := 0, getO := 0, endL := f.endL - 1, spare := sp } : Fifo).hasEnd = true from he),
            if_pos he]
        show (f.endL - 1) * f.size + f.endO = f.endL * f.size + f.endO - f.size
        have e1 : f.endL * f.size = (f.endL - 1) * f.size + f.size := by
          have e2 : f.endL = (f.endL - 1) + 1 := by omega
          calc f.endL * f.size = ((f.endL - 1) + 1) * f.size := by rw [← e2]
          _ = (f.endL - 1) * f.size + f.size := by ring
        omega
      · rw [if_neg (show ¬({ f with lumps := rest, getL := 0, getO := 0, endL := f.endL - 1, spare := sp } : Fifo).hasEnd = true from he),
            if_neg he]
        show (rest.length - 1) * f.size + f.putO
            = (f.lumps.length - 1) * f.size + f.putO - f.size
        have hrl : f.lumps.length = rest.length + 1 := by rw [hfl]; simp
        have e1 : (f.lumps.length - 1) * f.size = (rest.length - 1) * f.size + f.size := by
          rw [hrl]
          have e2 : rest.length + 1 - 1 = (rest.length - 1) + 1 := by omega
          rw [e2]
          ring
        omega
    have hputR : gpos { f with lumps := rest, getL := 0, getO := 0, endL := f.endL - 1, spare := sp }
        (putPtr { f with lumps := rest, getL := 0, getO := 0, endL := f.endL - 1, spare := sp })
        = gpos f (putPtr f) - f.size := by
      unfold putPtr gpos tailIdx
      show (rest.length - 1) * f.size + f.putO
          = (f.lumps.length - 1) * f.size + f.putO - f.size
      have hrl : f.lumps.length = rest.length + 1 := by rw [hfl]; simp
      have e1 : (f.lumps.length - 1) * f.size = (rest.length - 1) * f.size + f.size := by
        rw [hrl]
        have e2 : rest.length + 1 - 1 = (rest.length - 1) + 1 := by omega
        rw [e2]
        ring
      omega
    have hsegshift : ∀ a b : Nat, seg ((rest.map (fun x => x.buf)).flatten) a b
        = seg (flatF f) (f.size + a) (f.size + b) := by
      intro a b
      rw [← hdropflat]
      exact seg_drop_shift
    have hvis : visibleF { f with lumps := rest, getL := 0, getO := 0, endL := f.endL - 1, spare := sp } = (visibleF f).drop t := by
      unfold visibleF
      rw [seg_drop]
      have eg : gpos { f with lumps := rest, getL := 0, getO := 0, endL := f.endL - 1, spare := sp }
          (getPtr { f with lumps := rest, getL := 0, getO := 0, endL := f.endL - 1, spare := sp }) = 0 := by
        show 0 * f.size + 0 = 0
        omega
      rw [eg, hpendR, hflatR, hsegshift]
      have hgg0 : gpos f (getPtr f) + t = f.size := by
        rw [hgget, hgl0]
        ring
      congr 1
      · omega
      · omega
    have hprov : provF { f with lumps := rest, getL := 0, getO := 0, endL := f.endL - 1, spare := sp } = provF f := by
      unfold provF
      rw [hpendR, hputR, hflatR, hsegshift]
      congr 1
      · omega
      · omega
    refine ⟨?_, rfl, rfl, rfl, hvis, hprov⟩
    have hwfR : ∀ x ∈ rest, x.buf.length = f.size := by
      intro x hx
      exact hI.wf x (by rw [hfl]; simp [hx])
    refine ⟨hsz, by rw [← List.length_pos]; show 0 < rest.length; omega, hwfR, ?_,
      ?_, ?_, fun _ => rfl, ?_, ?_, Nat.zero_le _, ?_, hI.putO_le, fun _ => hsz,
      ?_, ?_⟩
    · intro s hs
      rcases hor with hsp | hsp
      · rw [hsp] at hs
        simp at hs
        rw [hs]
        exact hlbuf
      · rw [hsp] at hs
        exact hI.spare_wf s hs
    · show 0 ≤ f.endL - 1
      exact Nat.zero_le _
    · show f.endL - 1 < rest.length
      have := hI.endL_lt
      have hrl : f.lumps.length = rest.length + 1 := by rw [hfl]; simp
      omega
    · intro he2
      have hel := hI.end_endL he2
      show f.endL - 1 = tailIdx { f with lumps := rest, getL := 0, getO := 0, endL := f.endL - 1, spare := sp }
      unfold tailIdx at hel ⊢
      show f.endL - 1 = rest.length - 1
      have hrl : f.lumps.length = rest.length + 1 := by rw [hfl]; simp
      omega
    · intro h
      have h2 : f.hasHold = true := h
      rw [hh2] at h2
      simp at h2
    · intro he2
      have hprev := hI.end_le he2
      have hrl : f.lumps.length = rest.length + 1 := by rw [hfl]; simp
      refine ⟨hprev.1, ?_, ?_⟩
      · intro ht
        apply hprev.2.1
        unfold tailIdx at ht ⊢
        show f.endL = f.lumps.length - 1
        have ht2 : f.endL - 1 = rest.length - 1 := ht
        have := hI.endL_lt
        omega
      · intro ht
        apply hprev.2.2
        unfold tailIdx at ht ⊢
        have ht2 : f.endL - 1 < rest.length - 1 := ht
        omega
    · intro hat
      have hat2 : (0 : Nat) = pGetEndOff { f with lumps := rest, getL := 0, getO := 0, endL := f.endL - 1, spare := sp } := hat
      rw [pGetEndOff_cases] at hat2
      by_cases hz : f.endL - 1 = 0
      · rw [if_pos (by show (0 : Nat) = f.endL - 1; omega)] at hat2
        by_cases he2 : f.hasEnd
        · right; right
          exact he2
        · left
          rw [if_neg (show ¬({ f with lumps := rest, getL := 0, getO := 0, endL := f.endL - 1, spare := sp } : Fifo).hasEnd = true from he2)] at hat2
          have hput0 : f.putO = 0 := by
            have : (0 : Nat) = f.putO := hat2
            omega
          have hel := hI.end_endL (by simpa using he2)
          have hrl : f.lumps.length = rest.length + 1 := by rw [hfl]; simp
          unfold tailIdx at hel
          unfold fifoEmpty
          rw [decide_eq_true_iff]
          have ea : pStartPtr { f with lumps := rest, getL := 0, getO := 0, endL := f.endL - 1, spare := sp }
              = (if f.hasHold = true then ((0 : Nat), f.holdO) else (0, 0)) := rfl
          have eb : putPtr { f with lumps := rest, getL := 0, getO := 0, endL := f.endL - 1, spare := sp } = (rest.length - 1, f.putO) := rfl
          rw [ea, eb, if_neg hh, hput0]
          rw [Prod.mk.injEq]
          exact ⟨by omega, rfl⟩
      · rw [if_neg (by show ¬(0 : Nat) = f.endL - 1; omega)] at hat2
        have : (0 : Nat) = f.size := hat2
        omega
    · intro hem
      unfold fifoEmpty at hem
      rw [decide_eq_true_iff] at hem
      have ea : pStartPtr { f with lumps := rest, getL := 0, getO := 0, endL := f.endL - 1, spare := sp }
          = (if f.hasHold = true then ((0 : Nat), f.holdO) else (0, 0)) := rfl
      have eb : putPtr { f with lumps := rest, getL := 0, getO := 0, endL := f.endL - 1, spare := sp } = (rest.length - 1, f.putO) := rfl
      rw [ea, eb, if_neg hh, Prod.mk.injEq] at hem
      obtain ⟨h1, h2⟩ := hem
      have hrl : f.lumps.length = rest.length + 1 := by rw [hfl]; simp
      have := hI.endL_lt
      refine ⟨by show rest.length = 1; omega, rfl, ?_, rfl, by show f.putO = 0; omega⟩
      show f.endL - 1 = 0
      omega

/-- Stepping the get pointer by t bytes (t at most the distance to
*p_get_end) preserves the invariant and the marks, drops exactly t bytes
off the visible region, and leaves the provisional region unchanged. -/
theorem step_spec {f : Fifo} {t : Nat} (hI : FifoInv f)
    (hle : f.getO + t ≤ pGetEndOff f) :
    FifoInv (vio_fifo_step f t) ∧
    (vio_fifo_step f t).size = f.size ∧
    (vio_fifo_step f t).hasHold = f.hasHold ∧
    (vio_fifo_step f t).hasEnd = f.hasEnd ∧
    visibleF (vio_fifo_step f t) = (visibleF f).drop t ∧
    provF (vio_fifo_step f t) = provF f := by
  by_cases hlt : f.getO + t < pGetEndOff f
  · have hc : ¬(pGetEndOff { f with getO := f.getO + t }
        ≤ ({ f with getO := f.getO + t } : Fifo).getO) := by
      show ¬(pGetEndOff f ≤ f.getO + t)
      omega
    have hs : vio_fifo_step f t = { f with getO := f.getO + t } := by
      show (if pGetEndOff { f with getO := f.getO + t }
          ≤ ({ f with getO := f.getO + t } : Fifo).getO
          then vio_fifo_sync_get { f with getO := f.getO + t }
          else { f with getO := f.getO + t }) = { f with getO := f.getO + t }
      rw [if_neg hc]
    rw [hs]
    exact ⟨step_stay_spec hI hlt, rfl, rfl, rfl, visibleF_getO_shift t,
      provF_getO_shift t⟩
  · have heq : f.getO + t = pGetEndOff f := by omega
    have hc : pGetEndOff { f with getO := f.getO + t }
        ≤ ({ f with getO := f.getO + t } : Fifo).getO := by
      show pGetEndOff f ≤ f.getO + t
      omega
    have hs : vio_fifo_step f t = vio_fifo_sync_get { f with getO := f.getO + t } := by
      show (if pGetEndOff { f with getO := f.getO + t }
          ≤ ({ f with getO := f.getO + t } : Fifo).getO
          then vio_fifo_sync_get { f with getO := f.getO + t }
          else { f with getO := f.getO + t })
          = vio_fifo_sync_get { f with getO := f.getO + t }
      rw [if_pos hc]
    rw [hs]
    by_cases hge : f.getL = f.endL
    · obtain ⟨a, b, c, d, _, _, g, h⟩ := step_same_spec hI heq hge
      exact ⟨a, b, c, d, g, h⟩
    · exact step_adv_spec hI heq hge

/-- When get_ptr has reached *p_get_end, the invariant forces the visible
region to be empty (the get cursor never stops short of *p_get_end while
visible bytes remain in a later lump). -/
theorem visibleF_nil_of_avail_zero {f : Fifo} (hI : FifoInv f)
    (h : pGetEndOff f ≤ f.getO) : visibleF f = [] := by
  have hgeq : f.getO = pGetEndOff f := le_antisymm hI.getO_le h
  unfold visibleF
  apply seg_eq_nil_of_le
  show gpos f (pEndPtr f) ≤ gpos f (getPtr f)
  by_cases hge : f.getL = f.endL
  · rw [pGetEndOff_cases, if_pos hge] at hgeq
    show (pEndPtr f).1 * f.size + (pEndPtr f).2 ≤ f.getL * f.size + f.getO
    rw [pEndPtr_fst hI, ← hge]
    by_cases he : f.hasEnd
    · rw [if_pos he] at hgeq
      have h2 : (pEndPtr f).2 = f.endO := by
        unfold pEndPtr
        rw [if_pos he]
      omega
    · rw [if_neg he] at hgeq
      have h2 : (pEndPtr f).2 = f.putO := by
        unfold pEndPtr putPtr
        rw [if_neg he]
    
      omega
  · rw [pGetEndOff_cases, if_neg hge] at hgeq
    have := hI.getO_lt hge
    omega

/-- The get_bytes loop takes min(n, visible) bytes off the front of the
visible region, preserving the invariant, the lump size, both marks, and
the provisional region. -/
theorem get_bytes_go_spec : ∀ (fuel : Nat) (f : Fifo) (n : Nat),
    FifoInv f → n ≤ fuel →
    (vio_fifo_get_bytes_go fuel f n).1 = (visibleF f).take n ∧
    FifoInv (vio_fifo_get_bytes_go fuel f n).2 ∧
    (vio_fifo_get_bytes_go fuel f n).2.size = f.size ∧
    (vio_fifo_get_bytes_go fuel f n).2.hasHold = f.hasHold ∧
    (vio_fifo_get_bytes_go fuel f n).2.hasEnd = f.hasEnd ∧
    visibleF (vio_fifo_get_bytes_go fuel f n).2 = (visibleF f).drop n ∧
    provF (vio_fifo_get_bytes_go fuel f n).2 = provF f := by
  intro fuel
  induction fuel with
  | zero =>
    intro f n hI hn
    have hn0 : n = 0 := by omega
    subst hn0
    exact ⟨by simp [vio_fifo_get_bytes_go], hI, rfl, rfl, rfl,
      by simp [vio_fifo_get_bytes_go], rfl⟩
  | succ fuel ih =>
    intro f n hI hn
    cases n with
    | zero =>
      exact ⟨by simp [vio_fifo_get_bytes_go], hI, rfl, rfl, rfl,
        by simp [vio_fifo_get_bytes_go], rfl⟩
    | succ m =>
      by_cases ht : min (pGetEndOff f - f.getO) (m + 1) = 0
      · have hgo : vio_fifo_get_bytes_go (fuel + 1) f (m + 1) = ([], f) := by
          simp only [vio_fifo_get_bytes_go]
          rw [if_pos ht]
        have hvnil : visibleF f = [] :=
          visibleF_nil_of_avail_zero hI (by omega)
        rw [hgo, hvnil]
        exact ⟨by simp, hI, rfl, rfl, rfl, by simp, rfl⟩
      · have hgo : vio_fifo_get_bytes_go (fuel + 1) f (m + 1)
            = (readChunk f (min (pGetEndOff f - f.getO) (m + 1))
                ++ (vio_fifo_get_bytes_go fuel
                    (vio_fifo_step f (min (pGetEndOff f - f.getO) (m + 1)))
                    (m + 1 - min (pGetEndOff f - f.getO) (m + 1))).1,
               (vio_fifo_get_bytes_go fuel
                    (vio_fifo_step f (min (pGetEndOff f - f.getO) (m + 1)))
                    (m + 1 - min (pGetEndOff f - f.getO) (m + 1))).2) := by
          simp only [vio_fifo_get_bytes_go]
          rw [if_neg ht]
        have hO := hI.getO_le
        have hlet : f.getO + min (pGetEndOff f - f.getO) (m + 1) ≤ pGetEndOff f := by
          omega
        obtain ⟨sI, ssz, shh, she, svis, sprov⟩ := step_spec hI hlet
        obtain ⟨i1, i2, i3, i4, i5, i6, i7⟩ :=
          ih (vio_fifo_step f (min (pGetEndOff f - f.getO) (m + 1)))
             (m + 1 - min (pGetEndOff f - f.getO) (m + 1)) sI (by omega)
        rw [hgo]
        refine ⟨?_, i2, by rw [i3, ssz], by rw [i4, shh], by rw [i5, she], ?_, by rw [i7, sprov]⟩
        · show readChunk f (min (pGetEndOff f - f.getO) (m + 1))
              ++ (vio_fifo_get_bytes_go fuel
                  (vio_fifo_step f (min (pGetEndOff f - f.getO) (m + 1)))
                  (m + 1 - min (pGetEndOff f - f.getO) (m + 1))).1
              = (visibleF f).take (m + 1)
          rw [readChunk_eq hI hlet, i1, svis]
          have hsum : min (pGetEndOff f - f.getO) (m + 1)
              + (m + 1 - min (pGetEndOff f - f.getO) (m + 1)) = m + 1 := by
            omega
          rw [← List.take_add, hsum]
        · show visibleF (vio_fifo_get_bytes_go fuel
                  (vio_fifo_step f (min (pGetEndOff f - f.getO) (m + 1)))
                  (m + 1 - min (pGetEndOff f - f.getO) (m + 1))).2
              = (visibleF f).drop (m + 1)
          rw [i6, svis, List.drop_drop]
          congr 1
          omega

/-- vio_fifo_get_bytes takes min(n, visible) bytes off the front of the
visible region, preserving the invariant, the lump size, both marks, and
the provisional region. -/
theorem get_bytes_spec {f : Fifo} (n : Nat) (hI : FifoInv f) :
    (vio_fifo_get_bytes f n).1 = (visibleF f).take n ∧
    FifoInv (vio_fifo_get_bytes f n).2 ∧
    (vio_fifo_get_bytes f n).2.size = f.size ∧
    (vio_fifo_get_bytes f n).2.hasHold = f.hasHold ∧
    (vio_fifo_get_bytes f n).2.hasEnd = f.hasEnd ∧
    visibleF (vio_fifo_get_bytes f n).2 = (visibleF f).drop n ∧
    provF (vio_fifo_get_bytes f n).2 = provF f :=
  get_bytes_go_spec n f n hI (le_refl n)

theorem new_size_pos (s : Nat) : 0 < (vio_fifo_new s).size := by
  show 0 < ((if s = 0 then VIO_FIFO_DEFAULT_LUMP_SIZE else s) + 128 - 1) / 128 * 128
  by_cases h0 : s = 0
  · rw [if_pos h0]
    decide
  · rw [if_neg h0]
    omega

theorem fifoInv_new (s : Nat) : FifoInv (vio_fifo_new s) := by
  refine ⟨new_size_pos s, by simp [vio_fifo_new], ?_, ?_, le_refl 0, ?_,
    fun _ => rfl, fun _ => rfl, ?_, Nat.zero_le _, ?_, Nat.zero_le _, ?_,
    fun _ => Or.inl rfl, fun _ => ⟨rfl, rfl, rfl, rfl, rfl⟩⟩
  · intro l hl
    have : l = { id := 0, buf := List.replicate (vio_fifo_new s).size 0 } := by
      simpa [vio_fifo_new] using hl
    rw [this]
    simp
  · intro x hx
    have hsp : (vio_fifo_new s).spare = none := rfl
    rw [hsp] at hx
    simp at hx
  · show (0 : Nat) < (vio_fifo_new s).lumps.length
    have : (vio_fifo_new s).lumps.length = 1 := rfl
    omega
  · intro h
    have h2 : (vio_fifo_new s).hasHold = false := rfl
    rw [h] at h2
    exact Bool.noConfusion h2
  · intro h
    have h2 : (vio_fifo_new s).hasEnd = false := rfl
    rw [h] at h2
    exact Bool.noConfusion h2
  · intro h
    exact absurd rfl h

theorem visibleF_new (s : Nat) : visibleF (vio_fifo_new s) = [] := by
  apply seg_eq_nil_of_le
  show (0 : Nat) * (vio_fifo_new s).size + 0 ≤ 0 * (vio_fifo_new s).size + 0
  exact le_refl _

theorem contF_new (s : Nat) : contF (vio_fifo_new s) = [] := by
  apply seg_eq_nil_of_le
  show (0 : Nat) * (vio_fifo_new s).size + 0 ≤ 0 * (vio_fifo_new s).size + 0
  exact le_refl _

theorem new_hasEnd (s : Nat) : (vio_fifo_new s).hasEnd = false := rfl

theorem new_hasHold (s : Nat) : (vio_fifo_new s).hasHold = false := rfl

/-- Folding vio_fifo_put_bytes over a list of byte strings appends their
concatenation to the visible region (no end mark set). -/
theorem put_list_spec : ∀ (srcs : List (List Nat)) (f : Fifo), FifoInv f →
    f.hasEnd = false →
    FifoInv (srcs.foldl vio_fifo_put_bytes f) ∧
    (srcs.foldl vio_fifo_put_bytes f).hasEnd = false ∧
    (srcs.foldl vio_fifo_put_bytes f).hasHold = f.hasHold ∧
    (srcs.foldl vio_fifo_put_bytes f).size = f.size ∧
    visibleF (srcs.foldl vio_fifo_put_bytes f) = visibleF f ++ srcs.flatten := by
  intro srcs
  induction srcs with
  | nil =>
    intro f hI he
    exact ⟨hI, he, rfl, rfl, by simp⟩
  | cons src rest ih =>
    intro f hI he
    simp only [List.foldl_cons]
    obtain ⟨pI, psz, phh, phe, _, _, pvis⟩ := put_bytes_spec src hI
    have phe2 : (vio_fifo_put_bytes f src).hasEnd = false := by rw [phe, he]
    obtain ⟨i1, i2, i3, i4, i5⟩ := ih (vio_fifo_put_bytes f src) pI phe2
    refine ⟨i1, i2, by rw [i3, phh], by rw [i4, psz], ?_⟩
    show visibleF (rest.foldl vio_fifo_put_bytes (vio_fifo_put_bytes f src))
        = visibleF f ++ (src :: rest).flatten
    rw [i5, pvis he]
    simp

/-- A drain loop takes the first sum-of-requests bytes of the visible
region. -/
theorem getDrain_spec : ∀ (reqs : List Nat) (f : Fifo), FifoInv f →
    (getDrain f reqs).1 = (visibleF f).take reqs.sum ∧
    FifoInv (getDrain f reqs).2 ∧
    visibleF (getDrain f reqs).2 = (visibleF f).drop reqs.sum := by
  intro reqs
  induction reqs with
  | nil =>
    intro f hI
    exact ⟨by simp [getDrain], hI, by simp [getDrain]⟩
  | cons n ns ih =>
    intro f hI
    have hgo : getDrain f (n :: ns)
        = ((vio_fifo_get_bytes f n).1 ++ (getDrain (vio_fifo_get_bytes f n).2 ns).1,
           (getDrain (vio_fifo_get_bytes f n).2 ns).2) := rfl
    obtain ⟨g1, g2, _, _, _, g6, _⟩ := get_bytes_spec n hI
    obtain ⟨i1, i2, i3⟩ := ih (vio_fifo_get_bytes f n).2 g2
    rw [hgo]
    refine ⟨?_, i2, ?_⟩
    · show (vio_fifo_get_bytes f n).1 ++ (getDrain (vio_fifo_get_bytes f n).2 ns).1
          = (visibleF f).take (n :: ns).sum
      rw [g1, i1, g6, ← List.take_add]
      congr 1
    · show visibleF (getDrain (vio_fifo_get_bytes f n).2 ns).2
          = (visibleF f).drop (n :: ns).sum
      rw [i3, g6, List.drop_drop]
      congr 1

/-- C1: round trip.  Starting from a FIFO of any lump size, after any
sequence of vio_fifo_put_bytes calls (no marks used), a loop of
vio_fifo_get_bytes calls with any request sizes totalling at least the
number of bytes put returns exactly those bytes in order, and a further
vio_fifo_get_bytes call returns nothing. -/
theorem C1_round_trip (sz : Nat) (srcs : List (List Nat)) (reqs : List Nat)
    (k : Nat) (hsum : srcs.flatten.length ≤ reqs.sum) :
    (getDrain (srcs.foldl vio_fifo_put_bytes (vio_fifo_new sz)) reqs).1
      = srcs.flatten ∧
    (vio_fifo_get_bytes
        (getDrain (srcs.foldl vio_fifo_put_bytes (vio_fifo_new sz)) reqs).2 k).1
      = [] := by
  obtain ⟨pI, _, _, _, pvis⟩ :=
    put_list_spec srcs (vio_fifo_new sz) (fifoInv_new sz) (new_hasEnd sz)
  rw [visibleF_new] at pvis
  simp only [List.nil_append] at pvis
  obtain ⟨d1, d2, d3⟩ := getDrain_spec reqs _ pI
  constructor
  · rw [d1, pvis]
    exact List.take_of_length_le hsum
  · obtain ⟨g1, _⟩ := get_bytes_spec k d2
    rw [g1, d3, pvis, List.drop_eq_nil_of_le (by omega)]
    simp

theorem C1_round_trip_witness :
    ([[1,2],[3]] : List (List Nat)).flatten.length ≤ ([2,5] : List Nat).sum ∧
    ((getDrain (([[1,2],[3]] : List (List Nat)).foldl vio_fifo_put_bytes
        (vio_fifo_new 1)) [2,5]).1 = ([[1,2],[3]] : List (List Nat)).flatten ∧
     (vio_fifo_get_bytes
        (getDrain (([[1,2],[3]] : List (List Nat)).foldl vio_fifo_put_bytes
          (vio_fifo_new 1)) [2,5]).2 4).1 = []) :=
  ⟨by decide, C1_round_trip 1 [[1,2],[3]] [2,5] 4 (by decide)⟩

set_option maxRecDepth 100000

/-- C2: refuted by the source.  vio_fifo_set_get_ptr ignores its ptr
argument and sets get_ptr to the start of the given lump, so
vio_fifo_back_to_hold_mark rewinds get_ptr to the head lump's start
instead of the held position: after putting "ABC", reading two bytes,
setting the hold mark (held offset 2) and reading one more byte, the
rewind leaves get_ptr at offset 0 while the hold mark is at offset 2, and
a full drain reproduces the two bytes consumed before the mark was set. -/
theorem C2_hold_rewind_bug :
    (vio_fifo_back_to_hold_mark
      (vio_fifo_get_bytes (vio_fifo_set_hold_mark
        (vio_fifo_get_bytes (vio_fifo_put_bytes (vio_fifo_new 1)
          [65,66,67]) 2).2) 1).2 true).holdO = 2 ∧
    (vio_fifo_back_to_hold_mark
      (vio_fifo_get_bytes (vio_fifo_set_hold_mark
        (vio_fifo_get_bytes (vio_fifo_put_bytes (vio_fifo_new 1)
          [65,66,67]) 2).2) 1).2 true).getO = 0 ∧
    (vio_fifo_get_bytes (vio_fifo_back_to_hold_mark
      (vio_fifo_get_bytes (vio_fifo_set_hold_mark
        (vio_fifo_get_bytes (vio_fifo_put_bytes (vio_fifo_new 1)
          [65,66,67]) 2).2) 1).2 true) 10).1 = [65,66,67] := by
  refine ⟨rfl, rfl, by decide⟩

/-- C5: refuted by the source.  vio_fifo_skip_to_end moves get_ptr to
*p_end and synchronises, but never releases the lumps it skips: skipping
to the end of a two-lump FIFO leaves it empty (start pointer equal to
put_ptr) with two lumps in the list and get_lump the second of them,
violating the claimed single-lump collapsed shape.  Moreover a FIFO
drained to empty by vio_fifo_get_bytes keeps the released lump as its
spare, so its state is not identical to a freshly created FIFO. -/
theorem C5_empty_shape_bug :
    fifoEmpty (vio_fifo_skip_to_end (vio_fifo_put_bytes (vio_fifo_new 1)
      (List.replicate 200 7))) = true ∧
    (vio_fifo_skip_to_end (vio_fifo_put_bytes (vio_fifo_new 1)
      (List.replicate 200 7))).lumps.length = 2 ∧
    (vio_fifo_skip_to_end (vio_fifo_put_bytes (vio_fifo_new 1)
      (List.replicate 200 7))).getL = 1 ∧
    (vio_fifo_get_bytes (vio_fifo_put_bytes (vio_fifo_new 1)
      (List.replicate 200 7)) 200).2 ≠ vio_fifo_new 1 := by
  refine ⟨by decide, by decide, by decide, by decide⟩

/-- vio_fifo_release_lump re-establishes the own-lump invariant provided
the own_lump is in the remaining list, is the current spare, or is the
very lump being released. -/
theorem release_lump_ownP {g : Fifo} {l : Lump}
    (h : (∃ x ∈ g.lumps, x.id = g.ownId) ∨ (∃ s ∈ g.spare.toList, s.id = g.ownId)
      ∨ l.id = g.ownId) :
    ownP (vio_fifo_release_lump g l) := by
  cases hs : g.spare with
  | none =>
    have hr : vio_fifo_release_lump g l = { g with spare := some l } := by
      simp only [vio_fifo_release_lump, hs]
    rw [hr]
    rcases h with ⟨x, hx, hid⟩ | ⟨s, hsm, _⟩ | hid
    · exact Or.inl ⟨x, hx, hid⟩
    · rw [hs] at hsm
      simp at hsm
    · exact Or.inr ⟨l, by simp, hid⟩
  | some s0 =>
    by_cases hid : l.id = g.ownId
    · have hr : vio_fifo_release_lump g l = { g with spare := some l } := by
        simp only [vio_fifo_release_lump, hs]
        rw [if_pos hid]
      rw [hr]
      exact Or.inr ⟨l, by simp, hid⟩
    · have hr : vio_fifo_release_lump g l = g := by
        simp only [vio_fifo_release_lump, hs]
        rw [if_neg hid]
      rw [hr]
      rcases h with ⟨x, hx, hid2⟩ | ⟨s, hsm, hid2⟩ | hid2
      · exact Or.inl ⟨x, hx, hid2⟩
      · exact Or.inr ⟨s, hsm, hid2⟩
      · exact absurd hid2 hid

/-- C7: lump recycling.  vio_fifo_release_lump keeps the released lump as
the spare when none is held; when a spare is held it frees the released
lump, except that the embedded own_lump is never freed: releasing it
replaces the spare by it.  vio_fifo_add_lump reuses the spare in
preference to allocating a fresh lump.  The own_lump stays in the lump
list or the (at most one) spare across release_pop, crop_pop and
vio_fifo_add_lump. -/
theorem C7_spare_own (f : Fifo) (l s : Lump) :
    (f.spare = none → vio_fifo_release_lump f l = { f with spare := some l }) ∧
    (f.spare = some s → l.id = f.ownId →
      vio_fifo_release_lump f l = { f with spare := some l }) ∧
    (f.spare = some s → ¬l.id = f.ownId → vio_fifo_release_lump f l = f) ∧
    (f.spare = some s → (vio_fifo_add_lump f).lumps = f.lumps ++ [s] ∧
      (vio_fifo_add_lump f).spare = none ∧
      (vio_fifo_add_lump f).nextId = f.nextId) ∧
    (f.spare = none → (vio_fifo_add_lump f).lumps
        = f.lumps ++ [{ id := f.nextId, buf := List.replicate f.size 0 }] ∧
      (vio_fifo_add_lump f).nextId = f.nextId + 1) ∧
    (ownP f → ownP (release_pop f) ∧ ownP (vio_fifo_add_lump f)
      ∧ ownP (crop_pop f)) := by
  refine ⟨?_, ?_, ?_, ?_, ?_, ?_⟩
  · intro hs
    simp only [vio_fifo_release_lump, hs]
  · intro hs hid
    simp only [vio_fifo_release_lump, hs]
    rw [if_pos hid]
  · intro hs hid
    simp only [vio_fifo_release_lump, hs]
    rw [if_neg hid]
  · intro hs
    refine ⟨?_, rfl, ?_⟩
    · show f.lumps ++ [match f.spare with
          | some s0 => s0
          | none => { id := f.nextId, buf := List.replicate f.size 0 }]
        = f.lumps ++ [s]
      rw [hs]
    · show (match f.spare with
          | some _ => f.nextId
          | none => f.nextId + 1) = f.nextId
      rw [hs]
  · intro hs
    refine ⟨?_, ?_⟩
    · show f.lumps ++ [match f.spare with
          | some s0 => s0
          | none => { id := f.nextId, buf := List.replicate f.size 0 }]
        = f.lumps ++ [{ id := f.nextId, buf := List.replicate f.size 0 }]
      rw [hs]
    · show (match f.spare with
          | some _ => f.nextId
          | none => f.nextId + 1) = f.nextId + 1
      rw [hs]
  · intro how
    refine ⟨?_, ?_, ?_⟩
    · unfold release_pop
      cases hl : f.lumps with
      | nil => exact how
      | cons l0 rest =>
        apply release_lump_ownP
        rcases how with ⟨x, hx, hid⟩ | ⟨s0, hsm, hid⟩
        · rw [hl] at hx
          rcases List.mem_cons.mp hx with hx0 | hxr
          · right; right
            show l0.id = _
            rw [← hx0]
            exact hid
          · left
            exact ⟨x, hxr, hid⟩
        · right; left
          exact ⟨s0, hsm, hid⟩
    · rcases how with ⟨x, hx, hid⟩ | ⟨s0, hsm, hid⟩
      · left
        refine ⟨x, ?_, hid⟩
        show x ∈ f.lumps ++ [_]
        exact List.mem_append_left _ hx
      · have hsp2 : f.spare = some s0 := by
          cases hsp : f.spare with
          | none =>
            rw [hsp] at hsm
            simp at hsm
          | some s1 =>
            rw [hsp] at hsm
            simp at hsm
            rw [hsm]
        have hlm : (vio_fifo_add_lump f).lumps = f.lumps ++ [s0] := by
          show f.lumps ++ [match f.spare with
            | some s1 => s1
            | none => { id := f.nextId, buf := List.replicate f.size 0 }]
            = f.lumps ++ [s0]
          rw [hsp2]
        left
        refine ⟨s0, ?_, hid⟩
        rw [hlm]
        simp
    · unfold crop_pop
      cases hgl : f.lumps.getLast? with
      | none => exact how
      | some ll =>
        apply release_lump_ownP
        have hne : f.lumps ≠ [] := by
          intro hnil
          rw [hnil] at hgl
          simp at hgl
        have hsplit : f.lumps.dropLast ++ [ll] = f.lumps := by
          have h2 := List.getLast?_eq_getLast f.lumps hne
          rw [h2] at hgl
          have h3 : f.lumps.getLast hne = ll := by
            injection hgl
          rw [← h3]
          exact List.dropLast_append_getLast hne
        rcases how with ⟨x, hx, hid⟩ | ⟨s0, hsm, hid⟩
        · rw [← hsplit] at hx
          rcases List.mem_append.mp hx with hxd | hxl
          · left
            exact ⟨x, hxd, hid⟩
          · right; right
            have hxll : x = ll := by simpa using hxl
            show ll.id = _
            rw [← hxll]
            exact hid
        · right; left
          exact ⟨s0, hsm, hid⟩

theorem C7_spare_own_witness :
    vio_fifo_release_lump (vio_fifo_new 1) { id := 5, buf := [] }
      = { vio_fifo_new 1 with spare := some { id := 5, buf := [] } } ∧
    (ownP (release_pop (vio_fifo_new 1)) ∧ ownP (vio_fifo_add_lump (vio_fifo_new 1))
      ∧ ownP (crop_pop (vio_fifo_new 1))) :=
  ⟨(C7_spare_own (vio_fifo_new 1) { id := 5, buf := [] } { id := 5, buf := [] }).1 rfl,
   (C7_spare_own (vio_fifo_new 1) { id := 5, buf := [] }
     { id := 5, buf := [] }).2.2.2.2.2 (by decide)⟩

/-- C4: end-mark visibility.  vio_fifo_get_bytes returns a prefix of the
visible region, which ends at *p_end (the end mark when one is set); the
visible end for GET equals the end mark exactly when get_lump == end_lump
and an end mark is set, the physical lump end when get_lump != end_lump,
and put_ptr in the tail with no end mark.  Concretely, with "ABCDEFGHIJ"
written and the end mark set when PUT was at offset 5, a large get_bytes
request returns exactly "ABCDE" and further reads return nothing until
vio_fifo_step_end_mark or vio_fifo_clear_end_mark is called. -/
theorem C4_end_mark_visibility (f : Fifo) (n : Nat) (hI : FifoInv f) :
    (vio_fifo_get_bytes f n).1 = (visibleF f).take n ∧
    (f.hasEnd = true → f.getL = f.endL → pGetEndOff f = f.endO) ∧
    (f.getL ≠ f.endL → pGetEndOff f = f.size) ∧
    (f.hasEnd = false → f.getL = f.endL → pGetEndOff f = f.putO) ∧
    (vio_fifo_get_bytes (vio_fifo_put_bytes (vio_fifo_set_end_mark
        (vio_fifo_put_bytes (vio_fifo_new 1) [65,66,67,68,69]))
        [70,71,72,73,74]) 100).1 = [65,66,67,68,69] ∧
    (vio_fifo_get_bytes (vio_fifo_get_bytes (vio_fifo_put_bytes
        (vio_fifo_set_end_mark (vio_fifo_put_bytes (vio_fifo_new 1)
        [65,66,67,68,69])) [70,71,72,73,74]) 100).2 100).1 = [] ∧
    (vio_fifo_get_bytes (vio_fifo_step_end_mark (vio_fifo_get_bytes
        (vio_fifo_put_bytes (vio_fifo_set_end_mark (vio_fifo_put_bytes
        (vio_fifo_new 1) [65,66,67,68,69])) [70,71,72,73,74]) 100).2) 100).1
      = [70,71,72,73,74] ∧
    (vio_fifo_get_bytes (vio_fifo_clear_end_mark (vio_fifo_get_bytes
        (vio_fifo_put_bytes (vio_fifo_set_end_mark (vio_fifo_put_bytes
        (vio_fifo_new 1) [65,66,67,68,69])) [70,71,72,73,74]) 100).2) 100).1
      = [70,71,72,73,74] := by
  refine ⟨(get_bytes_spec n hI).1, ?_, ?_, ?_, by decide, by decide, by decide,
    by decide⟩
  · intro he hge
    rw [pGetEndOff_cases, if_pos hge, if_pos he]
  · intro hge
    rw [pGetEndOff_cases, if_neg hge]
  · intro he hge
    rw [pGetEndOff_cases, if_pos hge, if_neg (by rw [he]; simp)]

theorem C4_end_mark_visibility_witness :
    FifoInv (vio_fifo_new 7) ∧
    (vio_fifo_get_bytes (vio_fifo_new 7) 3).1 = (visibleF (vio_fifo_new 7)).take 3 :=
  ⟨fifoInv_new 7, (C4_end_mark_visibility (vio_fifo_new 7) 3 (fifoInv_new 7)).1⟩

theorem lumpSeg_eq_seg (f : Fifo) (i a b : Nat) :
    lumpSeg f i a b = seg (lumpBuf f i) a b := rfl

/-- The copy loop appends, lump piece by lump piece, the segment of src
from (i, off) to *p_end onto dst. -/
theorem copy_go_spec (src : Fifo) (hs : FifoInv src) :
    ∀ (fuel : Nat) (d : Fifo) (i off : Nat), FifoInv d →
    i ≤ src.endL → src.endL - i < fuel → off ≤ src.size →
    contF (copy_go src fuel d i off)
      = contF d ++ seg (flatF src) (i * src.size + off) (gpos src (pEndPtr src)) ∧
    FifoInv (copy_go src fuel d i off) ∧
    (copy_go src fuel d i off).size = d.size ∧
    (copy_go src fuel d i off).hasEnd = d.hasEnd ∧
    (copy_go src fuel d i off).hasHold = d.hasHold := by
  have hpend : gpos src (pEndPtr src) = src.endL * src.size + (pEndPtr src).2 := by
    show (pEndPtr src).1 * src.size + (pEndPtr src).2 = _
    rw [pEndPtr_fst hs]
  intro fuel
  induction fuel with
  | zero =>
    intro d i off _ _ hfu _
    omega
  | succ fuel ih =>
    intro d i off hd hle hfu hoff
    by_cases hie : i = src.endL
    · have hgo : copy_go src (fuel + 1) d i off
          = vio_fifo_put_bytes d (lumpSeg src i off (pEndPtr src).2) := by
        simp only [copy_go]
        rw [if_pos hie, if_pos hie]
      obtain ⟨pI, psz, phh, phe, pcont, _, _⟩ :=
        put_bytes_spec (lumpSeg src i off (pEndPtr src).2) hd
      rw [hgo]
      refine ⟨?_, pI, psz, phe, phh⟩
      rw [pcont, hpend, hie]
      congr 1
      rw [seg_flatF hs.wf hs.endL_lt (pEndPtr_snd_le hs), lumpSeg_eq_seg]
    · have hgo : copy_go src (fuel + 1) d i off
          = copy_go src fuel (vio_fifo_put_bytes d (lumpSeg src i off src.size))
              (i + 1) 0 := by
        simp only [copy_go]
        rw [if_neg hie, if_neg hie]
      obtain ⟨pI, psz, phh, phe, pcont, _, _⟩ :=
        put_bytes_spec (lumpSeg src i off src.size) hd
      have hlt : i < src.endL := lt_of_le_of_ne hle hie
      obtain ⟨i1, i2, i3, i4, i5⟩ :=
        ih (vio_fifo_put_bytes d (lumpSeg src i off src.size)) (i + 1) 0 pI
          (by omega) (by omega) (Nat.zero_le _)
      rw [hgo]
      refine ⟨?_, i2, by rw [i3, psz], by rw [i4, phe], by rw [i5, phh]⟩
      rw [i1, pcont, List.append_assoc]
      congr 1
      have hi1 : i < src.lumps.length := by
        have := hs.endL_lt
        omega
      have hseg1 : lumpSeg src i off src.size
          = seg (flatF src) (i * src.size + off) (i * src.size + src.size) := by
        rw [seg_flatF hs.wf hi1 (le_refl _), lumpSeg_eq_seg]
      have hstep : i * src.size + src.size = (i + 1) * src.size + 0 := by ring
      have hmono : (i + 1) * src.size + 0 ≤ gpos src (pEndPtr src) := by
        rw [hpend]
        have e1 : (i + 1) * src.size ≤ src.endL * src.size :=
          Nat.mul_le_mul_right _ (by omega)
        omega
      rw [hseg1, hstep, ← seg_split (by omega) hmono]

/-- C9: vio_fifo_copy appends exactly the visible bytes of src (get_ptr up
to the end mark if set, else put_ptr) to dst, creating dst with src's lump
size when none is given; src is only read.  dst's lump size and marks are
unchanged. -/
theorem C9_copy (src d : Fifo) (hs : FifoInv src) (hd : FifoInv d) :
    contF (vio_fifo_copy (some d) src) = contF d ++ visibleF src ∧
    FifoInv (vio_fifo_copy (some d) src) ∧
    (vio_fifo_copy (some d) src).size = d.size ∧
    (vio_fifo_copy (some d) src).hasEnd = d.hasEnd ∧
    (vio_fifo_copy (some d) src).hasHold = d.hasHold ∧
    contF (vio_fifo_copy none src) = visibleF src ∧
    (vio_fifo_copy none src).size = (vio_fifo_new src.size).size ∧
    FifoInv (vio_fifo_copy none src) := by
  have hred1 : vio_fifo_copy (some d) src
      = copy_go src (src.endL - src.getL + 1) d src.getL src.getO := rfl
  have hred2 : vio_fifo_copy none src
      = copy_go src (src.endL - src.getL + 1) (vio_fifo_new src.size)
          src.getL src.getO := rfl
  have hoff : src.getO ≤ src.size :=
    le_trans hs.getO_le (pGetEnd_le_size hs)
  have hvis : visibleF src
      = seg (flatF src) (src.getL * src.size + src.getO) (gpos src (pEndPtr src)) := rfl
  obtain ⟨a1, a2, a3, a4, a5⟩ :=
    copy_go_spec src hs (src.endL - src.getL + 1) d src.getL src.getO hd
      hs.getL_le (by omega) hoff
  obtain ⟨b1, b2, b3, b4, _⟩ :=
    copy_go_spec src hs (src.endL - src.getL + 1) (vio_fifo_new src.size)
      src.getL src.getO (fifoInv_new src.size) hs.getL_le (by omega) hoff
  rw [hred1, hred2]
  refine ⟨?_, a2, a3, a4, a5, ?_, b3, b2⟩
  · rw [a1, hvis]
  · rw [b1, hvis, contF_new]
    simp

theorem C9_copy_witness :
    FifoInv (vio_fifo_put_bytes (vio_fifo_new 1) [1,2,3]) ∧
    contF (vio_fifo_copy (some (vio_fifo_new 2))
        (vio_fifo_put_bytes (vio_fifo_new 1) [1,2,3]))
      = contF (vio_fifo_new 2)
        ++ visibleF (vio_fifo_put_bytes (vio_fifo_new 1) [1,2,3]) :=
  ⟨by decide,
   (C9_copy (vio_fifo_put_bytes (vio_fifo_new 1) [1,2,3]) (vio_fifo_new 2)
     (by decide) (by decide)).1⟩

/-- The copy_tail loop appends, lump piece by lump piece, the segment of
src from (i, off) to put_ptr onto dst. -/
theorem copy_tail_go_spec (src : Fifo) (hs : FifoInv src) :
    ∀ (fuel : Nat) (d : Fifo) (i off : Nat), FifoInv d →
    i ≤ tailIdx src → tailIdx src - i < fuel → off ≤ src.size →
    contF (copy_tail_go src fuel d i off)
      = contF d ++ seg (flatF src) (i * src.size + off) (gpos src (putPtr src)) ∧
    FifoInv (copy_tail_go src fuel d i off) ∧
    (copy_tail_go src fuel d i off).size = d.size ∧
    (copy_tail_go src fuel d i off).hasEnd = d.hasEnd ∧
    (copy_tail_go src fuel d i off).hasHold = d.hasHold := by
  have hput : gpos src (putPtr src) = tailIdx src * src.size + src.putO := rfl
  have htl : tailIdx src < src.lumps.length := by
    have hk : 0 < src.lumps.length := List.length_pos.mpr hs.ne
    unfold tailIdx
    omega
  intro fuel
  induction fuel with
  | zero =>
    intro d i off _ _ hfu _
    omega
  | succ fuel ih =>
    intro d i off hd hle hfu hoff
    by_cases hie : i = tailIdx src
    · have hgo : copy_tail_go src (fuel + 1) d i off
          = vio_fifo_put_bytes d (lumpSeg src i off src.putO) := by
        simp only [copy_tail_go]
        rw [if_pos hie, if_pos hie]
      obtain ⟨pI, psz, phh, phe, pcont, _, _⟩ :=
        put_bytes_spec (lumpSeg src i off src.putO) hd
      rw [hgo]
      refine ⟨?_, pI, psz, phe, phh⟩
      rw [pcont, hput, hie]
      congr 1
      rw [seg_flatF hs.wf htl hs.putO_le, lumpSeg_eq_seg]
    · have hgo : copy_tail_go src (fuel + 1) d i off
          = copy_tail_go src fuel (vio_fifo_put_bytes d (lumpSeg src i off src.size))
              (i + 1) 0 := by
        simp only [copy_tail_go]
        rw [if_neg hie, if_neg hie]
      obtain ⟨pI, psz, phh, phe, pcont, _, _⟩ :=
        put_bytes_spec (lumpSeg src i off src.size) hd
      have hlt : i < tailIdx src := lt_of_le_of_ne hle hie
      obtain ⟨i1, i2, i3, i4, i5⟩ :=
        ih (vio_fifo_put_bytes d (lumpSeg src i off src.size)) (i + 1) 0 pI
          (by omega) (by omega) (Nat.zero_le _)
      rw [hgo]
      refine ⟨?_, i2, by rw [i3, psz], by rw [i4, phe], by rw [i5, phh]⟩
      rw [i1, pcont, List.append_assoc]
      congr 1
      have hi1 : i < src.lumps.length := by omega
      have hseg1 : lumpSeg src i off src.size
          = seg (flatF src) (i * src.size + off) (i * src.size + src.size) := by
        rw [seg_flatF hs.wf hi1 (le_refl _), lumpSeg_eq_seg]
      have hstep : i * src.size + src.size = (i + 1) * src.size + 0 := by ring
      have hmono : (i + 1) * src.size + 0 ≤ gpos src (putPtr src) := by
        rw [hput]
        have e1 : (i + 1) * src.size ≤ tailIdx src * src.size :=
          Nat.mul_le_mul_right _ (by omega)
        omega
      rw [hseg1, hstep, ← seg_split (by omega) hmono]

/-- C10: vio_fifo_copy_tail with dst == NULL always yields a FIFO (never
NULL): with no end mark active it returns a freshly created empty FIFO of
src's lump size and copies nothing (an existing dst is returned
untouched); with an end mark active it appends to dst exactly the
provisional bytes of src (end mark up to put_ptr), src being only read. -/
theorem C10_copy_tail (src d : Fifo) (hs : FifoInv src) (hd : FifoInv d) :
    (src.hasEnd = false →
      vio_fifo_copy_tail none src = vio_fifo_new src.size ∧
      vio_fifo_copy_tail (some d) src = d) ∧
    (src.hasEnd = true →
      contF (vio_fifo_copy_tail (some d) src) = contF d ++ provF src ∧
      FifoInv (vio_fifo_copy_tail (some d) src) ∧
      (vio_fifo_copy_tail (some d) src).size = d.size ∧
      contF (vio_fifo_copy_tail none src) = provF src ∧
      FifoInv (vio_fifo_copy_tail none src) ∧
      (vio_fifo_copy_tail none src).size = (vio_fifo_new src.size).size) := by
  constructor
  · intro he
    have hm : (!vio_fifo_have_end_mark src) = true := by
      show (!src.hasEnd) = true
      rw [he]
      rfl
    constructor
    · show (if (!vio_fifo_have_end_mark src) = true then vio_fifo_new src.size
          else copy_tail_go src (tailIdx src - src.endL + 1) (vio_fifo_new src.size)
            src.endL src.endO) = vio_fifo_new src.size
      rw [if_pos hm]
    · show (if (!vio_fifo_have_end_mark src) = true then d
          else copy_tail_go src (tailIdx src - src.endL + 1) d
            src.endL src.endO) = d
      rw [if_pos hm]
  · intro he
    have hm : ¬(!vio_fifo_have_end_mark src) = true := by
      show ¬(!src.hasEnd) = true
      rw [he]
      simp
    have hel : src.endL ≤ tailIdx src := by
      have := hs.endL_lt
      unfold tailIdx
      omega
    have heo : src.endO ≤ src.size := (hs.end_le he).1
    have hprov : provF src
        = seg (flatF src) (src.endL * src.size + src.endO)
            (gpos src (putPtr src)) := by
      unfold provF
      congr 1
      show gpos src (pEndPtr src) = src.endL * src.size + src.endO
      unfold pEndPtr
      rw [if_pos he]
      rfl
    have hred1 : vio_fifo_copy_tail (some d) src
        = copy_tail_go src (tailIdx src - src.endL + 1) d src.endL src.endO := by
      show (if (!vio_fifo_have_end_mark src) = true then d
          else copy_tail_go src (tailIdx src - src.endL + 1) d
            src.endL src.endO) = _
      rw [if_neg hm]
    have hred2 : vio_fifo_copy_tail none src
        = copy_tail_go src (tailIdx src - src.endL + 1) (vio_fifo_new src.size)
            src.endL src.endO := by
      show (if (!vio_fifo_have_end_mark src) = true then vio_fifo_new src.size
          else copy_tail_go src (tailIdx src - src.endL + 1)
            (vio_fifo_new src.size) src.endL src.endO) = _
      rw [if_neg hm]
    obtain ⟨a1, a2, a3, _, _⟩ :=
      copy_tail_go_spec src hs (tailIdx src - src.endL + 1) d src.endL src.endO
        hd hel (by omega) heo
    obtain ⟨b1, b2, b3, _, _⟩ :=
      copy_tail_go_spec src hs (tailIdx src - src.endL + 1) (vio_fifo_new src.size)
        src.endL src.endO (fifoInv_new src.size) hel (by omega) heo
    rw [hred1, hred2]
    refine ⟨?_, a2, a3, ?_, b2, b3⟩
    · rw [a1, hprov]
    · rw [b1, hprov, contF_new]
      simp

theorem C10_copy_tail_witness :
    FifoInv (vio_fifo_put_bytes (vio_fifo_new 1) [1,2,3]) ∧
    vio_fifo_copy_tail none (vio_fifo_put_bytes (vio_fifo_new 1) [1,2,3])
      = vio_fifo_new (vio_fifo_put_bytes (vio_fifo_new 1) [1,2,3]).size :=
  ⟨by decide,
   ((C10_copy_tail (vio_fifo_put_bytes (vio_fifo_new 1) [1,2,3]) (vio_fifo_new 2)
     (by decide) (by decide)).1 (by decide)).1⟩

/-- One unfolding of the read_nb loop body. -/
theorem read_nb_go_cons (f : Fifo) (ev : RdEv) (evs : List RdEv)
    (request total : Nat) (f1 : Fifo) (request1 : Nat)
    (h1 : f1 = if f.size ≤ f.putO then vio_fifo_add_lump f else f)
    (h2 : request1 = if f.size ≤ f.putO then request - 1 else request) :
    vio_fifo_read_nb_go f (ev :: evs) request total =
      (if (read_nb_prim ev (f1.size - f1.putO)).1 ≤ 0 then
        (if (read_nb_prim ev (f1.size - f1.putO)).1 = -2 then
          (if 0 < total then ((total : Int), f1) else (-2, f1))
         else (if (read_nb_prim ev (f1.size - f1.putO)).1 = 0 then
            ((total : Int), f1)
           else ((read_nb_prim ev (f1.size - f1.putO)).1, f1)))
       else
        (if 0 < request1 then
          vio_fifo_read_nb_go
            (writeChunk f1 (read_nb_prim ev (f1.size - f1.putO)).2)
            evs request1 (total + (read_nb_prim ev (f1.size - f1.putO)).2.length)
         else (((total + (read_nb_prim ev (f1.size - f1.putO)).2.length : Nat) : Int),
               writeChunk f1 (read_nb_prim ev (f1.size - f1.putO)).2))) := by
  subst h1 h2
  rfl
/-- Outcome of a read_nb iteration that returns the running total. -/
theorem read_nb_total_case (f1 : Fifo) (fC : List Nat) (total : Nat)
    (evs : List RdEv) (hf1 : FifoInv f1) (hc1 : contF f1 = fC) :
    FifoInv (((total : Int), f1) : Int × Fifo).2 ∧
    ((((total : Int), f1) : Int × Fifo).1 = -2 →
      total = 0 ∧ contF (((total : Int), f1) : Int × Fifo).2 = fC ∧ RdEv.eof ∈ evs) ∧
    ((((total : Int), f1) : Int × Fifo).1 = -1 → RdEv.err ∈ evs) ∧
    (0 ≤ (((total : Int), f1) : Int × Fifo).1 →
      ∃ bs, contF (((total : Int), f1) : Int × Fifo).2 = fC ++ bs ∧
        (((total : Int), f1) : Int × Fifo).1 = (total : Int) + bs.length) ∧
    ((((total : Int), f1) : Int × Fifo).1 = -2 ∨
      (((total : Int), f1) : Int × Fifo).1 = -1 ∨
      0 ≤ (((total : Int), f1) : Int × Fifo).1) := by
  refine ⟨hf1, ?_, ?_, ?_, ?_⟩
  · intro h
    have h2 : (total : Int) = -2 := h
    exfalso
    omega
  · intro h
    have h2 : (total : Int) = -1 := h
    exfalso
    omega
  · intro _
    refine ⟨[], by simpa using hc1, ?_⟩
    show (total : Int) = (total : Int) + (([] : List Nat).length : Int)
    simp
  · right; right
    show (0 : Int) ≤ (total : Int)
    omega

/-- The read_nb loop: the result code is -2 (end-of-input with nothing
read), -1 (error), or the non-negative total byte count; -2 only occurs
with zero bytes read, -1 only when an error event occurs, and a
non-negative result counts exactly the bytes appended to the FIFO. -/
theorem read_nb_go_spec : ∀ (evs : List RdEv) (f : Fifo) (request total : Nat),
    FifoInv f →
    FifoInv (vio_fifo_read_nb_go f evs request total).2 ∧
    ((vio_fifo_read_nb_go f evs request total).1 = -2 →
      total = 0 ∧ contF (vio_fifo_read_nb_go f evs request total).2 = contF f ∧
      RdEv.eof ∈ evs) ∧
    ((vio_fifo_read_nb_go f evs request total).1 = -1 → RdEv.err ∈ evs) ∧
    (0 ≤ (vio_fifo_read_nb_go f evs request total).1 →
      ∃ bs, contF (vio_fifo_read_nb_go f evs request total).2 = contF f ++ bs ∧
        (vio_fifo_read_nb_go f evs request total).1 = (total : Int) + bs.length) ∧
    ((vio_fifo_read_nb_go f evs request total).1 = -2 ∨
     (vio_fifo_read_nb_go f evs request total).1 = -1 ∨
     0 ≤ (vio_fifo_read_nb_go f evs request total).1) := by
  intro evs
  induction evs with
  | nil =>
    intro f request total hI
    have hgo : vio_fifo_read_nb_go f [] request total = ((total : Int), f) := rfl
    rw [hgo]
    exact read_nb_total_case f (contF f) total [] hI rfl
  | cons ev evs ih =>
    intro f request total hI
    have hf1 : FifoInv (if f.size ≤ f.putO then vio_fifo_add_lump f else f) := by
      by_cases hfull : f.size ≤ f.putO
      · rw [if_pos hfull]
        exact fifoInv_add_lump hI (le_antisymm hI.putO_le hfull)
      · rw [if_neg hfull]
        exact hI
    have hc1 : contF (if f.size ≤ f.putO then vio_fifo_add_lump f else f) = contF f := by
      by_cases hfull : f.size ≤ f.putO
      · rw [if_pos hfull]
        exact (add_lump_regions hI (le_antisymm hI.putO_le hfull)).2.2
      · rw [if_neg hfull]
    have hgo := read_nb_go_cons f ev evs request total
      (if f.size ≤ f.putO then vio_fifo_add_lump f else f)
      (if f.size ≤ f.putO then request - 1 else request) rfl rfl
    cases ev with
    | block =>
      have hp : read_nb_prim RdEv.block
          ((if f.size ≤ f.putO then vio_fifo_add_lump f else f).size
            - (if f.size ≤ f.putO then vio_fifo_add_lump f else f).putO)
          = ((0 : Int), ([] : List Nat)) := rfl
      rw [hp] at hgo
      norm_num at hgo
      rw [hgo]
      exact read_nb_total_case _ (contF f) total (RdEv.block :: evs) hf1 hc1
    | err =>
      have hp : read_nb_prim RdEv.err
          ((if f.size ≤ f.putO then vio_fifo_add_lump f else f).size
            - (if f.size ≤ f.putO then vio_fifo_add_lump f else f).putO)
          = ((-1 : Int), ([] : List Nat)) := rfl
      rw [hp] at hgo
      norm_num at hgo
      rw [hgo]
      refine ⟨hf1, ?_, ?_, ?_, by right; left; rfl⟩
      · intro h
        have h2 : (-1 : Int) = -2 := h
        exfalso
        omega
      · intro _
        exact List.mem_cons_self _ _
      · intro h
        have h2 : (0 : Int) ≤ -1 := h
        exfalso
        omega
    | eof =>
      have hp : read_nb_prim RdEv.eof
          ((if f.size ≤ f.putO then vio_fifo_add_lump f else f).size
            - (if f.size ≤ f.putO then vio_fifo_add_lump f else f).putO)
          = ((-2 : Int), ([] : List Nat)) := rfl
      rw [hp] at hgo
      norm_num at hgo
      by_cases ht : 0 < total
      · rw [if_pos ht] at hgo
        rw [hgo]
        exact read_nb_total_case _ (contF f) total (RdEv.eof :: evs) hf1 hc1
      · rw [if_neg ht] at hgo
        rw [hgo]
        refine ⟨hf1, ?_, ?_, ?_, by left; rfl⟩
        · intro _
          exact ⟨by omega, by simpa using hc1, List.mem_cons_self _ _⟩
        · intro h
          have h2 : (-2 : Int) = -1 := h
          exfalso
          omega
        · intro h
          have h2 : (0 : Int) ≤ -2 := h
          exfalso
          omega
    | data bs =>
      have hp : read_nb_prim (RdEv.data bs)
          ((if f.size ≤ f.putO then vio_fifo_add_lump f else f).size
            - (if f.size ≤ f.putO then vio_fifo_add_lump f else f).putO)
          = (((min bs.length
              ((if f.size ≤ f.putO then vio_fifo_add_lump f else f).size
                - (if f.size ≤ f.putO then vio_fifo_add_lump f else f).putO) : Nat) : Int),
             bs.take (min bs.length
              ((if f.size ≤ f.putO then vio_fifo_add_lump f else f).size
                - (if f.size ≤ f.putO then vio_fifo_add_lump f else f).putO))) := rfl
      rw [hp] at hgo
      dsimp only at hgo
      by_cases hz : min bs.length
          ((if f.size ≤ f.putO then vio_fifo_add_lump f else f).size
            - (if f.size ≤ f.putO then vio_fifo_add_lump f else f).putO) = 0
      · rw [hz] at hgo
        norm_num at hgo
        rw [hgo]
        exact read_nb_total_case _ (contF f) total (RdEv.data bs :: evs) hf1 hc1
      · have hcond : ¬((min bs.length
            ((if f.size ≤ f.putO then vio_fifo_add_lump f else f).size
              - (if f.size ≤ f.putO then vio_fifo_add_lump f else f).putO) : Nat) : Int) ≤ 0 := by
          omega
        rw [if_neg hcond] at hgo
        have hlen : (bs.take (min bs.length
            ((if f.size ≤ f.putO then vio_fifo_add_lump f else f).size
              - (if f.size ≤ f.putO then vio_fifo_add_lump f else f).putO))).length
            = min bs.length
              ((if f.size ≤ f.putO then vio_fifo_add_lump f else f).size
                - (if f.size ≤ f.putO then vio_fifo_add_lump f else f).putO) := by
          simp
        have hfit : (if f.size ≤ f.putO then vio_fifo_add_lump f else f).putO
            + (bs.take (min bs.length
              ((if f.size ≤ f.putO then vio_fifo_add_lump f else f).size
                - (if f.size ≤ f.putO then vio_fifo_add_lump f else f).putO))).length
            ≤ (if f.size ≤ f.putO then vio_fifo_add_lump f else f).size := by
          rw [hlen]
          have := hf1.putO_le
          omega
        have hcne : (bs.take (min bs.length
            ((if f.size ≤ f.putO then vio_fifo_add_lump f else f).size
              - (if f.size ≤ f.putO then vio_fifo_add_lump f else f).putO))) ≠ [] := by
          intro hnil
          rw [hnil] at hlen
          simp at hlen
          omega
        have hI2 : FifoInv (writeChunk (if f.size ≤ f.putO then vio_fifo_add_lump f else f)
            (bs.take (min bs.length
              ((if f.size ≤ f.putO then vio_fifo_add_lump f else f).size
                - (if f.size ≤ f.putO then vio_fifo_add_lump f else f).putO)))) :=
          fifoInv_writeChunk hf1 hfit hcne
        have hc2 : contF (writeChunk (if f.size ≤ f.putO then vio_fifo_add_lump f else f)
            (bs.take (min bs.length
              ((if f.size ≤ f.putO then vio_fifo_add_lump f else f).size
                - (if f.size ≤ f.putO then vio_fifo_add_lump f else f).putO))))
            = contF f ++ (bs.take (min bs.length
              ((if f.size ≤ f.putO then vio_fifo_add_lump f else f).size
                - (if f.size ≤ f.putO then vio_fifo_add_lump f else f).putO))) := by
          rw [contF_writeChunk hf1 hfit, hc1]
        by_cases hr1 : 0 < (if f.size ≤ f.putO then request - 1 else request)
        · rw [if_pos hr1] at hgo
          rw [hgo]
          obtain ⟨j1, j2, j3, j4, j5⟩ := ih
            (writeChunk (if f.size ≤ f.putO then vio_fifo_add_lump f else f)
              (bs.take (min bs.length
                ((if f.size ≤ f.putO then vio_fifo_add_lump f else f).size
                  - (if f.size ≤ f.putO then vio_fifo_add_lump f else f).putO))))
            (if f.size ≤ f.putO then request - 1 else request)
            (total + (bs.take (min bs.length
              ((if f.size ≤ f.putO then vio_fifo_add_lump f else f).size
                - (if f.size ≤ f.putO then vio_fifo_add_lump f else f).putO))).length)
            hI2
          refine ⟨j1, ?_, fun h => List.mem_cons_of_mem _ (j3 h), ?_, ?_⟩
          · intro h
            obtain ⟨ha, _, _⟩ := j2 h
            exfalso
            rw [hlen] at ha
            omega
          · intro h
            obtain ⟨bs2, hb, hr⟩ := j4 h
            refine ⟨(bs.take (min bs.length
              ((if f.size ≤ f.putO then vio_fifo_add_lump f else f).size
                - (if f.size ≤ f.putO then vio_fifo_add_lump f else f).putO))) ++ bs2, ?_, ?_⟩
            · rw [hb, hc2, List.append_assoc]
            · rw [hr]
              push_cast [List.length_append]
              ring
          · rcases j5 with h | h | h
            · obtain ⟨ha, _, _⟩ := j2 h
              exfalso
              rw [hlen] at ha
              omega
            · right; left
              exact h
            · right; right
              exact h
        · rw [if_neg hr1] at hgo
          rw [hgo]
          refine ⟨hI2, ?_, ?_, ?_, ?_⟩
          · intro h
            have h2 : ((total + (bs.take (min bs.length
                ((if f.size ≤ f.putO then vio_fifo_add_lump f else f).size
                  - (if f.size ≤ f.putO then vio_fifo_add_lump f else f).putO))).length : Nat) : Int)
                = -2 := h
            exfalso
            omega
          · intro h
            have h2 : ((total + (bs.take (min bs.length
                ((if f.size ≤ f.putO then vio_fifo_add_lump f else f).size
                  - (if f.size ≤ f.putO then vio_fifo_add_lump f else f).putO))).length : Nat) : Int)
                = -1 := h
            exfalso
            omega
          · intro _
            refine ⟨(bs.take (min bs.length
              ((if f.size ≤ f.putO then vio_fifo_add_lump f else f).size
                - (if f.size ≤ f.putO then vio_fifo_add_lump f else f).putO))), hc2, ?_⟩
            show ((total + (bs.take (min bs.length
                ((if f.size ≤ f.putO then vio_fifo_add_lump f else f).size
                  - (if f.size ≤ f.putO then vio_fifo_add_lump f else f).putO))).length : Nat) : Int)
              = (total : Int) + _
            push_cast
            ring
          · right; right
            show (0 : Int) ≤ ((total + (bs.take (min bs.length
                ((if f.size ≤ f.putO then vio_fifo_add_lump f else f).size
                  - (if f.size ≤ f.putO then vio_fifo_add_lump f else f).putO))).length : Nat) : Int)
            omega

/-- C6: vio_fifo_read_nb outcome sentinels.  The result is -2 only for
end-of-input met with nothing read in this call (no byte appended); when
bytes were read before end-of-input the (positive) byte count is returned
instead; a descriptor error yields -1, distinct from the EOF sentinel and
from the would-block outcome; otherwise (including would-block) the
non-negative count of bytes read in this call is returned, and exactly
that many bytes were appended to the FIFO. -/
theorem C6_read_nb (f : Fifo) (evs : List RdEv) (request : Nat)
    (hI : FifoInv f) :
    ((vio_fifo_read_nb f evs request).1 = -2 →
      contF (vio_fifo_read_nb f evs request).2 = contF f ∧ RdEv.eof ∈ evs) ∧
    ((vio_fifo_read_nb f evs request).1 = -1 → RdEv.err ∈ evs) ∧
    (0 ≤ (vio_fifo_read_nb f evs request).1 →
      ∃ bs, contF (vio_fifo_read_nb f evs request).2 = contF f ++ bs ∧
        (vio_fifo_read_nb f evs request).1 = (bs.length : Int)) ∧
    ((vio_fifo_read_nb f evs request).1 = -2 ∨
      (vio_fifo_read_nb f evs request).1 = -1 ∨
      0 ≤ (vio_fifo_read_nb f evs request).1) ∧
    FifoInv (vio_fifo_read_nb f evs request).2 := by
  obtain ⟨j1, j2, j3, j4, j5⟩ := read_nb_go_spec evs f request 0 hI
  refine ⟨fun h2 => ⟨(j2 h2).2.1, (j2 h2).2.2⟩, j3, ?_, j5, j1⟩
  intro h2
  obtain ⟨bs, hb, hr⟩ := j4 h2
  refine ⟨bs, hb, ?_⟩
  show (vio_fifo_read_nb_go f evs request 0).1 = (bs.length : Int)
  rw [hr]
  simp

theorem C6_read_nb_witness :
    FifoInv (vio_fifo_new 1) ∧
    ((vio_fifo_read_nb (vio_fifo_new 1) [RdEv.eof] 2).1 = -2 →
      contF (vio_fifo_read_nb (vio_fifo_new 1) [RdEv.eof] 2).2
        = contF (vio_fifo_new 1) ∧ RdEv.eof ∈ [RdEv.eof]) :=
  ⟨by decide, (C6_read_nb (vio_fifo_new 1) [RdEv.eof] 2 (by decide)).1⟩

/-- One unfolding of the write_nb loop body. -/
theorem write_nb_go_eq (f : Fifo) (evs : List WrEv) (all : Bool)
    (written : List Nat) :
    vio_fifo_write_nb_go f evs all written =
      if (f.getL = f.endL && !all : Bool) = true then ((0 : Int), f, written)
      else if vio_fifo_get f = 0 then ((0 : Int), f, written)
      else match evs with
        | [] => ((1 : Int), f, written)
        | ev :: rest =>
          if write_nb_prim ev (vio_fifo_get f) < 0 then ((-1 : Int), f, written)
          else
            if write_nb_prim ev (vio_fifo_get f) < (vio_fifo_get f : Int) then
              ((1 : Int),
               vio_fifo_step f (write_nb_prim ev (vio_fifo_get f)).toNat,
               written ++ readChunk f (write_nb_prim ev (vio_fifo_get f)).toNat)
            else vio_fifo_write_nb_go
              (vio_fifo_step f (write_nb_prim ev (vio_fifo_get f)).toNat) rest all
              (written ++ readChunk f (write_nb_prim ev (vio_fifo_get f)).toNat) := by
  conv_lhs => rw [vio_fifo_write_nb_go]

/-- The write_nb loop: the sink receives a prefix of the visible region and
get_ptr advances exactly past it; the result is 0 (all that should go has
gone), 1 (sink blocked) or -1 (error, only when an error event occurs);
a 0 result means the visible region is empty (all = true) or get_lump has
reached end_lump (all = false). -/
theorem write_nb_go_spec : ∀ (evs : List WrEv) (f : Fifo) (all : Bool)
    (written : List Nat), FifoInv f →
    ∃ new,
      (vio_fifo_write_nb_go f evs all written).2.2 = written ++ new ∧
      new ++ visibleF (vio_fifo_write_nb_go f evs all written).2.1 = visibleF f ∧
      FifoInv (vio_fifo_write_nb_go f evs all written).2.1 ∧
      (vio_fifo_write_nb_go f evs all written).2.1.size = f.size ∧
      (vio_fifo_write_nb_go f evs all written).2.1.hasHold = f.hasHold ∧
      (vio_fifo_write_nb_go f evs all written).2.1.hasEnd = f.hasEnd ∧
      provF (vio_fifo_write_nb_go f evs all written).2.1 = provF f ∧
      ((vio_fifo_write_nb_go f evs all written).1 = 0 ∨
       (vio_fifo_write_nb_go f evs all written).1 = 1 ∨
       (vio_fifo_write_nb_go f evs all written).1 = -1) ∧
      ((vio_fifo_write_nb_go f evs all written).1 = -1 → WrEv.werr ∈ evs) ∧
      ((vio_fifo_write_nb_go f evs all written).1 = 0 →
        (all = true → visibleF (vio_fifo_write_nb_go f evs all written).2.1 = []) ∧
        (all = false →
          (vio_fifo_write_nb_go f evs all written).2.1.getL
            = (vio_fifo_write_nb_go f evs all written).2.1.endL)) := by
  intro evs
  induction evs with
  | nil =>
    intro f all written hI
    have hget : vio_fifo_get f = pGetEndOff f - f.getO := rfl
    have hO := hI.getO_le
    by_cases hb : ((f.getL = f.endL && !all : Bool) = true)
    · have hgo : vio_fifo_write_nb_go f [] all written = ((0 : Int), f, written) := by
        rw [write_nb_go_eq, if_pos hb]
      rw [hgo]
      rw [Bool.and_eq_true, decide_eq_true_iff, Bool.not_eq_eq_eq_not] at hb
      refine ⟨[], by simp, by simp, hI, rfl, rfl, rfl, rfl, Or.inl rfl,
        ?_, ?_⟩
      · intro h
        have h2 : (0 : Int) = -1 := h
        exfalso
        omega
      · intro _
        constructor
        · intro hall
          rw [hall] at hb
          exact absurd hb.2 (by simp)
        · intro _
          exact hb.1
    · by_cases hv : vio_fifo_get f = 0
      · have hgo : vio_fifo_write_nb_go f [] all written = ((0 : Int), f, written) := by
          rw [write_nb_go_eq, if_neg hb, if_pos hv]
        rw [hgo]
        have hvempty : visibleF f = [] := by
          apply visibleF_nil_of_avail_zero hI
          omega
        refine ⟨[], by simp, by simp [hvempty], hI, rfl, rfl, rfl, rfl,
          Or.inl rfl, ?_, ?_⟩
        · intro h
          have h2 : (0 : Int) = -1 := h
          exfalso
          omega
        · intro _
          refine ⟨fun _ => hvempty, ?_⟩
          intro hall
          by_contra hge
          have hge2 : f.getL ≠ f.endL := hge
          have h1 := hI.getO_lt hge2
          rw [hget] at hv
          rw [pGetEndOff_cases, if_neg hge2] at hv hO
          omega
      · have hgo : vio_fifo_write_nb_go f [] all written = ((1 : Int), f, written) := by
          rw [write_nb_go_eq, if_neg hb, if_neg hv]
        rw [hgo]
        refine ⟨[], by simp, by simp, hI, rfl, rfl, rfl, rfl,
          Or.inr (Or.inl rfl), ?_, ?_⟩
        · intro h
          have h2 : (1 : Int) = -1 := h
          exfalso
          omega
        · intro h
          have h2 : (1 : Int) = 0 := h
          exfalso
          omega
  | cons ev rest ih =>
    intro f all written hI
    have hget : vio_fifo_get f = pGetEndOff f - f.getO := rfl
    have hO := hI.getO_le
    by_cases hb : ((f.getL = f.endL && !all : Bool) = true)
    · have hgo : vio_fifo_write_nb_go f (ev :: rest) all written
          = ((0 : Int), f, written) := by
        rw [write_nb_go_eq, if_pos hb]
      rw [hgo]
      rw [Bool.and_eq_true, decide_eq_true_iff, Bool.not_eq_eq_eq_not] at hb
      refine ⟨[], by simp, by simp, hI, rfl, rfl, rfl, rfl, Or.inl rfl,
        ?_, ?_⟩
      · intro h
        have h2 : (0 : Int) = -1 := h
        exfalso
        omega
      · intro _
        constructor
        · intro hall
          rw [hall] at hb
          exact absurd hb.2 (by simp)
        · intro _
          exact hb.1
    · by_cases hv : vio_fifo_get f = 0
      · have hgo : vio_fifo_write_nb_go f (ev :: rest) all written
            = ((0 : Int), f, written) := by
          rw [write_nb_go_eq, if_neg hb, if_pos hv]
        rw [hgo]
        have hvempty : visibleF f = [] := by
          apply visibleF_nil_of_avail_zero hI
          omega
        refine ⟨[], by simp, by simp [hvempty], hI, rfl, rfl, rfl, rfl,
          Or.inl rfl, ?_, ?_⟩
        · intro h
          have h2 : (0 : Int) = -1 := h
          exfalso
          omega
        · intro _
          refine ⟨fun _ => hvempty, ?_⟩
          intro hall
          by_contra hge
          have hge2 : f.getL ≠ f.endL := hge
          have h1 := hI.getO_lt hge2
          rw [hget] at hv
          rw [pGetEndOff_cases, if_neg hge2] at hv hO
          omega
      · cases ev with
        | werr =>
          have hgo : vio_fifo_write_nb_go f (WrEv.werr :: rest) all written
              = ((-1 : Int), f, written) := by
            rw [write_nb_go_eq, if_neg hb, if_neg hv]
            show (if write_nb_prim WrEv.werr (vio_fifo_get f) < 0
                then ((-1 : Int), f, written)
                else _) = ((-1 : Int), f, written)
            rw [if_pos (show write_nb_prim WrEv.werr (vio_fifo_get f) < 0 from
              by show (-1 : Int) < 0; omega)]
          rw [hgo]
          refine ⟨[], by simp, by simp, hI, rfl, rfl, rfl, rfl,
            Or.inr (Or.inr rfl), fun _ => List.mem_cons_self _ _, ?_⟩
          intro h
          have h2 : (-1 : Int) = 0 := h
          exfalso
          omega
        | accept k =>
          have hw : write_nb_prim (WrEv.accept k) (vio_fifo_get f)
              = ((min k (vio_fifo_get f) : Nat) : Int) := rfl
          have hnneg : ¬(write_nb_prim (WrEv.accept k) (vio_fifo_get f) < 0) := by
            rw [hw]
            omega
          have htn : (write_nb_prim (WrEv.accept k) (vio_fifo_get f)).toNat
              = min k (vio_fifo_get f) := by
            rw [hw]
            exact Int.toNat_natCast _
          have hle2 : f.getO + min k (vio_fifo_get f) ≤ pGetEndOff f := by
            have h1 : min k (vio_fifo_get f) ≤ vio_fifo_get f := min_le_right _ _
            omega
          obtain ⟨sI, ssz, shh, she, svis, sprov⟩ := step_spec hI hle2
          have hchunk : readChunk f (min k (vio_fifo_get f))
              = (visibleF f).take (min k (vio_fifo_get f)) := readChunk_eq hI hle2
          by_cases hless : write_nb_prim (WrEv.accept k) (vio_fifo_get f)
              < ((vio_fifo_get f : Nat) : Int)
          · have hgo : vio_fifo_write_nb_go f (WrEv.accept k :: rest) all written
                = ((1 : Int), vio_fifo_step f (min k (vio_fifo_get f)),
                   written ++ readChunk f (min k (vio_fifo_get f))) := by
              rw [write_nb_go_eq, if_neg hb, if_neg hv]
              show (if write_nb_prim (WrEv.accept k) (vio_fifo_get f) < 0
                  then ((-1 : Int), f, written)
                  else if write_nb_prim (WrEv.accept k) (vio_fifo_get f)
                      < ((vio_fifo_get f : Nat) : Int) then
                    ((1 : Int),
                     vio_fifo_step f (write_nb_prim (WrEv.accept k) (vio_fifo_get f)).toNat,
                     written ++ readChunk f (write_nb_prim (WrEv.accept k) (vio_fifo_get f)).toNat)
                  else _) = _
              rw [if_neg hnneg, if_pos hless, htn]
            rw [hgo]
            refine ⟨readChunk f (min k (vio_fifo_get f)), by simp, ?_, sI, ssz,
              shh, she, sprov, Or.inr (Or.inl rfl), ?_, ?_⟩
            · show readChunk f (min k (vio_fifo_get f))
                ++ visibleF (vio_fifo_step f (min k (vio_fifo_get f))) = visibleF f
              rw [hchunk, svis]
              simp
            · intro h
              have h2 : (1 : Int) = -1 := h
              exfalso
              omega
            · intro h
              have h2 : (1 : Int) = 0 := h
              exfalso
              omega
          · have hgo : vio_fifo_write_nb_go f (WrEv.accept k :: rest) all written
                = vio_fifo_write_nb_go (vio_fifo_step f (min k (vio_fifo_get f)))
                    rest all (written ++ readChunk f (min k (vio_fifo_get f))) := by
              rw [write_nb_go_eq, if_neg hb, if_neg hv]
              show (if write_nb_prim (WrEv.accept k) (vio_fifo_get f) < 0
                  then ((-1 : Int), f, written)
                  else if write_nb_prim (WrEv.accept k) (vio_fifo_get f)
                      < ((vio_fifo_get f : Nat) : Int) then
                    ((1 : Int),
                     vio_fifo_step f (write_nb_prim (WrEv.accept k) (vio_fifo_get f)).toNat,
                     written ++ readChunk f (write_nb_prim (WrEv.accept k) (vio_fifo_get f)).toNat)
                  else vio_fifo_write_nb_go
                    (vio_fifo_step f (write_nb_prim (WrEv.accept k) (vio_fifo_get f)).toNat)
                    rest all
                    (written ++ readChunk f (write_nb_prim (WrEv.accept k) (vio_fifo_get f)).toNat))
                  = _
              rw [if_neg hnneg, if_neg hless, htn]
            rw [hgo]
            obtain ⟨new2, j1, j2, j3, j4, j5, j6, j7, j8, j9, j10⟩ :=
              ih (vio_fifo_step f (min k (vio_fifo_get f))) all
                (written ++ readChunk f (min k (vio_fifo_get f))) sI
            refine ⟨readChunk f (min k (vio_fifo_get f)) ++ new2, ?_, ?_, j3,
              by rw [j4, ssz], by rw [j5, shh], by rw [j6, she],
              by rw [j7, sprov], j8, fun h => List.mem_cons_of_mem _ (j9 h), j10⟩
            · rw [j1, List.append_assoc]
            · rw [List.append_assoc, j2, svis, hchunk]
              simp

/-- C8: vio_fifo_write_nb writes a prefix of the visible region to the
sink, advancing the GET cursor exactly past the bytes actually written;
with all=false it stops before the lump holding *p_end (the still-growing
tail), with all=true a 0 result means every visible byte went.  Returns 0
when everything it should write has been written, 1 (positive) when the
sink accepted only part of a write, and -1 (negative) only when the sink
reports an error. -/
theorem C8_write_nb (f : Fifo) (evs : List WrEv) (all : Bool)
    (hI : FifoInv f) :
    (vio_fifo_write_nb f evs all).2.2
        ++ visibleF (vio_fifo_write_nb f evs all).2.1 = visibleF f ∧
    FifoInv (vio_fifo_write_nb f evs all).2.1 ∧
    provF (vio_fifo_write_nb f evs all).2.1 = provF f ∧
    ((vio_fifo_write_nb f evs all).1 = 0 ∨ (vio_fifo_write_nb f evs all).1 = 1 ∨
     (vio_fifo_write_nb f evs all).1 = -1) ∧
    ((vio_fifo_write_nb f evs all).1 = -1 → WrEv.werr ∈ evs) ∧
    ((vio_fifo_write_nb f evs all).1 = 0 →
      (all = true → visibleF (vio_fifo_write_nb f evs all).2.1 = []) ∧
      (all = false → (vio_fifo_write_nb f evs all).2.1.getL
          = (vio_fifo_write_nb f evs all).2.1.endL)) := by
  obtain ⟨new, j1, j2, j3, _, _, _, j7, j8, j9, j10⟩ :=
    write_nb_go_spec evs f all [] hI
  have hr : vio_fifo_write_nb f evs all = vio_fifo_write_nb_go f evs all [] := rfl
  rw [hr]
  refine ⟨?_, j3, j7, j8, j9, j10⟩
  rw [j1] at *
  simpa using j2

theorem C8_write_nb_witness :
    FifoInv (vio_fifo_put_bytes (vio_fifo_new 1) [1,2,3]) ∧
    (vio_fifo_write_nb (vio_fifo_put_bytes (vio_fifo_new 1) [1,2,3])
        [WrEv.accept 10] true).2.2
      ++ visibleF (vio_fifo_write_nb (vio_fifo_put_bytes (vio_fifo_new 1)
        [1,2,3]) [WrEv.accept 10] true).2.1
      = visibleF (vio_fifo_put_bytes (vio_fifo_new 1) [1,2,3]) :=
  ⟨by decide,
   (C8_write_nb (vio_fifo_put_bytes (vio_fifo_new 1) [1,2,3])
     [WrEv.accept 10] true (by decide)).1⟩

theorem seg_take_of_le {l : List Nat} {a b c : Nat} (h : b ≤ c) :
    seg (l.take c) a b = seg l a b := by
  unfold seg
  rw [List.take_take, min_eq_left h]

/-- Cropping m tail lumps keeps the first (length - m) lumps and only
touches the spare, with any new spare a well-formed lump. -/
theorem crop_n_char : ∀ (m : Nat) (f : Fifo),
    (∀ l ∈ f.lumps, l.buf.length = f.size) →
    (∀ s ∈ f.spare.toList, s.buf.length = f.size) →
    m < f.lumps.length →
    ∃ sp : Option Lump, (∀ s ∈ sp.toList, s.buf.length = f.size) ∧
      crop_n f m = { f with lumps := f.lumps.take (f.lumps.length - m),
                            spare := sp } := by
  intro m
  induction m with
  | zero =>
    intro f hwf hsp _
    refine ⟨f.spare, hsp, ?_⟩
    show f = _
    rw [Nat.sub_zero, List.take_length]
  | succ m ih =>
    intro f hwf hsp hm
    have hne : f.lumps ≠ [] := by
      intro hnil
      rw [hnil] at hm
      simp at hm
    have hgl : f.lumps.getLast? = some (f.lumps.getLast hne) :=
      List.getLast?_eq_getLast _ hne
    obtain ⟨sp1, hfr, hsp1⟩ :=
      release_lump_frame { f with lumps := f.lumps.dropLast } (f.lumps.getLast hne)
    have hcp : crop_pop f = { f with lumps := f.lumps.dropLast, spare := sp1 } := by
      unfold crop_pop
      rw [hgl]
      dsimp only
      rw [hfr]
    have hsp1wf : ∀ s ∈ sp1.toList, s.buf.length = f.size := by
      intro s hs
      rcases hsp1 with h1 | h1
      · rw [h1] at hs
        simp at hs
        rw [hs]
        exact hwf _ (List.getLast_mem hne)
      · rw [h1] at hs
        exact hsp s hs
    have hwf2 : ∀ l ∈ ({ f with lumps := f.lumps.dropLast, spare := sp1 } : Fifo).lumps,
        l.buf.length = ({ f with lumps := f.lumps.dropLast, spare := sp1 } : Fifo).size := by
      intro l hl
      exact hwf l ((List.dropLast_sublist f.lumps).mem hl)
    have hm2 : m < ({ f with lumps := f.lumps.dropLast, spare := sp1 } : Fifo).lumps.length := by
      show m < f.lumps.dropLast.length
      rw [List.length_dropLast]
      omega
    obtain ⟨sp2, hsp2wf, hcrop⟩ :=
      ih { f with lumps := f.lumps.dropLast, spare := sp1 } hwf2 hsp1wf hm2
    refine ⟨sp2, hsp2wf, ?_⟩
    show crop_n (crop_pop f) m = _
    rw [hcp, hcrop]
    have hlump : f.lumps.dropLast.take (f.lumps.dropLast.length - m)
        = f.lumps.take (f.lumps.length - (m + 1)) := by
      rw [List.dropLast_eq_take, List.take_take, List.length_take]
      congr 1
      omega
    show ({ f with lumps := f.lumps.dropLast.take (f.lumps.dropLast.length - m), spare := sp2 } : Fifo) = _
    rw [hlump]

theorem back_eq_of_cond_false (f : Fifo) (keep : Bool)
    (h : ¬(pEndPtr f ≠ putPtr f)) :
    vio_fifo_back_to_end_mark f keep
      = if keep then f else { f with hasEnd := false } := by
  simp only [vio_fifo_back_to_end_mark]
  rw [if_neg h]

theorem back_eq_of_cond_true (f : Fifo) (keep : Bool) (h : pEndPtr f ≠ putPtr f)
    (f2 : Fifo)
    (h2 : f2 = if f.endL ≠ tailIdx f then crop_n f (tailIdx f - f.endL) else f) :
    vio_fifo_back_to_end_mark f keep =
      (if keep then
        (if pStartPtr f2 = (f2.endL, f2.endO) then vio_fifo_reset_ptrs f2
         else { f2 with putO := f2.endO })
       else { (if pStartPtr f2 = (f2.endL, f2.endO) then vio_fifo_reset_ptrs f2
         else { f2 with putO := f2.endO }) with hasEnd := false }) := by
  subst h2
  simp only [vio_fifo_back_to_end_mark]
  rw [if_pos h]

/-- The crop step of back_to_end_mark keeps exactly the lumps up to and
including end_lump, touching only the spare. -/
theorem back_f2_char {f : Fifo} (hI : FifoInv f) :
    ∃ sp : Option Lump, (∀ s ∈ sp.toList, s.buf.length = f.size) ∧
      (if f.endL ≠ tailIdx f then crop_n f (tailIdx f - f.endL) else f)
        = { f with lumps := f.lumps.take (f.endL + 1), spare := sp } := by
  have hk : 0 < f.lumps.length := List.length_pos.mpr hI.ne
  have hel := hI.endL_lt
  by_cases het : f.endL ≠ tailIdx f
  · rw [if_pos het]
    have hm : tailIdx f - f.endL < f.lumps.length := by
      unfold tailIdx
      omega
    obtain ⟨sp, hspwf, hcrop⟩ := crop_n_char (tailIdx f - f.endL) f hI.wf hI.spare_wf hm
    refine ⟨sp, hspwf, ?_⟩
    rw [hcrop]
    have harith : f.lumps.length - (tailIdx f - f.endL) = f.endL + 1 := by
      unfold tailIdx at het ⊢
      omega
    rw [harith]
  · rw [if_neg het]
    refine ⟨f.spare, hI.spare_wf, ?_⟩
    have hlen : f.endL + 1 = f.lumps.length := by
      have h2 : f.endL = tailIdx f := by
        by_contra hc
        exact het hc
      unfold tailIdx at h2
      omega
    show f = _
    rw [hlen, List.take_length]

/-- In the rollback's reset branch (*p_start == end_ptr) the mark sits at
the effective start, so the FIFO was visibly empty; the reset state is a
well-formed empty single-lump FIFO whatever the mark flag becomes. -/
theorem back_reset_spec {f : Fifo} {sp : Option Lump} (hI : FifoInv f)
    (he : f.hasEnd = true) (hspwf : ∀ s ∈ sp.toList, s.buf.length = f.size)
    (hst : pStartPtr f = (f.endL, f.endO)) :
    f.getL = 0 ∧ f.endL = 0 ∧ f.getO = f.endO ∧ visibleF f = [] ∧
    (∀ b : Bool,
      FifoInv { f with lumps := f.lumps.take (f.endL + 1), spare := sp, holdO := 0, getO := 0, endO := 0, putO := 0, hasEnd := b } ∧
      visibleF { f with lumps := f.lumps.take (f.endL + 1), spare := sp, holdO := 0, getO := 0, endO := 0, putO := 0, hasEnd := b } = [] ∧
      provF { f with lumps := f.lumps.take (f.endL + 1), spare := sp, holdO := 0, getO := 0, endO := 0, putO := 0, hasEnd := b } = [] ∧
      ({ f with lumps := f.lumps.take (f.endL + 1), spare := sp, holdO := 0, getO := 0, endO := 0, putO := 0, hasEnd := b } : Fifo).lumps.length = f.endL + 1) := by
  have hk : 0 < f.lumps.length := List.length_pos.mpr hI.ne
  have hsz := hI.size_pos
  have hpe : pEndPtr f = (f.endL, f.endO) := by
    unfold pEndPtr
    rw [if_pos he]
  have hkey : f.getL = 0 ∧ f.endL = 0 ∧ f.getO = f.endO := by
    by_cases hh : f.hasHold
    · have hps : pStartPtr f = ((0 : Nat), f.holdO) := by
        unfold pStartPtr
        rw [if_pos hh]
      rw [hps, Prod.mk.injEq] at hst
      have hel0 : f.endL = 0 := hst.1.symm
      have hho : f.holdO = f.endO := hst.2
      have hgl0 : f.getL = 0 := by
        have := hI.getL_le
        omega
      have hho2 := (hI.hold_le hh).2 hgl0
      have hgo := hI.getO_le
      rw [pGetEndOff_cases, if_pos (by omega : f.getL = f.endL), if_pos he] at hgo
      exact ⟨hgl0, hel0, by omega⟩
    · have hh2 : f.hasHold = false := by
        cases hcase : f.hasHold
        · rfl
        · exact absurd hcase hh
      have hps : pStartPtr f = (f.getL, f.getO) := by
        unfold pStartPtr
        rw [if_neg hh]
        rfl
      rw [hps, Prod.mk.injEq] at hst
      have hgl0 : f.getL = 0 := hI.hold_getL hh2
      exact ⟨hgl0, by omega, hst.2⟩
  obtain ⟨hgl0, hel0, hgeo⟩ := hkey
  have hvf : visibleF f = [] := by
    apply seg_eq_nil_of_le
    show (pEndPtr f).1 * f.size + (pEndPtr f).2 ≤ f.getL * f.size + f.getO
    rw [hpe]
    show f.endL * f.size + f.endO ≤ f.getL * f.size + f.getO
    rw [hel0, hgl0]
    omega
  refine ⟨hgl0, hel0, hgeo, hvf, ?_⟩
  intro b
  have hlenR : ({ f with lumps := f.lumps.take (f.endL + 1), spare := sp, holdO := 0, getO := 0, endO := 0, putO := 0, hasEnd := b } : Fifo).lumps.length
      = f.endL + 1 := by
    show (f.lumps.take (f.endL + 1)).length = f.endL + 1
    rw [List.length_take]
    have := hI.endL_lt
    omega
  have htR : tailIdx { f with lumps := f.lumps.take (f.endL + 1), spare := sp, holdO := 0, getO := 0, endO := 0, putO := 0, hasEnd := b } = 0 := by
    unfold tailIdx
    rw [hlenR]
    omega
  have hvR : visibleF { f with lumps := f.lumps.take (f.endL + 1), spare := sp, holdO := 0, getO := 0, endO := 0, putO := 0, hasEnd := b } = [] := by
    apply seg_eq_nil_of_le
    unfold pEndPtr putPtr gpos getPtr
    by_cases hb : ({ f with lumps := f.lumps.take (f.endL + 1), spare := sp, holdO := 0, getO := 0, endO := 0, putO := 0, hasEnd := b } : Fifo).hasEnd = true
    · rw [if_pos hb]
      show f.endL * f.size + 0 ≤ f.getL * f.size + 0
      rw [hel0, hgl0]
    · rw [if_neg hb]
      rw [htR]
      show 0 * f.size + 0 ≤ f.getL * f.size + 0
      omega
  have hpR : provF { f with lumps := f.lumps.take (f.endL + 1), spare := sp, holdO := 0, getO := 0, endO := 0, putO := 0, hasEnd := b } = [] := by
    apply seg_eq_nil_of_le
    unfold pEndPtr putPtr gpos
    rw [htR]
    by_cases hb : ({ f with lumps := f.lumps.take (f.endL + 1), spare := sp, holdO := 0, getO := 0, endO := 0, putO := 0, hasEnd := b } : Fifo).hasEnd = true
    · rw [if_pos hb]
      show 0 * f.size + 0 ≤ f.endL * f.size + 0
      omega
    · rw [if_neg hb]
  refine ⟨?_, hvR, hpR, hlenR⟩
  refine ⟨hsz, ?_, ?_, hspwf, ?_, ?_, fun _ => hgl0, ?_, ?_, Nat.zero_le _,
    ?_, Nat.zero_le _, ?_, ?_, ?_⟩
  · intro hnil
    have := congrArg List.length hnil
    rw [hlenR] at this
    simp at this
  · intro l hl
    exact hI.wf l ((List.take_sublist _ _).mem hl)
  · exact hI.getL_le
  · show f.endL < (f.lumps.take (f.endL + 1)).length
    rw [show (f.lumps.take (f.endL + 1)).length = f.endL + 1 from hlenR]
    omega
  · intro _
    show f.endL = tailIdx _
    rw [htR, hel0]
  · intro _
    exact ⟨Nat.zero_le _, fun _ => le_refl 0⟩
  · intro _
    refine ⟨Nat.zero_le _, fun _ => le_refl 0, ?_⟩
    intro h2
    exfalso
    have h3 : f.endL < tailIdx { f with lumps := f.lumps.take (f.endL + 1), spare := sp, holdO := 0, getO := 0, endO := 0, putO := 0, hasEnd := b } := h2
    rw [htR] at h3
    omega
  · intro h
    exact absurd (show f.getL = f.endL by omega) h
  · intro _
    left
    unfold fifoEmpty
    rw [decide_eq_true_iff]
    unfold pStartPtr putPtr
    rw [htR]
    by_cases hh : ({ f with lumps := f.lumps.take (f.endL + 1), spare := sp, holdO := 0, getO := 0, endO := 0, putO := 0, hasEnd := b } : Fifo).hasHold = true
    · rw [if_pos hh]
    · rw [if_neg hh]
      rw [Prod.mk.injEq]
      exact ⟨hgl0, rfl⟩
  · intro _
    exact ⟨by rw [hlenR, hel0], hgl0, hel0, rfl, rfl⟩

/-- In the rollback's non-reset branch put_ptr moves back to the end mark:
the visible region is untouched, the provisional region vanishes, and the
state stays well formed whatever the mark flag becomes. -/
theorem back_put_spec {f : Fifo} {sp : Option Lump} (b : Bool) (hI : FifoInv f)
    (he : f.hasEnd = true) (hspwf : ∀ s ∈ sp.toList, s.buf.length = f.size)
    (hst : pStartPtr f ≠ (f.endL, f.endO)) :
    FifoInv { f with lumps := f.lumps.take (f.endL + 1), spare := sp, putO := f.endO, hasEnd := b } ∧
    visibleF { f with lumps := f.lumps.take (f.endL + 1), spare := sp, putO := f.endO, hasEnd := b } = visibleF f ∧
    provF { f with lumps := f.lumps.take (f.endL + 1), spare := sp, putO := f.endO, hasEnd := b } = [] ∧
    ({ f with lumps := f.lumps.take (f.endL + 1), spare := sp, putO := f.endO, hasEnd := b } : Fifo).lumps.length = f.endL + 1 := by
  have hk : 0 < f.lumps.length := List.length_pos.mpr hI.ne
  have hsz := hI.size_pos
  have hel := hI.endL_lt
  have heo : f.endO ≤ f.size := (hI.end_le he).1
  have hpe : pEndPtr f = (f.endL, f.endO) := by
    unfold pEndPtr
    rw [if_pos he]
  have hlenS : ({ f with lumps := f.lumps.take (f.endL + 1), spare := sp, putO := f.endO, hasEnd := b } : Fifo).lumps.length = f.endL + 1 := by
    show (f.lumps.take (f.endL + 1)).length = f.endL + 1
    rw [List.length_take]
    omega
  have htS : tailIdx { f with lumps := f.lumps.take (f.endL + 1), spare := sp, putO := f.endO, hasEnd := b } = f.endL := by
    unfold tailIdx
    rw [hlenS]
    omega
  have hwfb : ∀ x ∈ f.lumps.map (fun l => l.buf), x.length = f.size := by
    simpa using hI.wf
  have hflatS : flatF { f with lumps := f.lumps.take (f.endL + 1), spare := sp, putO := f.endO, hasEnd := b } = (flatF f).take ((f.endL + 1) * f.size) := by
    show ((f.lumps.take (f.endL + 1)).map (fun l => l.buf)).flatten = _
    rw [List.map_take]
    unfold flatF
    rw [flatten_take_of_wf hwfb (f.endL + 1)]
  have hgpendS : gpos { f with lumps := f.lumps.take (f.endL + 1), spare := sp, putO := f.endO, hasEnd := b } (pEndPtr { f with lumps := f.lumps.take (f.endL + 1), spare := sp, putO := f.endO, hasEnd := b }) = f.endL * f.size + f.endO := by
    unfold pEndPtr putPtr gpos
    by_cases hb : ({ f with lumps := f.lumps.take (f.endL + 1), spare := sp, putO := f.endO, hasEnd := b } : Fifo).hasEnd = true
    · rw [if_pos hb]
    · rw [if_neg hb]
      unfold tailIdx
      rw [show (({ f with lumps := f.lumps.take (f.endL + 1), spare := sp, putO := f.endO, hasEnd := b } : Fifo).lumps.length) = f.endL + 1 from hlenS, Nat.add_sub_cancel]
  have hgpendf : gpos f (pEndPtr f) = f.endL * f.size + f.endO := by
    rw [hpe]
    rfl
  have hgle : f.endL * f.size + f.endO ≤ (f.endL + 1) * f.size := by
    have e1 : (f.endL + 1) * f.size = f.endL * f.size + f.size := by ring
    omega
  have hpg : pGetEndOff { f with lumps := f.lumps.take (f.endL + 1), spare := sp, putO := f.endO, hasEnd := b } = pGetEndOff f := by
    have h1 : pGetEndOff { f with lumps := f.lumps.take (f.endL + 1), spare := sp, putO := f.endO, hasEnd := b } = if f.getL = f.endL then f.endO else f.size := by
      rw [pGetEndOff_cases]
      show (if f.getL = f.endL then (if ({ f with lumps := f.lumps.take (f.endL + 1), spare := sp, putO := f.endO, hasEnd := b } : Fifo).hasEnd = true then f.endO else f.endO) else f.size) = _
      rw [ite_self]
    have h2 : pGetEndOff f = if f.getL = f.endL then f.endO else f.size := by
      rw [pGetEndOff_cases, if_pos he]
    rw [h1, h2]
  have hvisS : visibleF { f with lumps := f.lumps.take (f.endL + 1), spare := sp, putO := f.endO, hasEnd := b } = visibleF f := by
    unfold visibleF
    have hgg : gpos { f with lumps := f.lumps.take (f.endL + 1), spare := sp, putO := f.endO, hasEnd := b } (getPtr { f with lumps := f.lumps.take (f.endL + 1), spare := sp, putO := f.endO, hasEnd := b }) = gpos f (getPtr f) := rfl
    rw [hgg, hflatS, hgpendS, hgpendf, seg_take_of_le hgle]
  have hprovS : provF { f with lumps := f.lumps.take (f.endL + 1), spare := sp, putO := f.endO, hasEnd := b } = [] := by
    apply seg_eq_nil_of_le
    rw [hgpendS]
    show tailIdx { f with lumps := f.lumps.take (f.endL + 1), spare := sp, putO := f.endO, hasEnd := b } * f.size + f.endO ≤ f.endL * f.size + f.endO
    rw [htS]
  refine ⟨?_, hvisS, hprovS, hlenS⟩
  refine ⟨hsz, ?_, ?_, hspwf, hI.getL_le, ?_, hI.hold_getL, ?_, hI.hold_le, ?_,
    ?_, heo, hI.getO_lt, ?_, ?_⟩
  · intro hnil
    have := congrArg List.length hnil
    rw [hlenS] at this
    simp at this
  · intro l hl
    exact hI.wf l ((List.take_sublist _ _).mem hl)
  · show f.endL < (f.lumps.take (f.endL + 1)).length
    rw [show (f.lumps.take (f.endL + 1)).length = f.endL + 1 from hlenS]
    omega
  · intro _
    show f.endL = tailIdx _
    rw [htS]
  · show f.getO ≤ pGetEndOff _
    rw [hpg]
    exact hI.getO_le
  · intro _
    refine ⟨heo, fun _ => le_refl _, ?_⟩
    intro h2
    exfalso
    have h3 : f.endL < tailIdx { f with lumps := f.lumps.take (f.endL + 1), spare := sp, putO := f.endO, hasEnd := b } := h2
    rw [htS] at h3
    omega
  · intro hat
    have hat2 : f.getO = pGetEndOff f := by
      have h4 : f.getO = pGetEndOff { f with lumps := f.lumps.take (f.endL + 1), spare := sp, putO := f.endO, hasEnd := b } := hat
      rw [hpg] at h4
      exact h4
    by_cases hh : f.hasHold
    · right; left
      exact hh
    · exfalso
      have hh2 : f.hasHold = false := by
        cases hcase : f.hasHold
        · rfl
        · exact absurd hcase hh
      by_cases hge : f.getL = f.endL
      · rw [pGetEndOff_cases, if_pos hge, if_pos he] at hat2
        apply hst
        unfold pStartPtr
        rw [if_neg hh]
        show (f.getL, f.getO) = (f.endL, f.endO)
        rw [Prod.mk.injEq]
        exact ⟨hge, hat2⟩
      · rw [pGetEndOff_cases, if_neg hge] at hat2
        have := hI.getO_lt hge
        omega
  · intro hemp
    exfalso
    unfold fifoEmpty at hemp
    rw [decide_eq_true_iff] at hemp
    apply hst
    have ea : pStartPtr { f with lumps := f.lumps.take (f.endL + 1), spare := sp, putO := f.endO, hasEnd := b } = pStartPtr f := rfl
    have eb : putPtr { f with lumps := f.lumps.take (f.endL + 1), spare := sp, putO := f.endO, hasEnd := b } = (tailIdx { f with lumps := f.lumps.take (f.endL + 1), spare := sp, putO := f.endO, hasEnd := b }, f.endO) := rfl
    rw [ea, eb, htS] at hemp
    exact hemp

/-- When the end mark sits exactly at put_ptr the rollback touches
nothing; clearing the mark afterwards keeps the invariant and the visible
region, and the provisional region is empty throughout. -/
theorem back_noop_spec {f : Fifo} (hI : FifoInv f) (he : f.hasEnd = true)
    (hpp : pEndPtr f = putPtr f) :
    provF f = [] ∧ f.lumps.length = f.endL + 1 ∧
    FifoInv { f with hasEnd := false } ∧
    visibleF { f with hasEnd := false } = visibleF f ∧
    provF { f with hasEnd := false } = [] := by
  have hk : 0 < f.lumps.length := List.length_pos.mpr hI.ne
  have hpe : pEndPtr f = (f.endL, f.endO) := by
    unfold pEndPtr
    rw [if_pos he]
  have hkey : f.endL = tailIdx f ∧ f.endO = f.putO := by
    have h2 : ((f.endL, f.endO) : Nat × Nat) = (tailIdx f, f.putO) := by
      rw [← hpe, hpp]
      rfl
    rw [Prod.mk.injEq] at h2
    exact h2
  obtain ⟨hel, heop⟩ := hkey
  have hprovf : provF f = [] := by
    apply seg_eq_nil_of_le
    rw [hpp]
  have hlen : f.lumps.length = f.endL + 1 := by
    unfold tailIdx at hel
    omega
  have hgne : ¬(({ f with hasEnd := false } : Fifo).hasEnd = true) := by
    simp
  have hpeg : pEndPtr { f with hasEnd := false } = putPtr f := by
    unfold pEndPtr
    rw [if_neg hgne]
    rfl
  have hvg : visibleF { f with hasEnd := false } = visibleF f := by
    unfold visibleF
    have e1 : flatF { f with hasEnd := false } = flatF f := rfl
    have e2 : gpos { f with hasEnd := false } (getPtr { f with hasEnd := false })
        = gpos f (getPtr f) := rfl
    have e3 : gpos { f with hasEnd := false } (pEndPtr { f with hasEnd := false })
        = gpos f (putPtr f) := by
      rw [hpeg]
      rfl
    rw [e1, e2, e3, ← hpp]
  have hpvg : provF { f with hasEnd := false } = [] := by
    apply seg_eq_nil_of_le
    rw [hpeg]
    show gpos f (putPtr f) ≤ gpos { f with hasEnd := false } (putPtr { f with hasEnd := false })
    rfl
  have hpgg : pGetEndOff { f with hasEnd := false } = pGetEndOff f := by
    rw [pGetEndOff_cases, pGetEndOff_cases, if_pos he]
    show (if f.getL = f.endL then (if ({ f with hasEnd := false } : Fifo).hasEnd = true then f.endO else f.putO) else f.size) = _
    rw [if_neg hgne, ← heop]
  refine ⟨hprovf, hlen, ?_, hvg, hpvg⟩
  refine ⟨hI.size_pos, hI.ne, hI.wf, hI.spare_wf, hI.getL_le, hI.endL_lt,
    hI.hold_getL, ?_, hI.hold_le, ?_, ?_, hI.putO_le, hI.getO_lt, ?_, ?_⟩
  · intro _
    show f.endL = tailIdx f
    exact hel
  · show f.getO ≤ pGetEndOff { f with hasEnd := false }
    rw [hpgg]
    exact hI.getO_le
  · intro h
    exact absurd h hgne
  · intro hat
    have hat2 : f.getO = pGetEndOff f := by
      have h4 : f.getO = pGetEndOff { f with hasEnd := false } := hat
      rw [hpgg] at h4
      exact h4
    by_cases hh : f.hasHold
    · right; left
      exact hh
    · by_cases hge : f.getL = f.endL
      · left
        rw [pGetEndOff_cases, if_pos hge, if_pos he] at hat2
        unfold fifoEmpty pStartPtr putPtr
        rw [decide_eq_true_iff]
        rw [if_neg (show ¬(({ f with hasEnd := false } : Fifo).hasHold = true) from hh)]
        show ((f.getL, f.getO) : Nat × Nat) = (tailIdx f, f.putO)
        rw [Prod.mk.injEq]
        exact ⟨by omega, by omega⟩
      · exfalso
        rw [pGetEndOff_cases, if_neg hge] at hat2
        have := hI.getO_lt hge
        omega
  · intro hemp
    have hemp2 : fifoEmpty f = true := hemp
    exact hI.empty_shape hemp2

/-- C3: end-mark rollback.  With an end mark active, the provisional bytes
appended after the mark are discarded: the visible region is exactly what
it was, the provisional region becomes empty, fully-discarded tail lumps
are released (the list is cropped to end_lump), the invariant still holds
(in particular, if the discard empties the FIFO all cursors are in the
collapsed reset shape), and a subsequent drain returns exactly the old
visible bytes.  With no end mark active the operation discards nothing. -/
theorem C3_end_mark_rollback (f : Fifo) (keep : Bool) (n : Nat)
    (hI : FifoInv f) :
    (f.hasEnd = true →
      visibleF (vio_fifo_back_to_end_mark f keep) = visibleF f ∧
      provF (vio_fifo_back_to_end_mark f keep) = [] ∧
      FifoInv (vio_fifo_back_to_end_mark f keep) ∧
      (vio_fifo_back_to_end_mark f keep).lumps.length = f.endL + 1 ∧
      (vio_fifo_get_bytes (vio_fifo_back_to_end_mark f keep) n).1
        = (visibleF f).take n) ∧
    (f.hasEnd = false →
      vio_fifo_back_to_end_mark f true = f ∧
      vio_fifo_back_to_end_mark f false = { f with hasEnd := false }) := by
  constructor
  · intro he
    by_cases hpp : pEndPtr f = putPtr f
    · have hnn : ¬(pEndPtr f ≠ putPtr f) := by simpa using hpp
      rw [back_eq_of_cond_false f keep hnn]
      obtain ⟨hprovf, hlen, gInv, gvis, gprov⟩ := back_noop_spec hI he hpp
      cases keep with
      | true =>
        refine ⟨rfl, hprovf, hI, show f.lumps.length = f.endL + 1 by omega,
          (get_bytes_spec n hI).1⟩
      | false =>
        refine ⟨gvis, gprov, gInv, ?_, ?_⟩
        · show f.lumps.length = f.endL + 1
          omega
        · have h5 := (get_bytes_spec n gInv).1
          rw [gvis] at h5
          exact h5
    · have hne : pEndPtr f ≠ putPtr f := hpp
      obtain ⟨sp, hspwf, hf2⟩ := back_f2_char hI
      rw [back_eq_of_cond_true f keep hne
        { f with lumps := f.lumps.take (f.endL + 1), spare := sp } hf2.symm]
      by_cases hst : pStartPtr f = (f.endL, f.endO)
      · have hc : pStartPtr { f with lumps := f.lumps.take (f.endL + 1), spare := sp }
            = (({ f with lumps := f.lumps.take (f.endL + 1), spare := sp } : Fifo).endL,
               ({ f with lumps := f.lumps.take (f.endL + 1), spare := sp } : Fifo).endO) := hst
        rw [if_pos hc]
        obtain ⟨hgl0, hel0, hgeo, hvf, hR⟩ := back_reset_spec hI he hspwf hst
        cases keep with
        | true =>
          obtain ⟨rInv, rvis, rprov, rlen⟩ := hR f.hasEnd
          refine ⟨rvis.trans hvf.symm, rprov, rInv, rlen, ?_⟩
          have h5 := (get_bytes_spec n rInv).1
          rw [rvis] at h5
          exact h5.trans (by rw [hvf])
        | false =>
          obtain ⟨rInv, rvis, rprov, rlen⟩ := hR false
          refine ⟨rvis.trans hvf.symm, rprov, rInv, rlen, ?_⟩
          have h5 := (get_bytes_spec n rInv).1
          rw [rvis] at h5
          exact h5.trans (by rw [hvf])
      · have hc : ¬(pStartPtr { f with lumps := f.lumps.take (f.endL + 1), spare := sp }
            = (({ f with lumps := f.lumps.take (f.endL + 1), spare := sp } : Fifo).endL,
               ({ f with lumps := f.lumps.take (f.endL + 1), spare := sp } : Fifo).endO)) :=
          fun h => hst h
        rw [if_neg hc]
        cases keep with
        | true =>
          obtain ⟨sInv, svis, sprov, slen⟩ := back_put_spec f.hasEnd hI he hspwf hst
          refine ⟨svis, sprov, sInv, slen, ?_⟩
          have h5 := (get_bytes_spec n sInv).1
          rw [svis] at h5
          exact h5
        | false =>
          obtain ⟨sInv, svis, sprov, slen⟩ := back_put_spec false hI he hspwf hst
          refine ⟨svis, sprov, sInv, slen, ?_⟩
          have h5 := (get_bytes_spec n sInv).1
          rw [svis] at h5
          exact h5
  · intro he
    have hpp : pEndPtr f = putPtr f := by
      unfold pEndPtr
      rw [if_neg (by rw [he]; simp)]
    have hnn : ¬(pEndPtr f ≠ putPtr f) := by simpa using hpp
    constructor
    · rw [back_eq_of_cond_false f true hnn]
      rfl
    · rw [back_eq_of_cond_false f false hnn]
      rfl

theorem C3_end_mark_rollback_witness :
    FifoInv (vio_fifo_put_bytes (vio_fifo_set_end_mark (vio_fifo_put_bytes
      (vio_fifo_new 1) [1,2])) [3,4]) ∧
    (vio_fifo_put_bytes (vio_fifo_set_end_mark (vio_fifo_put_bytes
      (vio_fifo_new 1) [1,2])) [3,4]).hasEnd = true ∧
    visibleF (vio_fifo_back_to_end_mark (vio_fifo_put_bytes
        (vio_fifo_set_end_mark (vio_fifo_put_bytes (vio_fifo_new 1) [1,2]))
        [3,4]) true)
      = visibleF (vio_fifo_put_bytes (vio_fifo_set_end_mark
        (vio_fifo_put_bytes (vio_fifo_new 1) [1,2])) [3,4]) :=
  ⟨by decide, by decide,
   ((C3_end_mark_rollback (vio_fifo_put_bytes (vio_fifo_set_end_mark
      (vio_fifo_put_bytes (vio_fifo_new 1) [1,2])) [3,4]) true 5
      (by decide)).1 (by decide)).1⟩
